import Mathlib

/-!
MobDiver: a Gillespie simulation of cyclic dominance on a torus.

Shallow embedding of `src/FinalWork_frames.cpp` (class `Game2D`).

Conventions of the embedding.

* `double` quantities (the rates, the total escape rate `W`, the random draws) live in an
  arbitrary linearly ordered field `K`, so arithmetic is exact.  Everything is executable at
  `K = ℚ`; the logarithm of the time update is a parameter `log : K → K` and is instantiated
  with `Real.log` at `K = ℝ` where its properties matter.
* The clock is the only quantity that is ever divided by `W`, so it is a `Clock K`: a finite
  value or one of the IEEE specials produced by a division by zero.  The statement that
  advances it is also given in `double` arithmetic (`roundDouble`: 53 significant bits, round
  to nearest, ties to even, overflow to an infinity), where a small increment is absorbed.
* `unsigned` quantities are natural numbers reduced modulo `2 ^ 32` where the source computes
  them (`pos_by_indeces`, `L*L`).  The side length of a well-formed engine is below `2 ^ 16`;
  beyond that `L*L` wraps and the constructor indexes its vectors out of bounds.
* `std::vector` is `List`; an element access `v[i]` is `v.getD i 0`, always in range for a
  well-formed engine.
* The random generator is replaced by the values it returns, passed as arguments.
-/

namespace MobDiver

/-! ## Enumerations and the winning table -/

/-- Code of `enum types`, first kind. -/
abbrev TYPE_A : Nat := 0
/-- Code of `enum types`, second kind. -/
abbrev TYPE_B : Nat := 1
/-- Code of `enum types`, third kind. -/
abbrev TYPE_C : Nat := 2
/-- Code of `enum types`, the vacancy. -/
abbrev EMPTY : Nat := 3

/-- Mirror of `enum interactions`. -/
inductive interactions where
  | SELECTION
  | REPRODUCTION
  | EXCHANGE
  | ERROR
  deriving DecidableEq, Repr

/-- The constant `winningTable[3][3]`. -/
def winningTable : List (List Nat) :=
  [[EMPTY, TYPE_A, TYPE_C], [TYPE_A, EMPTY, TYPE_B], [TYPE_C, TYPE_B, EMPTY]]

/-- The read `winningTable[a][b]`.  The source only performs it in the Selection branch,
where both indices are kinds of a valid lattice (in `{0, 1, 2}`). -/
def winningTableAt (a b : Nat) : Nat := (winningTable.getD a []).getD b 0

/-- Modulus of `unsigned` arithmetic. -/
def UINT_MOD : Nat := 4294967296

/-- Exclusive bound of `short unsigned`. -/
def USHORT_MOD : Nat := 65536

/-! ## The clock -/

/-- Value of the `double` clock `t`: finite, or an IEEE special. -/
inductive Clock (K : Type) where
  | fin (x : K)
  | posInf
  | negInf
  | nan
  deriving DecidableEq

section Engine

variable {K : Type} [LinearOrderedField K]

/-- The quotient `x / w` of two finite doubles, with the IEEE results of a zero divisor. -/
def Clock.quot (x w : K) : Clock K :=
  if w = 0 then
    if 0 < x then Clock.posInf else if x < 0 then Clock.negInf else Clock.nan
  else Clock.fin (x / w)

/-- The difference `t - q` with the IEEE rules for infinities and NaN. -/
def Clock.sub : Clock K → Clock K → Clock K
  | Clock.nan, _ => Clock.nan
  | _, Clock.nan => Clock.nan
  | Clock.fin a, Clock.fin b => Clock.fin (a - b)
  | Clock.fin _, Clock.posInf => Clock.negInf
  | Clock.fin _, Clock.negInf => Clock.posInf
  | Clock.posInf, Clock.posInf => Clock.nan
  | Clock.posInf, _ => Clock.posInf
  | Clock.negInf, Clock.negInf => Clock.nan
  | Clock.negInf, _ => Clock.negInf

/-- The order `s ≤ t` of two clock values; NaN compares false with everything. -/
def Clock.le : Clock K → Clock K → Prop
  | Clock.nan, _ => False
  | _, Clock.nan => False
  | Clock.negInf, _ => True
  | _, Clock.posInf => True
  | Clock.fin a, Clock.fin b => a ≤ b
  | Clock.fin _, Clock.negInf => False
  | Clock.posInf, _ => False

/-- The strict order `s < t` of two clock values. -/
def Clock.lt : Clock K → Clock K → Prop
  | Clock.nan, _ => False
  | _, Clock.nan => False
  | Clock.fin a, Clock.fin b => a < b
  | Clock.fin _, Clock.posInf => True
  | Clock.negInf, Clock.fin _ => True
  | Clock.negInf, Clock.posInf => True
  | _, _ => False

/-! ## The engine state -/

/-- Data members of `class Game2D` (the generator is replaced by its draws). -/
structure Game2D (K : Type) where
  sigma : K
  mu : K
  epsilon : K
  L : Nat
  animals : List Nat
  neighbours : List (List Nat)
  W : K
  t : Clock K
  deriving DecidableEq

/-- The method `pos_by_indeces`: `i*L + j` in `unsigned` arithmetic. -/
def pos_by_indeces (L i j : Nat) : Nat := (i * L + j) % UINT_MOD

/-- The value `L*L` as the source computes it (`unsigned`). -/
def Game2D.N (g : Game2D K) : Nat := (g.L * g.L) % UINT_MOD

/-- A table filled by the double loop `for i < L, for j < L` at index `pos_by_indeces(i, j)`:
the entries in row-major order. -/
def fillTable (L : Nat) (f : Nat → Nat → Nat) : List Nat :=
  (List.range L).flatMap (fun i => (List.range L).map (fun j => f i j))

/-- The method `calculate_neighbours`: the four tables up, left, down, right.  The decrement
`i-1` is only taken for `i > 0`, and `L-1` only inside the loops, where `L ≥ 1`. -/
def calculate_neighbours (L : Nat) : List (List Nat) :=
  [ fillTable L (fun i j => pos_by_indeces L (if i > 0 then i - 1 else L - 1) j),
    fillTable L (fun i j => pos_by_indeces L i (if j > 0 then j - 1 else L - 1)),
    fillTable L (fun i j => pos_by_indeces L (if i < L - 1 then i + 1 else 0) j),
    fillTable L (fun i j => pos_by_indeces L i (if j < L - 1 then j + 1 else 0)) ]

/-- The read `animals[i]`. -/
def Game2D.cell (g : Game2D K) (i : Nat) : Nat := g.animals.getD i 0

/-- The read `neighbours[n][i]`. -/
def Game2D.nbr (g : Game2D K) (n i : Nat) : Nat := (g.neighbours.getD n []).getD i 0

/-- Body shared by the loops of `W_ind` and `calculate_W`: the accumulator after looking at
site `i` and the site `n_ind`. -/
def Game2D.addRate (g : Game2D K) (i n_ind : Nat) (acc : K) : K :=
  if g.cell i ≠ g.cell n_ind then
    if g.cell i = EMPTY ∨ g.cell n_ind = EMPTY then acc + g.epsilon + g.mu
    else acc + g.epsilon + g.sigma
  else acc

/-- The method `W_ind`: contribution of site `i` over its four directions. -/
def Game2D.W_ind (g : Game2D K) (i : Nat) : K :=
  (List.range 4).foldl (fun W_r n => g.addRate i (g.nbr n i) W_r) 0

/-- The method `calculate_W`: every site, directions 0 and 1. -/
def Game2D.calculate_W (g : Game2D K) : K :=
  (List.range g.N).foldl
    (fun W_calc i => (List.range 2).foldl (fun W_c n => g.addRate i (g.nbr n i) W_c) W_calc) 0

/-- The constructor `Game2D::Game2D`; `ran_t k` is the value of the `k`-th call `ran_t(gen)`. -/
def Game2D.construct (length : Nat) (M selec repr t0 : K) (ran_t : Nat → Nat) : Game2D K :=
  let g0 : Game2D K :=
    { sigma := selec, mu := repr, epsilon := (1 / 2) * M * length * length, L := length,
      animals := (List.range ((length * length) % UINT_MOD)).map ran_t,
      neighbours := calculate_neighbours length, W := 0, t := Clock.fin t0 }
  { g0 with W := g0.calculate_W }

/-! ## One Gillespie step -/

/-- Site/direction pairs in the order of the two nested loops of the scan. -/
def scanOrder (N : Nat) : List (Nat × Nat) :=
  (List.range N).flatMap (fun i => (List.range 2).map (fun n => (i, n)))

/-- The selection scan of `operator++` from a given point of the iteration, with running
total `sum`.  `some (i, n, op)` are the values of `i`, `n`, `op` at the label `change`;
`none` means that the loops ran to completion (`op` is still `ERROR`). -/
def Game2D.scanFrom (g : Game2D K) (ran_W : K) :
    List (Nat × Nat) → K → Option (Nat × Nat × interactions)
  | [], _ => none
  | (i, n) :: rest, sum =>
    if g.cell i ≠ g.cell (g.nbr n i) then
      if sum + g.epsilon > ran_W then some (i, n, interactions.EXCHANGE)
      else if g.cell i = EMPTY ∨ g.cell (g.nbr n i) = EMPTY then
        if sum + g.epsilon + g.mu > ran_W then some (i, n, interactions.REPRODUCTION)
        else g.scanFrom ran_W rest (sum + g.epsilon + g.mu)
      else
        if sum + g.epsilon + g.sigma > ran_W then some (i, n, interactions.SELECTION)
        else g.scanFrom ran_W rest (sum + g.epsilon + g.sigma)
    else g.scanFrom ran_W rest sum

/-- The whole selection scan of `operator++`. -/
def Game2D.scan (g : Game2D K) (ran_W : K) : Option (Nat × Nat × interactions) :=
  g.scanFrom ran_W (scanOrder g.N) 0

/-- The call `std::swap(animals[i], animals[j])`. -/
def swapCells (a : List Nat) (i j : Nat) : List Nat :=
  (a.set i (a.getD j 0)).set j (a.getD i 0)

/-- The `switch (op)` of `operator++` followed by `W += W_fin - W_ini`, for an operation
other than `ERROR`. -/
def Game2D.applyEvent (g : Game2D K) (i n_ind : Nat) : interactions → Game2D K
  | interactions.EXCHANGE =>
    let W_ini := g.W_ind i + g.W_ind n_ind
    let g1 := { g with animals := swapCells g.animals i n_ind }
    let W_fin := g1.W_ind i + g1.W_ind n_ind
    { g1 with W := g1.W + (W_fin - W_ini) }
  | interactions.REPRODUCTION =>
    if g.cell i = EMPTY then
      let W_ini := g.W_ind i
      let g1 := { g with animals := g.animals.set i (g.cell n_ind) }
      let W_fin := g1.W_ind i
      { g1 with W := g1.W + (W_fin - W_ini) }
    else
      let W_ini := g.W_ind n_ind
      let g1 := { g with animals := g.animals.set n_ind (g.cell i) }
      let W_fin := g1.W_ind n_ind
      { g1 with W := g1.W + (W_fin - W_ini) }
  | interactions.SELECTION =>
    let n := if g.cell i = winningTableAt (g.cell i) (g.cell n_ind) then n_ind else i
    let W_ini := g.W_ind n
    let g1 := { g with animals := g.animals.set n EMPTY }
    let W_fin := g1.W_ind n
    { g1 with W := g1.W + (W_fin - W_ini) }
  | interactions.ERROR => g

/-- The statement `t -= std::log(ran_u(gen))/W` that opens `operator++`; `u1` is the value
of `ran_u(gen)`. -/
def Game2D.tick (log : K → K) (g : Game2D K) (u1 : K) : Game2D K :=
  { g with t := g.t.sub (Clock.quot (log u1) g.W) }

/-- The operator `Game2D::operator++`.  `u1` and `u2` are the two values of `ran_u(gen)`.
`Except.ok` is a normal return; `Except.error` is the `std::runtime_error` of the `default`
branch and carries the object as the throw leaves it. -/
def Game2D.operator_inc (log : K → K) (g : Game2D K) (u1 u2 : K) :
    Except (Game2D K) (Game2D K) :=
  let g1 := g.tick log u1
  let ran_W := u2 * g1.W
  match g1.scan ran_W with
  | none => Except.error g1
  | some (i, n, op) =>
    if op = interactions.ERROR then Except.error g1
    else Except.ok (g1.applyEvent i (g1.nbr n i) op)

/-- Successive calls of `operator++`, one per pair of draws, up to the first throw (the loop
of the driver). -/
def Game2D.run (log : K → K) : Game2D K → List (K × K) → Except (Game2D K) (Game2D K)
  | g, [] => Except.ok g
  | g, (u1, u2) :: rest =>
    match g.operator_inc log u1 u2 with
    | Except.ok g1 => Game2D.run log g1 rest
    | Except.error e => Except.error e

/-- The object after a call, whether it returned or threw. -/
def after : Except (Game2D K) (Game2D K) → Game2D K
  | Except.ok g => g
  | Except.error g => g

/-! ## Setters and getters -/

/-- The setter `set_M`: `epsilon = .5*M*L*L`, then `W = calculate_W()`. -/
def Game2D.set_M (g : Game2D K) (M : K) : Game2D K :=
  let g1 := { g with epsilon := (1 / 2) * M * g.L * g.L }
  { g1 with W := g1.calculate_W }

/-- The setter `set_selec`: `sigma = selec`, then `W = calculate_W()`. -/
def Game2D.set_selec (g : Game2D K) (selec : K) : Game2D K :=
  let g1 := { g with sigma := selec }
  { g1 with W := g1.calculate_W }

/-- The setter `set_repr`: `mu = repr`, then `W = calculate_W()`. -/
def Game2D.set_repr (g : Game2D K) (repr : K) : Game2D K :=
  let g1 := { g with mu := repr }
  { g1 with W := g1.calculate_W }

/-- The getter `get_selec`. -/
def Game2D.get_selec (g : Game2D K) : K := g.sigma

/-- The getter `get_repr`. -/
def Game2D.get_repr (g : Game2D K) : K := g.mu

/-- The getter `get_W`. -/
def Game2D.get_W (g : Game2D K) : K := g.W

/-! ## Text export and bulk load -/

/-- The method `save_to_txt`: the values written on each line of the file, in order. -/
def Game2D.save_to_txt (g : Game2D K) : List (List Nat) :=
  (List.range g.L).map (fun i =>
    g.cell (pos_by_indeces g.L i 0) ::
      (List.range g.L).map (fun j => g.cell (pos_by_indeces g.L i j)))

/-- The values of a text file in reading order, as `>>` meets them. -/
def fileValues (lines : List (List Nat)) : List Nat := lines.flatten

/-- Targets of the reads of `load_from_txt`, in the order of its two loops. -/
def loadOrder (L : Nat) : List Nat :=
  (List.range L).flatMap (fun i => (List.range L).map (fun j => pos_by_indeces L i j))

/-- The read loop of `load_from_txt`: each `fin >> animals[p]` takes the next value of the
input; it fails when the input is exhausted or the value does not fit a `short unsigned`. -/
def readCells : List Nat → List Nat → List Nat → Except String (List Nat)
  | [], _, animals => Except.ok animals
  | _ :: _, [], _ => Except.error "The file does not have enough data"
  | p :: ps, v :: input, animals =>
    if v < USHORT_MOD then readCells ps input (animals.set p v)
    else Except.error "The file does not have enough data"

/-- The method `load_from_txt` on the values of the file. -/
def Game2D.load_from_txt (g : Game2D K) (input : List Nat) : Except String (Game2D K) :=
  match readCells (loadOrder g.L) input g.animals with
  | Except.error e => Except.error e
  | Except.ok a =>
    let g1 := { g with animals := a }
    Except.ok { g1 with W := g1.calculate_W }

/-! ## Well-formed engines -/

/-- The state invariant established by the constructor and kept by every method: the side
length is in the range where `L*L` does not wrap, the lattice has `L*L` cells and the
neighbour tables are those of `calculate_neighbours`. -/
def Game2D.WF (g : Game2D K) : Prop :=
  g.L < 65536 ∧ g.animals.length = g.N ∧ g.neighbours = calculate_neighbours g.L

/-- Every cell holds one of the four codes of `enum types`. -/
def Game2D.ValidCells (g : Game2D K) : Prop := ∀ c ∈ g.animals, c ≤ EMPTY

instance (g : Game2D K) : Decidable g.WF := by
  unfold Game2D.WF; infer_instance

instance (g : Game2D K) : Decidable g.ValidCells := by
  unfold Game2D.ValidCells; infer_instance

deriving instance DecidableEq for Except

/-! ## Reference notions of the specification -/

/-- Site above `s` on the torus: same column, previous row, wrapping around. -/
def torusUp (L s : Nat) : Nat := ((s / L + L - 1) % L) * L + s % L

/-- Site left of `s` on the torus: same row, previous column, wrapping around. -/
def torusLeft (L s : Nat) : Nat := (s / L) * L + (s % L + L - 1) % L

/-- Site below `s` on the torus: same column, next row, wrapping around. -/
def torusDown (L s : Nat) : Nat := ((s / L + 1) % L) * L + s % L

/-- Site right of `s` on the torus: same row, next column, wrapping around. -/
def torusRight (L s : Nat) : Nat := (s / L) * L + (s % L + 1) % L

/-- Local rate contribution of an adjacent pair holding the values `x` and `y`: zero for
equal values, `ε + μ` when they differ and one is the vacancy, `ε + σ` for two distinct
kinds. -/
def localContribution (ε μ σ : K) (x y : Nat) : K :=
  if x = y then 0 else if x = EMPTY ∨ y = EMPTY then ε + μ else ε + σ

/-- Local contribution of the pair of sites `(i, j)` in the lattice of `g`. -/
def Game2D.pairRate (g : Game2D K) (i j : Nat) : K :=
  localContribution g.epsilon g.mu g.sigma (g.cell i) (g.cell j)

/-! ## Sequences of calls and the order of clock values -/

/-- The object before the first call of `operator++` and after each successive call, one
call per pair of draws; a call that throws leaves the object it has already modified. -/
def Game2D.trace (log : K → K) : Game2D K → List (K × K) → List (Game2D K)
  | g, [] => [g]
  | g, (u1, u2) :: rest => g :: Game2D.trace log (after (g.operator_inc log u1 u2)) rest

/-- A clock that is finite or `+∞`. -/
def Clock.Forward : Clock K → Prop
  | Clock.fin _ => True
  | Clock.posInf => True
  | _ => False

/-! ## The ordered partition behind the selection scan -/

/-- The ordered sub-contributions of one scanned pair: first the Exchange with rate `ε`,
then the Reproduction with rate `μ` when one of the two cells is empty, the Selection with
rate `σ` otherwise; nothing when both cells hold the same value. -/
def Game2D.pairEvents (g : Game2D K) (p : Nat × Nat) : List ((Nat × Nat × interactions) × K) :=
  if g.cell p.1 ≠ g.cell (g.nbr p.2 p.1) then
    [((p.1, p.2, interactions.EXCHANGE), g.epsilon),
     (if g.cell p.1 = EMPTY ∨ g.cell (g.nbr p.2 p.1) = EMPTY
      then ((p.1, p.2, interactions.REPRODUCTION), g.mu)
      else ((p.1, p.2, interactions.SELECTION), g.sigma))]
  else []

/-- The implicit ordered partition: every sub-contribution `(site, direction, kind)` with
its rate, sites in increasing order, direction 0 before direction 1. -/
def Game2D.events (g : Game2D K) : List ((Nat × Nat × interactions) × K) :=
  (scanOrder g.N).flatMap g.pairEvents

/-- Inverse-CDF selection: the first entry of a weighted list whose cumulative weight,
starting from `acc`, strictly exceeds `r`. -/
def firstExceeding {α : Type} (r : K) : List (α × K) → K → Option α
  | [], _ => none
  | (e, w) :: rest, acc => if acc + w > r then some e else firstExceeding r rest (acc + w)

/-- Cumulative weight of the first `k` entries. -/
def cumulative {α : Type} (l : List (α × K)) (k : Nat) : K := ((l.take k).map Prod.snd).sum

/-- Rate attached to an operation. -/
def Game2D.rateOf (g : Game2D K) : interactions → K
  | interactions.EXCHANGE => g.epsilon
  | interactions.REPRODUCTION => g.mu
  | interactions.SELECTION => g.sigma
  | interactions.ERROR => 0

/-! ## Unordered adjacent pairs -/

/-- Toroidal adjacency of two sites of a lattice of side `L`: `v` is the site above, left
of, below or right of `u`, with wraparound. -/
def adjacent (L u v : Nat) : Prop :=
  v = torusUp L u ∨ v = torusLeft L u ∨ v = torusDown L u ∨ v = torusRight L u

instance (L u v : Nat) : Decidable (adjacent L u v) := by
  unfold adjacent; infer_instance

/-- Sum of the local contribution over every unordered pair `{u, v}` of adjacent sites,
each pair taken once (as `u < v`). -/
def Game2D.pairSum (g : Game2D K) : K :=
  ∑ u in Finset.range g.N, ∑ v in Finset.range g.N,
    if u < v ∧ adjacent g.L u v then g.pairRate u v else 0

/-! ## Further reference notions -/

/-- The sites of the lattice whose value differs between two states. -/
def Game2D.changed (g g' : Game2D K) : Finset Nat :=
  (Finset.range g.N).filter (fun s => g'.cell s ≠ g.cell s)

/-- The full recomputation taken over the down and right neighbours (directions 2 and 3)
of every site instead of the up and left ones. -/
def Game2D.calculate_W_down_right (g : Game2D K) : K :=
  (List.range g.N).foldl
    (fun W_calc i => [2, 3].foldl (fun W_c n => g.addRate i (g.nbr n i) W_c) W_calc) 0

end Engine

/-! ## The clock in `double` arithmetic -/

section Double

variable {K : Type} [LinearOrderedField K] [FloorRing K]

/-- Exponent of the binade of a `double` that holds `x`: `⌊log₂ |x|⌋`, and the least normal
exponent `-1022` below it (subnormal range).  The value at `x = 0` plays no role: zero is a
multiple of every spacing. -/
def binade (x : K) : Int := max (Int.log 2 |x|) (-1022)

/-- Spacing of the `double` values in the binade of `x` (53 significant bits). -/
def ulp (x : K) : K := (2 : K) ^ ((binade x - 52 : Int))

/-- Nearest integer, a tie going to the even one. -/
def roundTiesEven (q : K) : Int :=
  if q - ⌊q⌋ < 1 / 2 then ⌊q⌋
  else if 1 / 2 < q - ⌊q⌋ then ⌊q⌋ + 1
  else if ⌊q⌋ % 2 = 0 then ⌊q⌋ else ⌊q⌋ + 1

/-- Nearest multiple of the spacing of the binade of `x`, ties to even: the `double` nearest
to `x` when the exponent range is not exceeded. -/
def nearest (x : K) : K := (roundTiesEven (x / ulp x) : K) * ulp x

/-- Result of an arithmetic operation whose exact value is `x`, in `double` with the default
rounding (to nearest, ties to even): a magnitude that rounds to `2 ^ 1024` overflows to an
infinity.  The two zeros are not told apart. -/
def roundDouble (x : K) : Clock K :=
  if (2 : K) ^ 1024 ≤ nearest x then Clock.posInf
  else if nearest x ≤ -(2 : K) ^ 1024 then Clock.negInf
  else Clock.fin (nearest x)

/-- The quotient `x / w` in `double` arithmetic: the exact quotient rounded, with the IEEE
results of a zero divisor. -/
def Clock.quot_double (x w : K) : Clock K :=
  if w = 0 then
    if 0 < x then Clock.posInf else if x < 0 then Clock.negInf else Clock.nan
  else roundDouble (x / w)

/-- The difference `t - q` in `double` arithmetic: the exact difference of two finite values
rounded, with the IEEE rules for infinities and NaN. -/
def Clock.sub_double : Clock K → Clock K → Clock K
  | Clock.nan, _ => Clock.nan
  | _, Clock.nan => Clock.nan
  | Clock.fin a, Clock.fin b => roundDouble (a - b)
  | Clock.fin _, Clock.posInf => Clock.negInf
  | Clock.fin _, Clock.negInf => Clock.posInf
  | Clock.posInf, Clock.posInf => Clock.nan
  | Clock.posInf, _ => Clock.posInf
  | Clock.negInf, Clock.negInf => Clock.nan
  | Clock.negInf, _ => Clock.negInf

/-- A clock value that a `double` can hold: a finite value that rounding leaves as it is, or
an IEEE special. -/
def Clock.IsDouble : Clock K → Prop
  | Clock.fin x => roundDouble x = Clock.fin x
  | _ => True

/-- The statement `t -= std::log(ran_u(gen))/W` in `double` arithmetic: the quotient and the
difference are each rounded.  `log u1` is the value returned by `std::log`. -/
def Game2D.tick_double (log : K → K) (g : Game2D K) (u1 : K) : Game2D K :=
  { g with t := Clock.sub_double g.t (Clock.quot_double (log u1) g.W) }

/-- The operator `Game2D::operator++` with its clock statement in `double` arithmetic.  The
statements after it do not read or assign `t`; they keep the arithmetic of
`operator_inc`. -/
def Game2D.operator_inc_double (log : K → K) (g : Game2D K) (u1 u2 : K) :
    Except (Game2D K) (Game2D K) :=
  let g1 := g.tick_double log u1
  let ran_W := u2 * g1.W
  match g1.scan ran_W with
  | none => Except.error g1
  | some (i, n, op) =>
    if op = interactions.ERROR then Except.error g1
    else Except.ok (g1.applyEvent i (g1.nbr n i) op)

/-- The object before the first call of `operator++` and after each successive call, with
the clock in `double` arithmetic. -/
def Game2D.trace_double (log : K → K) : Game2D K → List (K × K) → List (Game2D K)
  | g, [] => [g]
  | g, (u1, u2) :: rest =>
    g :: Game2D.trace_double log (after (g.operator_inc_double log u1 u2)) rest

end Double

/-- The cyclic dominance rule: `TYPE_A` beats `TYPE_B`, `TYPE_B` beats `TYPE_C`, `TYPE_C`
beats `TYPE_A`. -/
def beats (x y : Nat) : Prop :=
  (x = TYPE_A ∧ y = TYPE_B) ∨ (x = TYPE_B ∧ y = TYPE_C) ∨ (x = TYPE_C ∧ y = TYPE_A)

instance (x y : Nat) : Decidable (beats x y) := by
  unfold beats; infer_instance

/-- The entry `neighbours[d][s]` once `calculate_neighbours` has run for side length `L`. -/
def neighboursAt (L d s : Nat) : Nat := ((calculate_neighbours L).getD d []).getD s 0

/-- The values that successive reads `fin >> animals[p]` can obtain from an input: its
longest prefix of values that fit a `short unsigned`. -/
def readable (input : List Nat) : List Nat := input.takeWhile (fun v => v < USHORT_MOD)

/-! ## Frame names -/

/-- The call `std::to_string(n)` for an unsigned `n`: its decimal numeral. -/
def to_string (n : Nat) : String := String.mk (Nat.toDigits 10 n)

/-- The function `frame_to_string`.  When `std::to_string(n)` has more than 5 characters,
`5 - result.size()` wraps around in `size_t` and the string constructor throws
`std::length_error`: `none`. -/
def frame_to_string (n : Nat) : Option String :=
  let result := to_string n
  if result.length ≤ 5 then
    some (String.mk (List.replicate (5 - result.length) '0' ++ result.data))
  else none

/-- Numeric value of a string of decimal digits. -/
def decimalValue (s : String) : Nat := s.data.foldl (fun acc c => 10 * acc + (c.toNat - 48)) 0

/-! ## The queue of `FunctionThreadPool` under single-threaded use -/

/-- The struct `threadsafe_queue::node`: its `data` pointer (`none` when null).  The `next`
link is the position of the node in the chain of its queue. -/
structure node (T : Type) where
  data : Option T
  deriving DecidableEq

/-- The class `threadsafe_queue` in single-threaded use (mutexes and condition variables do
nothing): `chain` is the list of nodes owned from `head` on along `next`; `tail` points to
the last node of the chain. -/
structure threadsafe_queue (T : Type) where
  chain : List (node T)
  deriving DecidableEq

section Queue

variable {T : Type}

/-- The constructor: `head(new node), tail(head.get())`. -/
def threadsafe_queue.create : threadsafe_queue T := ⟨[⟨none⟩]⟩

/-- The method `push`: the node `tail` points to receives the data, a new empty node is
linked after it and becomes the tail. -/
def threadsafe_queue.push (q : threadsafe_queue T) (new_value : T) : threadsafe_queue T :=
  ⟨q.chain.dropLast ++ [⟨some new_value⟩, ⟨none⟩]⟩

/-- The method `empty`: `head.get() == get_tail()`, the chain has a single node. -/
def threadsafe_queue.empty (q : threadsafe_queue T) : Bool :=
  match q.chain with
  | [_] => true
  | _ => false

/-- The method `pop_head`: `head` takes over `old_head->next`, the old head node is
returned.  `none` when `head` is null. -/
def threadsafe_queue.pop_head (q : threadsafe_queue T) : Option (node T × threadsafe_queue T) :=
  match q.chain with
  | [] => none
  | old_head :: rest => some (old_head, ⟨rest⟩)

/-- The method `try_pop_head(T& value)`: the returned pointer (`none` when null), the
content of `value` and the queue after the call.  The outer `none` stands for a null
pointer dereference. -/
def threadsafe_queue.try_pop_head (q : threadsafe_queue T) (value : T) :
    Option (Option (node T) × T × threadsafe_queue T) :=
  match q.chain with
  | [] => none
  | [_] => some (none, value, q)
  | head :: _ :: _ =>
    match head.data with
    | none => none
    | some x =>
      match q.pop_head with
      | none => none
      | some (old_head, q') => some (some old_head, x, q')

/-- The method `try_pop(T& value)`: `old_head.get() != nullptr`, with the content of
`value` and the queue after the call. -/
def threadsafe_queue.try_pop (q : threadsafe_queue T) (value : T) :
    Option (Bool × T × threadsafe_queue T) :=
  match q.try_pop_head value with
  | none => none
  | some (old_head, v, q') => some (old_head.isSome, v, q')

/-- A call made on the queue: `push(v)`, or `try_pop(value)` on a variable holding `d`. -/
inductive QueueCall (T : Type) where
  | push (v : T)
  | try_pop (d : T)

/-- The queue after a sequence of calls from a given queue, with the values stored by the
calls of `try_pop` that returned `true`, in order. -/
def runCalls : threadsafe_queue T × List T → List (QueueCall T) →
    Option (threadsafe_queue T × List T)
  | st, [] => some st
  | (q, outs), QueueCall.push v :: rest => runCalls (q.push v, outs) rest
  | (q, outs), QueueCall.try_pop d :: rest =>
    match q.try_pop d with
    | none => none
    | some (true, x, q') => runCalls (q', outs ++ [x]) rest
    | some (false, _, q') => runCalls (q', outs) rest

/-- The values pushed by a sequence of calls, in order. -/
def pushedValues : List (QueueCall T) → List T
  | [] => []
  | QueueCall.push v :: rest => v :: pushedValues rest
  | QueueCall.try_pop _ :: rest => pushedValues rest

/-- The values held by the nodes of the chain, from the head on. -/
def threadsafe_queue.contents (q : threadsafe_queue T) : List T := q.chain.filterMap (fun n => n.data)

/-- The chain holds the values `P`, oldest first, followed by the empty tail node. -/
def threadsafe_queue.Holds (q : threadsafe_queue T) (P : List T) : Prop :=
  q.chain = P.map (fun x => (⟨some x⟩ : node T)) ++ [⟨none⟩]

end Queue

/-! ## Concrete engines for the examples -/

/-- A 2 × 2 engine holding the four codes, with `ε = 1/2` and `μ = σ = 1`. -/
def demoGame : Game2D ℚ := Game2D.construct 2 (1 / 4) 1 1 0 (fun k => k % 4)

/-- Stand-in for the logarithm in executable examples. -/
def demoLog : ℚ → ℚ := fun u => u - 1

/-- A 3 × 3 engine with mixed cells, `ε = 9/8`, `μ = σ = 1`. -/
def demoGame3 : Game2D ℚ := Game2D.construct 3 (1 / 4) 1 1 0 (fun k => (k * k + 1) % 4)

/-- A 2 × 2 engine whose four cells hold `TYPE_A`, with `ε = 1/2`, `μ = σ = 1`, `t = 0`. -/
def uniformGame : Game2D ℚ := Game2D.construct 2 (1 / 4) 1 1 0 (fun _ => TYPE_A)

/-! # Theorems -/

/-! ## Index arithmetic of the torus -/

theorem flatMap_rows_getD (M : Nat) (r : Nat → List Nat) (hr : ∀ i, (r i).length = M) :
    ∀ (n s i j : Nat), s ≤ i → i < s + n → j < M →
      ((List.range' s n).flatMap r).getD ((i - s) * M + j) 0 = (r i).getD j 0 := by
  intro n
  induction n with
  | zero => intro s i j h1 h2 _; omega
  | succ n ih =>
    intro s i j h1 h2 hj
    rw [List.range'_succ, List.flatMap_cons]
    by_cases his : i = s
    · subst his
      rw [List.getD_append _ _ _ _ (by rw [hr]; simpa using hj)]
      simp
    · have hk : (i - s) * M + j = (i - (s + 1)) * M + j + M := by
        have : i - s = (i - (s + 1)) + 1 := by omega
        rw [this]; ring
      rw [List.getD_append_right _ _ _ _ (by rw [hr, hk]; omega), hr, hk, Nat.add_sub_cancel]
      exact ih (s + 1) i j (by omega) (by omega) hj

theorem fillTable_getD (L : Nat) (f : Nat → Nat → Nat) (i j : Nat) (hi : i < L) (hj : j < L) :
    (fillTable L f).getD (i * L + j) 0 = f i j := by
  have h := flatMap_rows_getD L (fun i => (List.range L).map (fun j => f i j))
    (by intro i; simp) L 0 i j (Nat.zero_le _) (by omega) hj
  simp only [Nat.sub_zero, ← List.range_eq_range'] at h
  rw [fillTable, h]
  simp [List.getD_eq_getElem?_getD, hj]

theorem wrap_pred (L r : Nat) (h : r < L) :
    (r + L - 1) % L = if r > 0 then r - 1 else L - 1 := by
  split_ifs with h0
  · have : r + L - 1 = (r - 1) + L := by omega
    rw [this, Nat.add_mod_right, Nat.mod_eq_of_lt (by omega)]
  · have : r + L - 1 = L - 1 := by omega
    rw [this, Nat.mod_eq_of_lt (by omega)]

theorem wrap_succ (L r : Nat) (h : r < L) :
    (r + 1) % L = if r < L - 1 then r + 1 else 0 := by
  split_ifs with h0
  · rw [Nat.mod_eq_of_lt (by omega)]
  · have : r + 1 = L := by omega
    rw [this, Nat.mod_self]

theorem wrap_pred_lt (L r : Nat) (h : r < L) : (r + L - 1) % L < L := Nat.mod_lt _ (by omega)

theorem wrap_succ_lt (L r : Nat) (h : r < L) : (r + 1) % L < L := Nat.mod_lt _ (by omega)

theorem wrap_succ_pred (L r : Nat) (h : r < L) : ((r + L - 1) % L + 1) % L = r := by
  rw [wrap_pred L r h, wrap_succ L _ (by split_ifs <;> omega)]
  split_ifs <;> omega

theorem wrap_pred_succ (L r : Nat) (h : r < L) : ((r + 1) % L + L - 1) % L = r := by
  rw [wrap_succ L r h, wrap_pred L _ (by split_ifs <;> omega)]
  split_ifs <;> omega

theorem site_div (L r c : Nat) (hc : c < L) : (r * L + c) / L = r := by
  rw [Nat.add_comm, Nat.add_mul_div_right _ _ (by omega), Nat.div_eq_of_lt hc, Nat.zero_add]

theorem site_mod (L r c : Nat) (hc : c < L) : (r * L + c) % L = c := by
  rw [Nat.add_comm, Nat.add_mul_mod_self_right, Nat.mod_eq_of_lt hc]

theorem site_lt (L r c : Nat) (hr : r < L) (hc : c < L) : r * L + c < L * L := by
  have : (r + 1) * L ≤ L * L := Nat.mul_le_mul_right L hr
  have h2 : (r + 1) * L = r * L + L := by ring
  omega

theorem row_lt (L s : Nat) (hs : s < L * L) : s / L < L := Nat.div_lt_of_lt_mul hs

theorem col_lt (L s : Nat) (hs : s < L * L) : s % L < L :=
  Nat.mod_lt _ (Nat.pos_of_ne_zero (by rintro rfl; simp at hs))

theorem torusUp_lt (L s : Nat) (hs : s < L * L) : torusUp L s < L * L :=
  site_lt L _ _ (wrap_pred_lt L _ (row_lt L s hs)) (col_lt L s hs)

theorem torusDown_lt (L s : Nat) (hs : s < L * L) : torusDown L s < L * L :=
  site_lt L _ _ (wrap_succ_lt L _ (row_lt L s hs)) (col_lt L s hs)

theorem torusLeft_lt (L s : Nat) (hs : s < L * L) : torusLeft L s < L * L :=
  site_lt L _ _ (row_lt L s hs) (wrap_pred_lt L _ (col_lt L s hs))

theorem torusRight_lt (L s : Nat) (hs : s < L * L) : torusRight L s < L * L :=
  site_lt L _ _ (row_lt L s hs) (wrap_succ_lt L _ (col_lt L s hs))

theorem torusDown_Up (L s : Nat) (hs : s < L * L) : torusDown L (torusUp L s) = s := by
  have hc := col_lt L s hs
  unfold torusDown
  rw [show torusUp L s = ((s / L + L - 1) % L) * L + s % L from rfl, site_div L _ _ hc,
    site_mod L _ _ hc, wrap_succ_pred L _ (row_lt L s hs)]
  exact Nat.div_add_mod' s L

theorem torusUp_Down (L s : Nat) (hs : s < L * L) : torusUp L (torusDown L s) = s := by
  have hc := col_lt L s hs
  unfold torusUp
  rw [show torusDown L s = ((s / L + 1) % L) * L + s % L from rfl, site_div L _ _ hc,
    site_mod L _ _ hc, wrap_pred_succ L _ (row_lt L s hs)]
  exact Nat.div_add_mod' s L

theorem torusRight_Left (L s : Nat) (hs : s < L * L) : torusRight L (torusLeft L s) = s := by
  have hc := wrap_pred_lt L _ (col_lt L s hs)
  unfold torusRight
  rw [show torusLeft L s = (s / L) * L + (s % L + L - 1) % L from rfl, site_div L _ _ hc,
    site_mod L _ _ hc, wrap_succ_pred L _ (col_lt L s hs)]
  exact Nat.div_add_mod' s L

theorem torusLeft_Right (L s : Nat) (hs : s < L * L) : torusLeft L (torusRight L s) = s := by
  have hc := wrap_succ_lt L _ (col_lt L s hs)
  unfold torusLeft
  rw [show torusRight L s = (s / L) * L + (s % L + 1) % L from rfl, site_div L _ _ hc,
    site_mod L _ _ hc, wrap_pred_succ L _ (col_lt L s hs)]
  exact Nat.div_add_mod' s L

theorem mul_self_lt_uint (L : Nat) (hL : L < 65536) : L * L < UINT_MOD := by
  have : L * L ≤ 65535 * 65535 := Nat.mul_le_mul (by omega) (by omega)
  unfold UINT_MOD; omega

theorem pos_by_indeces_eq (L i j : Nat) (hL : L < 65536) (hi : i < L) (hj : j < L) :
    pos_by_indeces L i j = i * L + j :=
  Nat.mod_eq_of_lt (lt_trans (site_lt L i j hi hj) (mul_self_lt_uint L hL))

/-- Contents of the four tables of `calculate_neighbours`. -/
theorem calculate_neighbours_getD (L s : Nat) (hL : L < 65536) (hs : s < L * L) :
    ((calculate_neighbours L).getD 0 []).getD s 0 = torusUp L s ∧
    ((calculate_neighbours L).getD 1 []).getD s 0 = torusLeft L s ∧
    ((calculate_neighbours L).getD 2 []).getD s 0 = torusDown L s ∧
    ((calculate_neighbours L).getD 3 []).getD s 0 = torusRight L s := by
  have hr := row_lt L s hs
  have hc := col_lt L s hs
  have hsplit : s = s / L * L + s % L := (Nat.div_add_mod' s L).symm
  have e0 : ∀ f, (fillTable L f).getD s 0 = f (s / L) (s % L) := by
    intro f
    conv_lhs => rw [hsplit]
    exact fillTable_getD L f _ _ hr hc
  simp only [calculate_neighbours, List.getD_cons_zero, List.getD_cons_succ, e0]
  refine ⟨?_, ?_, ?_, ?_⟩
  · rw [← wrap_pred L _ hr, pos_by_indeces_eq L _ _ hL (wrap_pred_lt L _ hr) hc]; rfl
  · rw [← wrap_pred L _ hc, pos_by_indeces_eq L _ _ hL hr (wrap_pred_lt L _ hc)]; rfl
  · rw [← wrap_succ L _ hr, pos_by_indeces_eq L _ _ hL (wrap_succ_lt L _ hr) hc]; rfl
  · rw [← wrap_succ L _ hc, pos_by_indeces_eq L _ _ hL hr (wrap_succ_lt L _ hc)]; rfl

/-- **C9** Neighbour topology.  For every side length `L` below `2 ^ 16` and every site
`s < L*L`, each entry `neighbours[d][s]` written by `calculate_neighbours` is a site below
`L*L`, it is the toroidally wrapped adjacent site (0 up, 1 left, 2 down, 3 right), and a
move followed by the opposite move returns to `s`. -/
theorem neighbours_topology (L s : Nat) (hL : L < 65536) (hs : s < L * L) :
    (∀ d, d < 4 → neighboursAt L d s < L * L) ∧
    neighboursAt L 0 s = torusUp L s ∧ neighboursAt L 1 s = torusLeft L s ∧
    neighboursAt L 2 s = torusDown L s ∧ neighboursAt L 3 s = torusRight L s ∧
    neighboursAt L 2 (neighboursAt L 0 s) = s ∧ neighboursAt L 0 (neighboursAt L 2 s) = s ∧
    neighboursAt L 3 (neighboursAt L 1 s) = s ∧ neighboursAt L 1 (neighboursAt L 3 s) = s := by
  have key := fun x hx => calculate_neighbours_getD L x hL hx
  obtain ⟨e0, e1, e2, e3⟩ := key s hs
  have l0 := torusUp_lt L s hs
  have l1 := torusLeft_lt L s hs
  have l2 := torusDown_lt L s hs
  have l3 := torusRight_lt L s hs
  unfold neighboursAt
  refine ⟨?_, e0, e1, e2, e3, ?_, ?_, ?_, ?_⟩
  · intro d hd
    interval_cases d
    · rw [e0]; exact l0
    · rw [e1]; exact l1
    · rw [e2]; exact l2
    · rw [e3]; exact l3
  · rw [e0, (key _ l0).2.2.1]; exact torusDown_Up L s hs
  · rw [e2, (key _ l2).1]; exact torusUp_Down L s hs
  · rw [e1, (key _ l1).2.2.2]; exact torusRight_Left L s hs
  · rw [e3, (key _ l3).2.1]; exact torusLeft_Right L s hs

theorem neighbours_topology_witness :
    (∀ d, d < 4 → neighboursAt 3 d 4 < 3 * 3) ∧
    neighboursAt 3 0 4 = torusUp 3 4 ∧ neighboursAt 3 1 4 = torusLeft 3 4 ∧
    neighboursAt 3 2 4 = torusDown 3 4 ∧ neighboursAt 3 3 4 = torusRight 3 4 ∧
    neighboursAt 3 2 (neighboursAt 3 0 4) = 4 ∧ neighboursAt 3 0 (neighboursAt 3 2 4) = 4 ∧
    neighboursAt 3 3 (neighboursAt 3 1 4) = 4 ∧ neighboursAt 3 1 (neighboursAt 3 3 4) = 4 :=
  neighbours_topology 3 4 (by decide) (by decide)

/-! ## The total rate as a sum over edges -/

section Rates

set_option linter.unusedSectionVars false

open Finset

variable {K : Type} [LinearOrderedField K]

theorem localContribution_comm (ε μ σ : K) (x y : Nat) :
    localContribution ε μ σ x y = localContribution ε μ σ y x := by
  unfold localContribution
  by_cases h : x = y
  · subst h; rfl
  · rw [if_neg h, if_neg (Ne.symm h)]
    simp only [or_comm]

theorem localContribution_self (ε μ σ : K) (x : Nat) : localContribution ε μ σ x x = 0 := by
  simp [localContribution]

theorem addRate_eq (g : Game2D K) (i j : Nat) (acc : K) :
    g.addRate i j acc = acc + g.pairRate i j := by
  unfold Game2D.addRate Game2D.pairRate localContribution
  by_cases h : g.cell i = g.cell j
  · simp [h]
  · by_cases h2 : g.cell i = EMPTY ∨ g.cell j = EMPTY
    · simp [h, h2, add_assoc]
    · simp [h, h2, add_assoc]

theorem foldl_add_range (f : Nat → K) (n : Nat) (z : K) :
    (List.range n).foldl (fun acc i => acc + f i) z = z + ∑ i in range n, f i := by
  induction n with
  | zero => simp
  | succ n ih => rw [List.range_succ, List.foldl_append, ih, Finset.sum_range_succ]; simp [add_assoc]

theorem W_ind_eq (g : Game2D K) (i : Nat) :
    g.W_ind i = g.pairRate i (g.nbr 0 i) + g.pairRate i (g.nbr 1 i)
      + g.pairRate i (g.nbr 2 i) + g.pairRate i (g.nbr 3 i) := by
  simp [Game2D.W_ind, addRate_eq, show List.range 4 = [0, 1, 2, 3] from rfl]

theorem calculate_W_eq (g : Game2D K) :
    g.calculate_W = ∑ i in range g.N, (g.pairRate i (g.nbr 0 i) + g.pairRate i (g.nbr 1 i)) := by
  have h : ∀ (W_calc : K) (i : Nat),
      (List.range 2).foldl (fun W_c n => g.addRate i (g.nbr n i) W_c) W_calc
        = W_calc + (g.pairRate i (g.nbr 0 i) + g.pairRate i (g.nbr 1 i)) := by
    intro W_calc i
    simp [addRate_eq, show List.range 2 = [0, 1] from rfl, add_assoc]
  simp only [Game2D.calculate_W, h]
  rw [foldl_add_range, zero_add]

/-- Changing one site `x` changes a one-direction edge sum by the two edges at `x`. -/
theorem dirSum_update (c : Nat → Nat → K) (hc : ∀ p q, c p q = c q p) (h0 : ∀ p, c p p = 0)
    (N : Nat) (u d : Nat → Nat) (hd : ∀ s, s < N → d s < N)
    (hud : ∀ s, s < N → u (d s) = s) (hdu : ∀ s, s < N → d (u s) = s)
    (a a' : Nat → Nat) (x : Nat) (hx : x < N) (ha : ∀ s, s ≠ x → a' s = a s) :
    ∑ s in range N, c (a' s) (a' (u s)) =
      ∑ s in range N, c (a s) (a (u s)) + (c (a' x) (a' (u x)) - c (a x) (a (u x)))
        + (c (a' x) (a' (d x)) - c (a x) (a (d x))) := by
  have hpt : ∀ s ∈ range N, c (a' s) (a' (u s)) = c (a s) (a (u s))
      + (if s = x then c (a' x) (a' (u x)) - c (a x) (a (u x)) else 0)
      + (if s = d x then c (a' x) (a' (d x)) - c (a x) (a (d x)) else 0) := by
    intro s hs
    have hs : s < N := mem_range.mp hs
    by_cases h1 : s = x
    · subst h1
      by_cases h2 : s = d s
      · have h3 : u s = s := by conv_lhs => rw [h2]; exact hud s hx
        rw [if_pos rfl, if_pos h2, ← h2, h3, h0, h0]; ring
      · rw [if_pos rfl, if_neg h2]; ring
    · rw [if_neg h1, ha s h1]
      by_cases h2 : s = d x
      · have h3 : u s = x := by rw [h2]; exact hud x hx
        rw [if_pos h2, h3, ← h2, ha s h1, hc (a' x) (a s), hc (a x) (a s)]; ring
      · have h3 : u s ≠ x := fun h => h2 (by rw [← h, hdu s hs])
        rw [if_neg h2, ha _ h3]; ring
  rw [Finset.sum_congr rfl hpt, Finset.sum_add_distrib, Finset.sum_add_distrib,
    Finset.sum_ite_eq', Finset.sum_ite_eq', if_pos (mem_range.mpr hx),
    if_pos (mem_range.mpr (hd x hx))]

theorem wf_N_eq {g : Game2D K} (h : g.WF) : g.N = g.L * g.L :=
  Nat.mod_eq_of_lt (mul_self_lt_uint g.L h.1)

theorem wf_nbr_eq {g : Game2D K} (h : g.WF) (s : Nat) (hs : s < g.N) :
    g.nbr 0 s = torusUp g.L s ∧ g.nbr 1 s = torusLeft g.L s ∧
    g.nbr 2 s = torusDown g.L s ∧ g.nbr 3 s = torusRight g.L s := by
  unfold Game2D.nbr
  rw [h.2.2]
  exact calculate_neighbours_getD g.L s h.1 (by rw [← wf_N_eq h]; exact hs)

theorem getD_set_ne (l : List Nat) (x s v : Nat) (h : s ≠ x) :
    (l.set x v).getD s 0 = l.getD s 0 := by
  simp [List.getD_eq_getElem?_getD, List.getElem?_set, Ne.symm h]

theorem getD_set_eq (l : List Nat) (x v : Nat) (h : x < l.length) :
    (l.set x v).getD x 0 = v := by
  simp [List.getD_eq_getElem?_getD, List.getElem?_set, h]

/-- Range and inverse laws of the neighbour tables of a well-formed engine. -/
theorem wf_nbr_lt {g : Game2D K} (h : g.WF) (s : Nat) (hs : s < g.N) :
    g.nbr 0 s < g.N ∧ g.nbr 1 s < g.N ∧ g.nbr 2 s < g.N ∧ g.nbr 3 s < g.N := by
  obtain ⟨e0, e1, e2, e3⟩ := wf_nbr_eq h s hs
  rw [e0, e1, e2, e3]
  rw [wf_N_eq h] at hs ⊢
  exact ⟨torusUp_lt _ _ hs, torusLeft_lt _ _ hs, torusDown_lt _ _ hs, torusRight_lt _ _ hs⟩

theorem wf_nbr_inv {g : Game2D K} (h : g.WF) (s : Nat) (hs : s < g.N) :
    g.nbr 2 (g.nbr 0 s) = s ∧ g.nbr 0 (g.nbr 2 s) = s ∧
    g.nbr 3 (g.nbr 1 s) = s ∧ g.nbr 1 (g.nbr 3 s) = s := by
  obtain ⟨l0, l1, l2, l3⟩ := wf_nbr_lt h s hs
  have a := (wf_nbr_eq h _ l0).2.2.1
  have b := (wf_nbr_eq h _ l2).1
  have c := (wf_nbr_eq h _ l1).2.2.2
  have d := (wf_nbr_eq h _ l3).2.1
  obtain ⟨e0, e1, e2, e3⟩ := wf_nbr_eq h s hs
  rw [a, b, c, d, e0, e1, e2, e3]
  rw [wf_N_eq h] at hs
  exact ⟨torusDown_Up _ _ hs, torusUp_Down _ _ hs, torusRight_Left _ _ hs, torusLeft_Right _ _ hs⟩

/-- Overwriting one cell changes the full recomputation by the change of `W_ind` there. -/
theorem calculate_W_set (g : Game2D K) (hwf : g.WF) (x v : Nat) (hx : x < g.N) :
    Game2D.calculate_W { g with animals := g.animals.set x v } =
      g.calculate_W + (Game2D.W_ind { g with animals := g.animals.set x v } x - g.W_ind x) := by
  set g1 : Game2D K := { g with animals := g.animals.set x v } with hg1
  have hcell : ∀ s, s ≠ x → g1.cell s = g.cell s := fun s hs => getD_set_ne _ _ _ _ hs
  have hN : g1.N = g.N := rfl
  have hnb : ∀ n s, g1.nbr n s = g.nbr n s := fun _ _ => rfl
  have hpr : ∀ i j, g1.pairRate i j =
      localContribution g.epsilon g.mu g.sigma (g1.cell i) (g1.cell j) := fun _ _ => rfl
  have hpr0 : ∀ i j, g.pairRate i j =
      localContribution g.epsilon g.mu g.sigma (g.cell i) (g.cell j) := fun _ _ => rfl
  have hlt := fun s hs => wf_nbr_lt hwf s hs
  have hinv := fun s hs => wf_nbr_inv hwf s hs
  have s0 := dirSum_update (localContribution g.epsilon g.mu g.sigma)
    (localContribution_comm _ _ _) (localContribution_self _ _ _) g.N (g.nbr 0) (g.nbr 2)
    (fun s hs => (hlt s hs).2.2.1) (fun s hs => (hinv s hs).2.1) (fun s hs => (hinv s hs).1)
    g.cell g1.cell x hx hcell
  have s1 := dirSum_update (localContribution g.epsilon g.mu g.sigma)
    (localContribution_comm _ _ _) (localContribution_self _ _ _) g.N (g.nbr 1) (g.nbr 3)
    (fun s hs => (hlt s hs).2.2.2) (fun s hs => (hinv s hs).2.2.2) (fun s hs => (hinv s hs).2.2.1)
    g.cell g1.cell x hx hcell
  rw [calculate_W_eq, calculate_W_eq, W_ind_eq, W_ind_eq, hN]
  simp only [hnb, hpr, hpr0, Finset.sum_add_distrib]
  rw [s0, s1]
  ring

theorem wf_set {g : Game2D K} (h : g.WF) (x v : Nat) :
    Game2D.WF { g with animals := g.animals.set x v } := by
  refine ⟨h.1, ?_, h.2.2⟩
  show (g.animals.set x v).length = g.N
  rw [List.length_set]; exact h.2.1

theorem wf_setW {g : Game2D K} (h : g.WF) (w : K) : Game2D.WF { g with W := w } := h

theorem cell_le_of_valid {g : Game2D K} (h : g.ValidCells) (i : Nat) : g.cell i ≤ EMPTY := by
  unfold Game2D.cell
  rw [List.getD_eq_getElem?_getD]
  cases hq : g.animals[i]? with
  | none => simp
  | some c => simpa using h c (List.getElem?_mem hq)

theorem set_getD_self (l : List Nat) (i : Nat) : l.set i (l.getD i 0) = l := by
  apply List.ext_getElem?
  intro n
  rw [List.getElem?_set]
  by_cases h : i = n
  · subst h
    by_cases h2 : i < l.length
    · simp [h2, List.getD_eq_getElem?_getD]
    · simp [h2]; omega
  · simp [h]

/-- The two cells of a swap seen from the neighbourhood of one of them: the `W_ind`
bookkeeping of an exchange. -/
theorem W_ind_swap (g : Game2D K) (hwf : g.WF) (i j : Nat) (hi : i < g.N) (hj : j < g.N) :
    Game2D.W_ind { g with animals := g.animals.set i (g.cell j) } i
      - Game2D.W_ind { g with animals := g.animals.set i (g.cell j) } j
    = Game2D.W_ind { g with animals := swapCells g.animals i j } i - g.W_ind j := by
  set g1 : Game2D K := { g with animals := g.animals.set i (g.cell j) } with hg1
  set g2 : Game2D K := { g with animals := swapCells g.animals i j } with hg2
  have hlen : i < g.animals.length := by rw [hwf.2.1]; exact hi
  have hlen' : j < g.animals.length := by rw [hwf.2.1]; exact hj
  by_cases hij : i = j
  · subst hij
    have e1 : g1.animals = g.animals := by
      exact set_getD_self _ _
    have e2 : g2.animals = g.animals := by
      show (g.animals.set i (g.animals.getD i 0)).set i (g.animals.getD i 0) = g.animals
      rw [List.set_set]; exact set_getD_self _ _
    have c1 : g1 = g := by rw [hg1]; cases g; simp only [Game2D.mk.injEq, true_and, and_true] at *; exact e1
    have c2 : g2 = g := by rw [hg2]; cases g; simp only [Game2D.mk.injEq, true_and, and_true] at *; exact e2
    rw [c1, c2]
  · have c1 : ∀ y, g1.cell y = if y = i then g.cell j else g.cell y := by
      intro y
      by_cases hy : y = i
      · rw [if_pos hy, hy]; exact getD_set_eq _ _ _ hlen
      · rw [if_neg hy]; exact getD_set_ne _ _ _ _ hy
    have c2 : ∀ y, g2.cell y = if y = j then g.cell i else if y = i then g.cell j else g.cell y := by
      intro y
      by_cases hy : y = j
      · rw [if_pos hy, hy]
        exact getD_set_eq _ _ _ (by rw [List.length_set]; exact hlen')
      · rw [if_neg hy]
        show ((g.animals.set i (g.animals.getD j 0)).set j (g.animals.getD i 0)).getD y 0 = _
        rw [getD_set_ne _ _ _ _ hy]
        exact c1 y
    have hnb1 : ∀ n s, g1.nbr n s = g.nbr n s := fun _ _ => rfl
    have hnb2 : ∀ n s, g2.nbr n s = g.nbr n s := fun _ _ => rfl
    have d1 : ∀ y, g1.pairRate i y - g2.pairRate i y =
        if y = j then - localContribution g.epsilon g.mu g.sigma (g.cell j) (g.cell i) else 0 := by
      intro y
      show localContribution g.epsilon g.mu g.sigma (g1.cell i) (g1.cell y)
        - localContribution g.epsilon g.mu g.sigma (g2.cell i) (g2.cell y) = _
      rw [c1 i, c2 i, c1 y, c2 y, if_pos rfl, if_neg hij]
      by_cases hy : y = j
      · rw [if_pos hy, if_pos hy, hy, if_neg (Ne.symm hij), localContribution_self]; ring
      · rw [if_neg hy, if_neg hy]; ring
    have d2 : ∀ y, g1.pairRate j y - g.pairRate j y =
        if y = i then - localContribution g.epsilon g.mu g.sigma (g.cell j) (g.cell i) else 0 := by
      intro y
      show localContribution g.epsilon g.mu g.sigma (g1.cell j) (g1.cell y)
        - localContribution g.epsilon g.mu g.sigma (g.cell j) (g.cell y) = _
      rw [c1 j, c1 y, if_neg (Ne.symm hij)]
      by_cases hy : y = i
      · rw [if_pos hy, if_pos hy, hy, localContribution_self]; ring
      · rw [if_neg hy, if_neg hy]; ring
    obtain ⟨i0, i1, i2, i3⟩ := wf_nbr_inv hwf i hi
    obtain ⟨j0, j1, j2, j3⟩ := wf_nbr_inv hwf j hj
    have q0 : (g.nbr 0 i = j) = (g.nbr 2 j = i) :=
      propext ⟨fun h => by rw [← h]; exact i0, fun h => by rw [← h]; exact j1⟩
    have q1 : (g.nbr 1 i = j) = (g.nbr 3 j = i) :=
      propext ⟨fun h => by rw [← h]; exact i2, fun h => by rw [← h]; exact j3⟩
    have q2 : (g.nbr 2 i = j) = (g.nbr 0 j = i) :=
      propext ⟨fun h => by rw [← h]; exact i1, fun h => by rw [← h]; exact j0⟩
    have q3 : (g.nbr 3 i = j) = (g.nbr 1 j = i) :=
      propext ⟨fun h => by rw [← h]; exact i3, fun h => by rw [← h]; exact j2⟩
    have lhs : g1.W_ind i - g2.W_ind i =
        (g1.pairRate i (g.nbr 0 i) - g2.pairRate i (g.nbr 0 i))
        + (g1.pairRate i (g.nbr 1 i) - g2.pairRate i (g.nbr 1 i))
        + (g1.pairRate i (g.nbr 2 i) - g2.pairRate i (g.nbr 2 i))
        + (g1.pairRate i (g.nbr 3 i) - g2.pairRate i (g.nbr 3 i)) := by
      rw [W_ind_eq, W_ind_eq]; simp only [hnb1, hnb2]; ring
    have rhs : g1.W_ind j - g.W_ind j =
        (g1.pairRate j (g.nbr 0 j) - g.pairRate j (g.nbr 0 j))
        + (g1.pairRate j (g.nbr 1 j) - g.pairRate j (g.nbr 1 j))
        + (g1.pairRate j (g.nbr 2 j) - g.pairRate j (g.nbr 2 j))
        + (g1.pairRate j (g.nbr 3 j) - g.pairRate j (g.nbr 3 j)) := by
      rw [W_ind_eq, W_ind_eq]; simp only [hnb1]; ring
    have key : g1.W_ind i - g2.W_ind i = g1.W_ind j - g.W_ind j := by
      rw [lhs, rhs]; simp only [d1, d2, q0, q1, q2, q3]; ring
    linear_combination key

theorem mem_scanOrder (N i n : Nat) : (i, n) ∈ scanOrder N ↔ i < N ∧ n < 2 := by
  simp [scanOrder, List.mem_flatMap]

/-- What the scan guarantees about the pair and the operation it stops at. -/
theorem scanFrom_some (g : Game2D K) (ran_W : K) :
    ∀ (l : List (Nat × Nat)) (sum : K) (i n : Nat) (op : interactions),
      g.scanFrom ran_W l sum = some (i, n, op) →
      (i, n) ∈ l ∧ g.cell i ≠ g.cell (g.nbr n i) ∧
      (op = interactions.EXCHANGE ∨
        (op = interactions.REPRODUCTION ∧ (g.cell i = EMPTY ∨ g.cell (g.nbr n i) = EMPTY)) ∨
        (op = interactions.SELECTION ∧ ¬ (g.cell i = EMPTY ∨ g.cell (g.nbr n i) = EMPTY))) := by
  intro l
  induction l with
  | nil => intro sum i n op h; simp [Game2D.scanFrom] at h
  | cons p rest ih =>
    obtain ⟨pi, pn⟩ := p
    intro sum i n op h
    have lift : ∀ s', g.scanFrom ran_W rest s' = some (i, n, op) →
        (i, n) ∈ (pi, pn) :: rest ∧ g.cell i ≠ g.cell (g.nbr n i) ∧
        (op = interactions.EXCHANGE ∨
          (op = interactions.REPRODUCTION ∧ (g.cell i = EMPTY ∨ g.cell (g.nbr n i) = EMPTY)) ∨
          (op = interactions.SELECTION ∧ ¬ (g.cell i = EMPTY ∨ g.cell (g.nbr n i) = EMPTY))) :=
      fun s' hs => ⟨List.mem_cons_of_mem _ (ih s' i n op hs).1, (ih s' i n op hs).2⟩
    rw [Game2D.scanFrom] at h
    split_ifs at h with h1 h2 h3 h4 h5
    · simp only [Option.some.injEq, Prod.mk.injEq] at h
      obtain ⟨rfl, rfl, rfl⟩ := h
      exact ⟨List.mem_cons_self _ _, h1, Or.inl rfl⟩
    · simp only [Option.some.injEq, Prod.mk.injEq] at h
      obtain ⟨rfl, rfl, rfl⟩ := h
      exact ⟨List.mem_cons_self _ _, h1, Or.inr (Or.inl ⟨rfl, h3⟩)⟩
    · exact lift _ h
    · simp only [Option.some.injEq, Prod.mk.injEq] at h
      obtain ⟨rfl, rfl, rfl⟩ := h
      exact ⟨List.mem_cons_self _ _, h1, Or.inr (Or.inr ⟨rfl, h3⟩)⟩
    · exact lift _ h
    · exact lift _ h

theorem scan_some (g : Game2D K) (ran_W : K) (i n : Nat) (op : interactions)
    (h : g.scan ran_W = some (i, n, op)) :
    i < g.N ∧ n < 2 ∧ g.cell i ≠ g.cell (g.nbr n i) ∧
      (op = interactions.EXCHANGE ∨
        (op = interactions.REPRODUCTION ∧ (g.cell i = EMPTY ∨ g.cell (g.nbr n i) = EMPTY)) ∨
        (op = interactions.SELECTION ∧ ¬ (g.cell i = EMPTY ∨ g.cell (g.nbr n i) = EMPTY))) := by
  obtain ⟨hm, h2⟩ := scanFrom_some g ran_W _ _ i n op h
  rw [mem_scanOrder] at hm
  exact ⟨hm.1, hm.2, h2⟩

/-- What a call of `operator++` that returns has done. -/
theorem operator_inc_ok (log : K → K) (g g' : Game2D K) (u1 u2 : K)
    (h : g.operator_inc log u1 u2 = Except.ok g') :
    ∃ i n op, (g.tick log u1).scan (u2 * g.W) = some (i, n, op) ∧ op ≠ interactions.ERROR ∧
      g' = (g.tick log u1).applyEvent i (g.nbr n i) op := by
  unfold Game2D.operator_inc at h
  simp only at h
  have hW : (g.tick log u1).W = g.W := rfl
  rw [hW] at h
  cases hs : (g.tick log u1).scan (u2 * g.W) with
  | none => rw [hs] at h; simp at h
  | some r =>
    obtain ⟨i, n, op⟩ := r
    rw [hs] at h
    simp only at h
    split_ifs at h with hop
    simp only [Except.ok.injEq] at h
    exact ⟨i, n, op, rfl, hop, h.symm⟩

theorem nbr_lt_of_lt_two {g : Game2D K} (h : g.WF) (i n : Nat) (hi : i < g.N) (hn : n < 2) :
    g.nbr n i < g.N := by
  obtain ⟨l0, l1, -, -⟩ := wf_nbr_lt h i hi
  interval_cases n
  · exact l0
  · exact l1

/-- The incremental update of `W` in the `switch` agrees with a full recomputation. -/
theorem applyEvent_W (g : Game2D K) (hwf : g.WF) (hW : g.W = g.calculate_W)
    (i j : Nat) (hi : i < g.N) (hj : j < g.N) (op : interactions) :
    (g.applyEvent i j op).W = (g.applyEvent i j op).calculate_W := by
  cases op with
  | ERROR => exact hW
  | SELECTION =>
    show g.W + _ = Game2D.calculate_W { g with animals := g.animals.set _ EMPTY }
    rw [hW]
    by_cases hc : g.cell i = winningTableAt (g.cell i) (g.cell j)
    · simp only [if_pos hc]; exact (calculate_W_set g hwf j EMPTY hj).symm
    · simp only [if_neg hc]; exact (calculate_W_set g hwf i EMPTY hi).symm
  | REPRODUCTION =>
    unfold Game2D.applyEvent
    by_cases hc : g.cell i = EMPTY
    · simp only [if_pos hc]
      show g.W + _ = Game2D.calculate_W { g with animals := g.animals.set i (g.cell j) }
      rw [hW]; exact (calculate_W_set g hwf i _ hi).symm
    · simp only [if_neg hc]
      show g.W + _ = Game2D.calculate_W { g with animals := g.animals.set j (g.cell i) }
      rw [hW]; exact (calculate_W_set g hwf j _ hj).symm
  | EXCHANGE =>
    show g.W + _ = Game2D.calculate_W { g with animals := swapCells g.animals i j }
    have e1 := calculate_W_set g hwf i (g.cell j) hi
    have e2 := calculate_W_set { g with animals := g.animals.set i (g.cell j) }
      (wf_set hwf i (g.cell j)) j (g.cell i) hj
    have e3 := W_ind_swap g hwf i j hi hj
    have e4 : Game2D.calculate_W { g with animals := swapCells g.animals i j } =
        Game2D.calculate_W { g with animals := g.animals.set i (g.cell j) } +
        (Game2D.W_ind { g with animals := swapCells g.animals i j } j
          - Game2D.W_ind { g with animals := g.animals.set i (g.cell j) } j) := e2
    linear_combination hW - e4 - e1 - e3

/-- The lattice after the `switch` of `operator++`. -/
theorem applyEvent_animals (g : Game2D K) (i j : Nat) (op : interactions) :
    (g.applyEvent i j op).animals =
      match op with
      | interactions.EXCHANGE => swapCells g.animals i j
      | interactions.REPRODUCTION =>
        if g.cell i = EMPTY then g.animals.set i (g.cell j) else g.animals.set j (g.cell i)
      | interactions.SELECTION =>
        g.animals.set (if g.cell i = winningTableAt (g.cell i) (g.cell j) then j else i) EMPTY
      | interactions.ERROR => g.animals := by
  cases op with
  | ERROR => rfl
  | SELECTION => rfl
  | EXCHANGE => rfl
  | REPRODUCTION =>
    by_cases hc : g.cell i = EMPTY
    · simp only [Game2D.applyEvent, if_pos hc]
    · simp only [Game2D.applyEvent, if_neg hc]

/-- The `switch` of `operator++` writes only `animals` and `W`. -/
theorem applyEvent_frame (g : Game2D K) (i j : Nat) (op : interactions) :
    (g.applyEvent i j op).L = g.L ∧ (g.applyEvent i j op).neighbours = g.neighbours ∧
    (g.applyEvent i j op).sigma = g.sigma ∧ (g.applyEvent i j op).mu = g.mu ∧
    (g.applyEvent i j op).epsilon = g.epsilon ∧ (g.applyEvent i j op).t = g.t := by
  cases op with
  | ERROR => exact ⟨rfl, rfl, rfl, rfl, rfl, rfl⟩
  | SELECTION => exact ⟨rfl, rfl, rfl, rfl, rfl, rfl⟩
  | EXCHANGE => exact ⟨rfl, rfl, rfl, rfl, rfl, rfl⟩
  | REPRODUCTION =>
    by_cases hc : g.cell i = EMPTY
    · simp only [Game2D.applyEvent, if_pos hc, and_self]
    · simp only [Game2D.applyEvent, if_neg hc, and_self]

theorem swapCells_length (a : List Nat) (i j : Nat) : (swapCells a i j).length = a.length := by
  simp [swapCells]

theorem applyEvent_length (g : Game2D K) (i j : Nat) (op : interactions) :
    (g.applyEvent i j op).animals.length = g.animals.length := by
  rw [applyEvent_animals]
  cases op with
  | ERROR => rfl
  | SELECTION => simp
  | EXCHANGE => simp [swapCells_length]
  | REPRODUCTION =>
    simp only
    split_ifs <;> simp

theorem applyEvent_WF (g : Game2D K) (hwf : g.WF) (i j : Nat) (op : interactions) :
    (g.applyEvent i j op).WF := by
  obtain ⟨hL, hn, -⟩ := applyEvent_frame g i j op
  refine ⟨by rw [hL]; exact hwf.1, ?_, by rw [hn, hL]; exact hwf.2.2⟩
  rw [applyEvent_length, hwf.2.1]
  unfold Game2D.N
  rw [hL]

theorem mem_set_le (l : List Nat) (x v b : Nat) (hl : ∀ c ∈ l, c ≤ b) (hv : v ≤ b) :
    ∀ c ∈ l.set x v, c ≤ b := by
  intro c hc
  rcases List.mem_or_eq_of_mem_set hc with h1 | h1
  · exact hl c h1
  · rw [h1]; exact hv

theorem applyEvent_valid (g : Game2D K) (hv : g.ValidCells) (i j : Nat) (op : interactions) :
    (g.applyEvent i j op).ValidCells := by
  unfold Game2D.ValidCells
  rw [applyEvent_animals]
  have hc := fun k => cell_le_of_valid hv k
  cases op with
  | ERROR => exact hv
  | SELECTION => exact mem_set_le _ _ _ _ hv (le_refl _)
  | EXCHANGE => exact mem_set_le _ _ _ _ (mem_set_le _ _ _ _ hv (hc j)) (hc i)
  | REPRODUCTION =>
    simp only
    split_ifs
    · exact mem_set_le _ _ _ _ hv (hc j)
    · exact mem_set_le _ _ _ _ hv (hc i)

/-- One returning call of `operator++` keeps the state invariant and the rate consistency. -/
theorem step_invariant (log : K → K) (g g' : Game2D K) (u1 u2 : K)
    (hwf : g.WF) (hv : g.ValidCells) (hW : g.W = g.calculate_W)
    (h : g.operator_inc log u1 u2 = Except.ok g') :
    g'.WF ∧ g'.ValidCells ∧ g'.W = g'.calculate_W := by
  obtain ⟨i, n, op, hs, -, rfl⟩ := operator_inc_ok log g g' u1 u2 h
  have hwf1 : (g.tick log u1).WF := hwf
  have hv1 : (g.tick log u1).ValidCells := hv
  obtain ⟨hi, hn, -, -⟩ := scan_some _ _ i n op hs
  exact ⟨applyEvent_WF _ hwf1 _ _ _, applyEvent_valid _ hv1 _ _ _,
    applyEvent_W _ hwf1 hW i _ hi (nbr_lt_of_lt_two hwf1 i n hi hn) op⟩

theorem run_invariant (log : K → K) (draws : List (K × K)) :
    ∀ (g g' : Game2D K), g.WF → g.ValidCells → g.W = g.calculate_W →
      g.run log draws = Except.ok g' → g'.WF ∧ g'.ValidCells ∧ g'.W = g'.calculate_W := by
  induction draws with
  | nil =>
    intro g g' hwf hv hW h
    simp only [Game2D.run, Except.ok.injEq] at h
    subst h
    exact ⟨hwf, hv, hW⟩
  | cons d rest ih =>
    obtain ⟨u1, u2⟩ := d
    intro g g' hwf hv hW h
    rw [Game2D.run] at h
    cases hstep : g.operator_inc log u1 u2 with
    | error e => rw [hstep] at h; simp at h
    | ok g1 =>
      rw [hstep] at h
      obtain ⟨a, b, c⟩ := step_invariant log g g1 u1 u2 hwf hv hW hstep
      exact ih g1 g' a b c h

theorem construct_invariant (length : Nat) (M selec repr t0 : K) (ran_t : Nat → Nat)
    (hL : length < 65536) (hr : ∀ k, ran_t k ≤ EMPTY) :
    (Game2D.construct length M selec repr t0 ran_t).WF ∧
    (Game2D.construct length M selec repr t0 ran_t).ValidCells ∧
    (Game2D.construct length M selec repr t0 ran_t).W =
      (Game2D.construct length M selec repr t0 ran_t).calculate_W := by
  refine ⟨⟨hL, ?_, rfl⟩, ?_, rfl⟩
  · simp [Game2D.construct, Game2D.N]
  · intro c hc
    simp only [Game2D.construct, List.mem_map] at hc
    obtain ⟨k, -, rfl⟩ := hc
    exact hr k

/-- **C1** Rate consistency of the incremental update.  In exact arithmetic, for a
well-formed engine (any side length below `2 ^ 16`, the degenerate `L = 1` and `L = 2`
included) whose cells are valid codes and whose `W` equals `calculate_W()`, any rates and
any two draws: if `operator++` returns, then `W` equals `calculate_W()` of the new lattice.
Hence the same holds after any number of returning steps from a constructed engine. -/
theorem rate_consistency (log : K → K) :
    (∀ (g g' : Game2D K) (u1 u2 : K), g.WF → g.ValidCells → g.W = g.calculate_W →
      g.operator_inc log u1 u2 = Except.ok g' → g'.W = g'.calculate_W) ∧
    (∀ (length : Nat) (M selec repr t0 : K) (ran_t : Nat → Nat) (draws : List (K × K))
      (g' : Game2D K), length < 65536 → (∀ k, ran_t k ≤ EMPTY) →
      (Game2D.construct length M selec repr t0 ran_t).run log draws = Except.ok g' →
      g'.W = g'.calculate_W) := by
  refine ⟨fun g g' u1 u2 hwf hv hW h => (step_invariant log g g' u1 u2 hwf hv hW h).2.2, ?_⟩
  intro length M selec repr t0 ran_t draws g' hL hr h
  obtain ⟨a, b, c⟩ := construct_invariant length M selec repr t0 ran_t hL hr
  exact (run_invariant log draws _ g' a b c h).2.2

theorem rate_consistency_witness :
    (after (demoGame.operator_inc demoLog (1 / 2) (1 / 2))).W =
      (after (demoGame.operator_inc demoLog (1 / 2) (1 / 2))).calculate_W ∧
    (after (demoGame.run demoLog [(1 / 2, 1 / 2), (1 / 3, 3 / 4)])).W =
      (after (demoGame.run demoLog [(1 / 2, 1 / 2), (1 / 3, 3 / 4)])).calculate_W :=
  ⟨(rate_consistency demoLog).1 demoGame _ (1 / 2) (1 / 2) (by decide) (by decide) (by decide!)
      (by decide!),
   (rate_consistency demoLog).2 2 (1 / 4) 1 1 0 (fun k => k % 4) [(1 / 2, 1 / 2), (1 / 3, 3 / 4)] _
      (by decide) (fun k => Nat.le_of_lt_succ (Nat.mod_lt k (by decide))) (by decide!)⟩

/-! ## The effect of one step -/

/-- A finite clock from which a quotient by zero is subtracted is no longer that clock. -/
theorem sub_quot_zero_ne (t0 x : K) :
    (Clock.fin t0).sub (Clock.quot x 0) ≠ Clock.fin t0 := by
  unfold Clock.quot
  rw [if_pos rfl]
  split_ifs <;> simp [Clock.sub]

/-- The scan runs to completion when no scanned pair holds two different values. -/
theorem scanFrom_none_of_equal (g : Game2D K) (ran_W : K) :
    ∀ (l : List (Nat × Nat)) (sum : K),
      (∀ p ∈ l, g.cell p.1 = g.cell (g.nbr p.2 p.1)) → g.scanFrom ran_W l sum = none := by
  intro l
  induction l with
  | nil => intro sum _; rfl
  | cons p rest ih =>
    obtain ⟨i, n⟩ := p
    intro sum h
    have h1 : g.cell i = g.cell (g.nbr n i) := h (i, n) (List.mem_cons_self _ _)
    rw [Game2D.scanFrom, if_neg (not_not.mpr h1)]
    exact ih sum (fun p hp => h p (List.mem_cons_of_mem _ hp))

/-- A call of `operator++` whose scan stops at an operation returns the result of the
`switch` for it. -/
theorem operator_inc_of_scan (log : K → K) (g : Game2D K) (u1 u2 : K) (i n : Nat)
    (op : interactions) (hop : op ≠ interactions.ERROR)
    (hscan : (g.tick log u1).scan (u2 * g.W) = some (i, n, op)) :
    g.operator_inc log u1 u2 = Except.ok ((g.tick log u1).applyEvent i (g.nbr n i) op) := by
  unfold Game2D.operator_inc
  have hW : (g.tick log u1).W = g.W := rfl
  simp only [hW, hscan, if_neg hop]
  rfl

theorem count_set_add (l : List Nat) (x v b : Nat) (hx : x < l.length) :
    (l.set x v).count b + (if l.getD x 0 = b then 1 else 0) =
      l.count b + (if v = b then 1 else 0) := by
  rw [List.count_set _ _ _ _ hx, List.getD_eq_getElem _ _ hx]
  simp only [beq_iff_eq]
  by_cases h1 : l[x] = b
  · have hpos : 0 < l.count b := List.count_pos_iff.mpr (h1 ▸ List.getElem_mem hx)
    simp only [if_pos h1]
    omega
  · simp only [if_neg h1]
    omega

theorem swapCells_count (a : List Nat) (i j b : Nat) (hi : i < a.length) (hj : j < a.length) :
    (swapCells a i j).count b = a.count b := by
  have h1 := count_set_add a i (a.getD j 0) b hi
  have h2 := count_set_add (a.set i (a.getD j 0)) j (a.getD i 0) b
    (by rw [List.length_set]; exact hj)
  have h3 : (a.set i (a.getD j 0)).getD j 0 = a.getD j 0 := by
    by_cases hij : j = i
    · rw [hij]; rw [hij] at hj; exact getD_set_eq _ _ _ hi
    · exact getD_set_ne _ _ _ _ hij
  rw [h3] at h2
  unfold swapCells
  omega

theorem swapCells_getD (a : List Nat) (i j : Nat) (hi : i < a.length) (hj : j < a.length) :
    (swapCells a i j).getD i 0 = a.getD j 0 ∧ (swapCells a i j).getD j 0 = a.getD i 0 := by
  unfold swapCells
  refine ⟨?_, getD_set_eq _ _ _ (by rw [List.length_set]; exact hj)⟩
  by_cases hij : i = j
  · subst hij
    exact getD_set_eq _ _ _ (by rw [List.length_set]; exact hi)
  · rw [getD_set_ne _ _ _ _ hij]; exact getD_set_eq _ _ _ hi

/-- **C6** Exchange conserves populations.  When the scan of `operator++` stops at an
Exchange for site `i` and direction `n`, the call returns; the new lattice is a permutation
of the old one (each value is held by as many cells as before), and the sites `i` and
`neighbours[n][i]` hold each other's previous values. -/
theorem exchange_conserves (log : K → K) (g : Game2D K) (u1 u2 : K) (i n : Nat) (hwf : g.WF)
    (hscan : (g.tick log u1).scan (u2 * g.W) = some (i, n, interactions.EXCHANGE)) :
    ∃ g', g.operator_inc log u1 u2 = Except.ok g' ∧
      g'.animals.Perm g.animals ∧ (∀ c, g'.animals.count c = g.animals.count c) ∧
      g'.cell i = g.cell (g.nbr n i) ∧ g'.cell (g.nbr n i) = g.cell i := by
  refine ⟨_, operator_inc_of_scan log g u1 u2 i n _ (by decide) hscan, ?_⟩
  obtain ⟨hi, hn, -, -⟩ := scan_some _ _ i n _ hscan
  have hj : g.nbr n i < g.N := nbr_lt_of_lt_two hwf i n hi hn
  have hi' : i < g.animals.length := by rw [hwf.2.1]; exact hi
  have hj' : g.nbr n i < g.animals.length := by rw [hwf.2.1]; exact hj
  have hcount : ∀ c, (swapCells g.animals i (g.nbr n i)).count c = g.animals.count c :=
    fun c => swapCells_count _ _ _ c hi' hj'
  exact ⟨List.perm_iff_count.mpr hcount, hcount, (swapCells_getD _ _ _ hi' hj').1,
    (swapCells_getD _ _ _ hi' hj').2⟩

theorem exchange_conserves_witness :
    ∃ g', demoGame.operator_inc demoLog (1 / 2) (1 / 48) = Except.ok g' ∧
      g'.animals.Perm demoGame.animals ∧
      (∀ c, g'.animals.count c = demoGame.animals.count c) ∧
      g'.cell 0 = demoGame.cell (demoGame.nbr 0 0) ∧
      g'.cell (demoGame.nbr 0 0) = demoGame.cell 0 :=
  exchange_conserves demoLog demoGame (1 / 2) (1 / 48) 0 0 (by decide) (by decide!)

theorem winningTableAt_cases (a b : Nat) (ha : a < 3) (hb : b < 3) (hab : a ≠ b) :
    (beats a b ∧ winningTableAt a b = a) ∨ (beats b a ∧ winningTableAt a b = b) := by
  interval_cases a <;> interval_cases b <;> first | exact absurd rfl hab | decide

theorem not_beats_both (a b : Nat) : ¬ (beats a b ∧ beats b a) := by
  unfold beats TYPE_A TYPE_B TYPE_C; omega

/-- **C5** Selection outcome.  When the scan of `operator++` stops at a Selection for site
`i` and its neighbour `j = neighbours[n][i]` in a valid lattice, the two sites hold
distinct kinds, one of which beats the other under the cyclic rule; the call returns, the
site holding the beaten kind is `EMPTY` afterwards and the site holding the winning kind
keeps its value, whether the winner sits on `i` or on `j`. -/
theorem selection_outcome (log : K → K) (g : Game2D K) (u1 u2 : K) (i n : Nat) (hwf : g.WF)
    (hv : g.ValidCells)
    (hscan : (g.tick log u1).scan (u2 * g.W) = some (i, n, interactions.SELECTION)) :
    ∃ g', g.operator_inc log u1 u2 = Except.ok g' ∧
      g.cell i ≠ g.cell (g.nbr n i) ∧ g.cell i ≠ EMPTY ∧ g.cell (g.nbr n i) ≠ EMPTY ∧
      (beats (g.cell i) (g.cell (g.nbr n i)) ∨ beats (g.cell (g.nbr n i)) (g.cell i)) ∧
      (beats (g.cell i) (g.cell (g.nbr n i)) →
        g'.cell (g.nbr n i) = EMPTY ∧ g'.cell i = g.cell i) ∧
      (beats (g.cell (g.nbr n i)) (g.cell i) →
        g'.cell i = EMPTY ∧ g'.cell (g.nbr n i) = g.cell (g.nbr n i)) := by
  refine ⟨_, operator_inc_of_scan log g u1 u2 i n _ (by decide) hscan, ?_⟩
  obtain ⟨hi, hn, hne, hop⟩ := scan_some _ _ i n _ hscan
  have hne : g.cell i ≠ g.cell (g.nbr n i) := hne
  have hnE : ¬ (g.cell i = EMPTY ∨ g.cell (g.nbr n i) = EMPTY) := by
    rcases hop with h | h | h
    · exact absurd h (by decide)
    · exact absurd h.1 (by decide)
    · exact h.2
  have hj : g.nbr n i < g.N := nbr_lt_of_lt_two hwf i n hi hn
  have hi' : i < g.animals.length := by rw [hwf.2.1]; exact hi
  have hj' : g.nbr n i < g.animals.length := by rw [hwf.2.1]; exact hj
  have hij : i ≠ g.nbr n i := fun h => hne (by rw [← h])
  have ha : g.cell i < 3 := by
    have : g.cell i ≤ 3 := cell_le_of_valid hv i
    have h3 : g.cell i ≠ 3 := fun h => hnE (Or.inl h)
    omega
  have hb : g.cell (g.nbr n i) < 3 := by
    have : g.cell (g.nbr n i) ≤ 3 := cell_le_of_valid hv (g.nbr n i)
    have h3 : g.cell (g.nbr n i) ≠ 3 := fun h => hnE (Or.inr h)
    omega
  have hcases := winningTableAt_cases _ _ ha hb hne
  have hanim : ((g.tick log u1).applyEvent i (g.nbr n i) interactions.SELECTION).animals =
      g.animals.set (if g.cell i = winningTableAt (g.cell i) (g.cell (g.nbr n i))
        then g.nbr n i else i) EMPTY := rfl
  refine ⟨hne, fun h => hnE (Or.inl h), fun h => hnE (Or.inr h), ?_, ?_, ?_⟩
  · rcases hcases with h | h
    · exact Or.inl h.1
    · exact Or.inr h.1
  · intro hbeat
    have hw : winningTableAt (g.cell i) (g.cell (g.nbr n i)) = g.cell i := by
      rcases hcases with h | h
      · exact h.2
      · exact absurd ⟨hbeat, h.1⟩ (not_beats_both _ _)
    unfold Game2D.cell
    rw [hanim, if_pos hw.symm]
    exact ⟨getD_set_eq _ _ _ hj', getD_set_ne _ _ _ _ hij⟩
  · intro hbeat
    have hw : winningTableAt (g.cell i) (g.cell (g.nbr n i)) = g.cell (g.nbr n i) := by
      rcases hcases with h | h
      · exact absurd ⟨h.1, hbeat⟩ (not_beats_both _ _)
      · exact h.2
    unfold Game2D.cell
    rw [hanim, if_neg (by rw [hw]; exact hne)]
    exact ⟨getD_set_eq _ _ _ hi', getD_set_ne _ _ _ _ (Ne.symm hij)⟩

theorem selection_outcome_witness :
    ∃ g', demoGame.operator_inc demoLog (1 / 2) (1 / 12) = Except.ok g' ∧
      demoGame.cell 0 ≠ demoGame.cell (demoGame.nbr 0 0) ∧ demoGame.cell 0 ≠ EMPTY ∧
      demoGame.cell (demoGame.nbr 0 0) ≠ EMPTY ∧
      (beats (demoGame.cell 0) (demoGame.cell (demoGame.nbr 0 0)) ∨
        beats (demoGame.cell (demoGame.nbr 0 0)) (demoGame.cell 0)) ∧
      (beats (demoGame.cell 0) (demoGame.cell (demoGame.nbr 0 0)) →
        g'.cell (demoGame.nbr 0 0) = EMPTY ∧ g'.cell 0 = demoGame.cell 0) ∧
      (beats (demoGame.cell (demoGame.nbr 0 0)) (demoGame.cell 0) →
        g'.cell 0 = EMPTY ∧ g'.cell (demoGame.nbr 0 0) = demoGame.cell (demoGame.nbr 0 0)) :=
  selection_outcome demoLog demoGame (1 / 2) (1 / 12) 0 0 (by decide) (by decide) (by decide!)

/-- **C7** Reproduction effect.  When the scan of `operator++` stops at a Reproduction for
site `i` and its neighbour `j = neighbours[n][i]`, exactly one of the two sites is `EMPTY`;
the call returns, afterwards both sites hold the value of the site that was not empty
(which is unchanged), and the lattice has exactly one `EMPTY` cell less. -/
theorem reproduction_effect (log : K → K) (g : Game2D K) (u1 u2 : K) (i n : Nat) (hwf : g.WF)
    (hscan : (g.tick log u1).scan (u2 * g.W) = some (i, n, interactions.REPRODUCTION)) :
    ∃ g', g.operator_inc log u1 u2 = Except.ok g' ∧
      ((g.cell i = EMPTY ∧ g.cell (g.nbr n i) ≠ EMPTY ∧
          g'.cell i = g.cell (g.nbr n i) ∧ g'.cell (g.nbr n i) = g.cell (g.nbr n i)) ∨
        (g.cell (g.nbr n i) = EMPTY ∧ g.cell i ≠ EMPTY ∧
          g'.cell (g.nbr n i) = g.cell i ∧ g'.cell i = g.cell i)) ∧
      g'.animals.count EMPTY + 1 = g.animals.count EMPTY := by
  refine ⟨_, operator_inc_of_scan log g u1 u2 i n _ (by decide) hscan, ?_⟩
  obtain ⟨hi, hn, hne, hop⟩ := scan_some _ _ i n _ hscan
  have hne : g.cell i ≠ g.cell (g.nbr n i) := hne
  have hE : g.cell i = EMPTY ∨ g.cell (g.nbr n i) = EMPTY := by
    rcases hop with h | h | h
    · exact absurd h (by decide)
    · exact h.2
    · exact absurd h.1 (by decide)
  have hj : g.nbr n i < g.N := nbr_lt_of_lt_two hwf i n hi hn
  have hi' : i < g.animals.length := by rw [hwf.2.1]; exact hi
  have hj' : g.nbr n i < g.animals.length := by rw [hwf.2.1]; exact hj
  have hij : i ≠ g.nbr n i := fun h => hne (by rw [← h])
  have hanim := applyEvent_animals (g.tick log u1) i (g.nbr n i) interactions.REPRODUCTION
  simp only at hanim
  have hc : ∀ s, (g.tick log u1).cell s = g.cell s := fun _ => rfl
  have ha : (g.tick log u1).animals = g.animals := rfl
  rw [hc, hc, ha] at hanim
  unfold Game2D.cell at hanim ⊢
  rw [hanim]
  by_cases h0 : g.animals.getD i 0 = EMPTY
  · have hjne : g.animals.getD (g.nbr n i) 0 ≠ EMPTY := fun h => hne (by
      show g.animals.getD i 0 = g.animals.getD (g.nbr n i) 0; rw [h0, h])
    rw [if_pos h0]
    refine ⟨Or.inl ⟨h0, hjne, getD_set_eq _ _ _ hi', getD_set_ne _ _ _ _ (Ne.symm hij)⟩, ?_⟩
    have := count_set_add g.animals i (g.animals.getD (g.nbr n i) 0) EMPTY hi'
    rw [if_pos h0, if_neg hjne] at this
    exact this
  · have hjE : g.animals.getD (g.nbr n i) 0 = EMPTY := hE.resolve_left h0
    rw [if_neg h0]
    refine ⟨Or.inr ⟨hjE, h0, getD_set_eq _ _ _ hj', getD_set_ne _ _ _ _ hij⟩, ?_⟩
    have := count_set_add g.animals (g.nbr n i) (g.animals.getD i 0) EMPTY hj'
    rw [if_pos hjE, if_neg h0] at this
    exact this

theorem reproduction_effect_witness :
    ∃ g', demoGame.operator_inc demoLog (1 / 2) (1 / 3) = Except.ok g' ∧
      ((demoGame.cell 1 = EMPTY ∧ demoGame.cell (demoGame.nbr 0 1) ≠ EMPTY ∧
          g'.cell 1 = demoGame.cell (demoGame.nbr 0 1) ∧
          g'.cell (demoGame.nbr 0 1) = demoGame.cell (demoGame.nbr 0 1)) ∨
        (demoGame.cell (demoGame.nbr 0 1) = EMPTY ∧ demoGame.cell 1 ≠ EMPTY ∧
          g'.cell (demoGame.nbr 0 1) = demoGame.cell 1 ∧ g'.cell 1 = demoGame.cell 1)) ∧
      g'.animals.count EMPTY + 1 = demoGame.animals.count EMPTY :=
  reproduction_effect demoLog demoGame (1 / 2) (1 / 3) 1 0 (by decide) (by decide!)

/-! ## Clock, event selection and the per-pair sum -/

/-- The clock after a call of `operator++`, returning or throwing, is the one set by its
first statement. -/
theorem operator_inc_t (log : K → K) (g : Game2D K) (u1 u2 : K) :
    (after (g.operator_inc log u1 u2)).t = g.t.sub (Clock.quot (log u1) g.W) := by
  unfold Game2D.operator_inc
  simp only
  cases hs : (g.tick log u1).scan (u2 * (g.tick log u1).W) with
  | none => rfl
  | some r =>
    obtain ⟨i, n, op⟩ := r
    simp only
    split_ifs
    · rfl
    · exact (applyEvent_frame (g.tick log u1) i _ op).2.2.2.2.2

/-- A call of `operator++` on a lattice without differing scanned pairs throws. -/
theorem operator_inc_of_equal (log : K → K) (g : Game2D K) (u1 u2 : K)
    (h : ∀ p ∈ scanOrder g.N, g.cell p.1 = g.cell (g.nbr p.2 p.1)) :
    g.operator_inc log u1 u2 = Except.error (g.tick log u1) := by
  have hscan : (g.tick log u1).scan (u2 * (g.tick log u1).W) = none :=
    scanFrom_none_of_equal (g.tick log u1) _ _ 0 h
  unfold Game2D.operator_inc
  simp only [hscan]

theorem clock_step (t : Clock K) (x w : K) (ht : t.Forward) (hx : x < 0) (hw : 0 ≤ w) :
    (t.sub (Clock.quot x w)).Forward ∧ Clock.le t (t.sub (Clock.quot x w)) := by
  unfold Clock.quot
  by_cases h0 : w = 0
  · rw [if_pos h0, if_neg (not_lt.mpr hx.le), if_pos hx]
    cases t <;> simp_all [Clock.sub, Clock.Forward, Clock.le]
  · rw [if_neg h0]
    have hwpos : 0 < w := lt_of_le_of_ne hw (Ne.symm h0)
    have hq : x / w < 0 := div_neg_of_neg_of_pos hx hwpos
    cases t <;> simp_all [Clock.sub, Clock.Forward, Clock.le]
    linarith

theorem clock_step_not_lt (t : Clock K) (x w : K) (hx : x < 0) (hw : 0 ≤ w) :
    ¬ Clock.lt (t.sub (Clock.quot x w)) t := by
  unfold Clock.quot
  by_cases h0 : w = 0
  · rw [if_pos h0, if_neg (not_lt.mpr hx.le), if_pos hx]
    cases t <;> simp [Clock.sub, Clock.lt]
  · rw [if_neg h0]
    have hwpos : 0 < w := lt_of_le_of_ne hw (Ne.symm h0)
    have hq : x / w < 0 := div_neg_of_neg_of_pos hx hwpos
    cases t <;> simp [Clock.sub, Clock.lt]
    linarith

theorem trace_never_back (log : K → K) (draws : List (K × K)) :
    ∀ (g : Game2D K), (∀ s ∈ g.trace log draws, 0 ≤ s.W) → (∀ d ∈ draws, log d.1 < 0) →
      List.Chain' (fun a b => ¬ Clock.lt b.t a.t) (g.trace log draws) ∧
      (g.t.Forward → List.Chain' (fun a b => Clock.le a.t b.t) (g.trace log draws)) := by
  induction draws with
  | nil => intro g _ _; simp [Game2D.trace]
  | cons d rest ih =>
    obtain ⟨u1, u2⟩ := d
    intro g hW hd
    have hlog : log u1 < 0 := hd (u1, u2) (List.mem_cons_self _ _)
    have hgW : 0 ≤ g.W := hW g (by simp [Game2D.trace])
    have hnl := clock_step_not_lt g.t (log u1) g.W hlog hgW
    have hfw := fun hf => clock_step g.t (log u1) g.W hf hlog hgW
    rw [← operator_inc_t log g u1 u2] at hnl hfw
    obtain ⟨ih1, ih2⟩ := ih (after (g.operator_inc log u1 u2))
      (fun s hs => hW s (by rw [Game2D.trace]; exact List.mem_cons_of_mem _ hs))
      (fun d hd' => hd d (List.mem_cons_of_mem _ hd'))
    have hhead : ∀ y ∈ (Game2D.trace log (after (g.operator_inc log u1 u2)) rest).head?,
        y = after (g.operator_inc log u1 u2) := by
      intro y hy
      cases rest with
      | nil => simp [Game2D.trace] at hy; exact hy.symm
      | cons d' rest' =>
        obtain ⟨v1, v2⟩ := d'
        simp [Game2D.trace] at hy; exact hy.symm
    constructor
    · rw [Game2D.trace, List.chain'_cons']
      exact ⟨fun y hy => by rw [hhead y hy]; exact hnl, ih1⟩
    · intro hf
      rw [Game2D.trace, List.chain'_cons']
      exact ⟨fun y hy => by rw [hhead y hy]; exact (hfw hf).2, ih2 (hfw hf).1⟩

/-! ## Rounding to `double` and the clock statement -/

section DoubleClock

variable [FloorRing K]

theorem rte_mem (q : K) : roundTiesEven q = ⌊q⌋ ∨ roundTiesEven q = ⌊q⌋ + 1 := by
  unfold roundTiesEven
  split_ifs <;> simp

theorem rte_int (m : Int) : roundTiesEven (m : K) = m := by
  unfold roundTiesEven
  rw [Int.floor_intCast, sub_self, if_pos (by norm_num)]

theorem le_rte (q : K) (m : Int) (h : (m : K) ≤ q) : m ≤ roundTiesEven q := by
  have h1 : m ≤ ⌊q⌋ := Int.le_floor.mpr h
  rcases rte_mem q with e | e <;> omega

theorem rte_le (q : K) (m : Int) (h : q ≤ (m : K)) : roundTiesEven q ≤ m := by
  rcases eq_or_lt_of_le h with e | hlt
  · rw [e, rte_int]
  · have h1 : ⌊q⌋ < m := Int.floor_lt.mpr hlt
    rcases rte_mem q with e | e <;> omega

theorem rte_mono (q q' : K) (h : q ≤ q') : roundTiesEven q ≤ roundTiesEven q' := by
  have hf : ⌊q⌋ ≤ ⌊q'⌋ := Int.floor_mono h
  rcases eq_or_lt_of_le hf with e | hlt
  · have hr : q - ⌊q⌋ ≤ q' - ⌊q'⌋ := by rw [← e]; linarith
    unfold roundTiesEven
    rw [← e]
    rw [← e] at hr
    split_ifs <;> first | omega | (exfalso; linarith)
  · have h1 := rte_mem q
    have h2 := rte_mem q'
    rcases h1 with e1 | e1 <;> rcases h2 with e2 | e2 <;> omega

theorem rte_near (q : K) (m : Int) (h1 : (m : K) - 1 / 2 < q) (h2 : q < (m : K) + 1 / 2) :
    roundTiesEven q = m := by
  rcases le_or_lt (m : K) q with h | h
  · have hf : ⌊q⌋ = m := by
      rw [Int.floor_eq_iff]
      exact ⟨h, by linarith⟩
    unfold roundTiesEven
    rw [hf, if_pos (by linarith)]
  · have hf : ⌊q⌋ = m - 1 := by
      rw [Int.floor_eq_iff]
      push_cast
      exact ⟨by linarith, by linarith⟩
    unfold roundTiesEven
    rw [hf]
    push_cast
    rw [if_neg (by linarith), if_pos (by linarith)]
    omega

theorem rte_neg (q : K) : roundTiesEven (-q) = -roundTiesEven q := by
  by_cases hq : (⌊q⌋ : K) = q
  · rw [← hq, ← Int.cast_neg, rte_int, rte_int]
  · have hlt : (⌊q⌋ : K) < q := lt_of_le_of_ne (Int.floor_le q) hq
    have hlt2 : q < (⌊q⌋ : K) + 1 := Int.lt_floor_add_one q
    have hf : ⌊-q⌋ = -⌊q⌋ - 1 := by
      rw [Int.floor_eq_iff]
      push_cast
      exact ⟨by linarith, by linarith⟩
    unfold roundTiesEven
    rw [hf]
    push_cast
    split_ifs <;> first | omega | (exfalso; linarith)

theorem two_zpow_pos (e : Int) : (0 : K) < (2 : K) ^ e := zpow_pos (by norm_num) e

theorem two_zpow_le (a b : Int) (h : a ≤ b) : (2 : K) ^ a ≤ (2 : K) ^ b :=
  zpow_le_zpow_right₀ (by norm_num) h

theorem ulp_pos (x : K) : 0 < ulp x := two_zpow_pos _

theorem binade_ge (x : K) : -1022 ≤ binade x := le_max_right _ _

theorem binade_neg (x : K) : binade (-x) = binade x := by
  unfold binade; rw [abs_neg]

theorem ulp_neg (x : K) : ulp (-x) = ulp x := by
  unfold ulp; rw [binade_neg]

theorem nearest_neg (x : K) : nearest (-x) = -nearest x := by
  unfold nearest
  rw [ulp_neg, neg_div, rte_neg]
  push_cast
  ring

theorem nearest_zero : nearest (0 : K) = 0 := by
  unfold nearest
  rw [zero_div]
  have := rte_int (K := K) 0
  rw [Int.cast_zero] at this
  rw [this, Int.cast_zero, zero_mul]

theorem abs_lt_two_zpow (x : K) : |x| < (2 : K) ^ (binade x + 1) := by
  have h := Int.lt_zpow_succ_log_self (b := 2) (by norm_num) |x|
  rw [Nat.cast_ofNat] at h
  exact lt_of_lt_of_le h (two_zpow_le _ _ (by unfold binade; have := le_max_left (Int.log 2 |x|) (-1022); omega))

theorem two_zpow_le_abs (x : K) (hx : x ≠ 0) (h : -1022 < binade x) :
    (2 : K) ^ binade x ≤ |x| := by
  have hb : binade x = Int.log 2 |x| := by
    unfold binade at h ⊢
    rcases max_cases (Int.log 2 |x|) (-1022) with ⟨e, _⟩ | ⟨e, _⟩
    · exact e
    · rw [e] at h; omega
  rw [hb]
  have h := Int.zpow_log_le_self (b := 2) (r := |x|) (by norm_num) (abs_pos.mpr hx)
  rw [Nat.cast_ofNat] at h
  exact h

theorem binade_mono (x y : K) (hx : x ≠ 0) (h : |x| ≤ |y|) : binade x ≤ binade y := by
  unfold binade
  exact max_le_max (Int.log_mono_right (abs_pos.mpr hx) h) (le_refl _)

theorem binade_eq (x : K) (e : Int) (he : -1022 ≤ e) (hx : x ≠ 0)
    (h1 : e = -1022 ∨ (2 : K) ^ e ≤ |x|) (h2 : |x| < (2 : K) ^ (e + 1)) : binade x = e := by
  have hpos : 0 < |x| := abs_pos.mpr hx
  have hlt : Int.log 2 |x| < e + 1 := by
    rw [← Int.lt_zpow_iff_log_lt (by norm_num) hpos, Nat.cast_ofNat]
    exact h2
  unfold binade
  rcases h1 with h1 | h1
  · rw [max_eq_right (by omega), h1]
  · have hle : e ≤ Int.log 2 |x| := by
      rw [← Int.zpow_le_iff_le_log (by norm_num) hpos, Nat.cast_ofNat]
      exact h1
    rw [max_eq_left (by omega)]
    omega

theorem two_zpow_eq_mul (x : K) (B : Int) (hB : binade x - 52 ≤ B) :
    (2 : K) ^ B = (((2 : Int) ^ (B - (binade x - 52)).toNat : Int) : K) * ulp x := by
  unfold ulp
  have h1 : ((B - (binade x - 52)).toNat : Int) = B - (binade x - 52) :=
    Int.toNat_of_nonneg (by omega)
  have h2 : (2 : K) ^ B = (2 : K) ^ (B - (binade x - 52)) * (2 : K) ^ (binade x - 52) := by
    rw [← zpow_add₀ (by norm_num : (2 : K) ≠ 0)]
    congr 1
    ring
  rw [h2]
  congr 1
  rw [Int.cast_pow, Int.cast_ofNat, ← zpow_natCast, h1]

theorem nearest_le_mul (x : K) (m : Int) (h : x ≤ (m : K) * ulp x) :
    nearest x ≤ (m : K) * ulp x := by
  unfold nearest
  have h1 : x / ulp x ≤ (m : K) := (div_le_iff₀ (ulp_pos x)).mpr h
  have h2 := rte_le _ _ h1
  exact mul_le_mul_of_nonneg_right (by exact_mod_cast h2) (ulp_pos x).le

theorem mul_le_nearest (x : K) (m : Int) (h : (m : K) * ulp x ≤ x) :
    (m : K) * ulp x ≤ nearest x := by
  unfold nearest
  have h1 : (m : K) ≤ x / ulp x := (le_div_iff₀ (ulp_pos x)).mpr h
  have h2 := le_rte _ _ h1
  exact mul_le_mul_of_nonneg_right (by exact_mod_cast h2) (ulp_pos x).le

theorem nearest_le_two_zpow (x : K) (B : Int) (hB : binade x - 52 ≤ B) (h : x ≤ (2 : K) ^ B) :
    nearest x ≤ (2 : K) ^ B := by
  rw [two_zpow_eq_mul x B hB] at h ⊢
  exact nearest_le_mul x _ h

theorem two_zpow_le_nearest (x : K) (B : Int) (hB : binade x - 52 ≤ B) (h : (2 : K) ^ B ≤ x) :
    (2 : K) ^ B ≤ nearest x := by
  rw [two_zpow_eq_mul x B hB] at h ⊢
  exact mul_le_nearest x _ h

theorem nearest_nonneg (x : K) (h : 0 ≤ x) : 0 ≤ nearest x := by
  have := mul_le_nearest x 0 (by rw [Int.cast_zero, zero_mul]; exact h)
  rwa [Int.cast_zero, zero_mul] at this

theorem nearest_mul (y : K) (n : Int) (h : y = (n : K) * ulp y) : nearest y = y := by
  unfold nearest
  have : y / ulp y = (n : K) := by
    rw [div_eq_iff (ne_of_gt (ulp_pos y))]
    exact h
  rw [this, rte_int, ← h]

theorem binade_two_zpow (B : Int) (hB : -1022 ≤ B) : binade ((2 : K) ^ B) = B := by
  apply binade_eq _ _ hB (ne_of_gt (two_zpow_pos B))
  · right
    rw [abs_of_pos (two_zpow_pos B)]
  · rw [abs_of_pos (two_zpow_pos B)]
    exact zpow_lt_zpow_right₀ (by norm_num) (by omega)

theorem nearest_two_zpow (B : Int) (hB : -1022 ≤ B) : nearest ((2 : K) ^ B) = (2 : K) ^ B := by
  apply nearest_mul _ ((2 : Int) ^ (B - (binade ((2 : K) ^ B) - 52)).toNat)
  exact two_zpow_eq_mul _ B (by rw [binade_two_zpow B hB]; omega)

theorem nearest_mono_pos (x y : K) (hx : 0 < x) (h : x ≤ y) : nearest x ≤ nearest y := by
  have hy : 0 < y := lt_of_lt_of_le hx h
  have hb : binade x ≤ binade y :=
    binade_mono x y (ne_of_gt hx) (by rw [abs_of_pos hx, abs_of_pos hy]; exact h)
  rcases eq_or_lt_of_le hb with e | hlt
  · unfold nearest ulp
    rw [e]
    have hu : (0 : K) < (2 : K) ^ (binade y - 52) := two_zpow_pos _
    have := rte_mono (x / (2 : K) ^ (binade y - 52)) (y / (2 : K) ^ (binade y - 52))
      (div_le_div_of_nonneg_right h hu.le)
    exact mul_le_mul_of_nonneg_right (by exact_mod_cast this) hu.le
  · have h1 : x ≤ (2 : K) ^ binade y := by
      have := abs_lt_two_zpow x
      rw [abs_of_pos hx] at this
      exact le_trans this.le (two_zpow_le _ _ (by omega))
    have h2 : (2 : K) ^ binade y ≤ y := by
      have := two_zpow_le_abs y (ne_of_gt hy) (by have := binade_ge x; omega)
      rwa [abs_of_pos hy] at this
    exact le_trans (nearest_le_two_zpow x _ (by omega) h1)
      (two_zpow_le_nearest y _ (by omega) h2)

theorem nearest_mono (x y : K) (h : x ≤ y) : nearest x ≤ nearest y := by
  rcases lt_trichotomy 0 x with hx | hx | hx
  · exact nearest_mono_pos x y hx h
  · rw [← hx, nearest_zero]
    exact nearest_nonneg y (by rw [hx]; exact h)
  · rcases le_or_lt 0 y with hy | hy
    · have h1 : 0 ≤ nearest (-x) := nearest_nonneg _ (by linarith)
      rw [nearest_neg] at h1
      have h2 := nearest_nonneg y hy
      linarith
    · have := nearest_mono_pos (-y) (-x) (by linarith) (by linarith)
      rw [nearest_neg, nearest_neg] at this
      linarith

theorem nearest_idem_pos (x : K) (hx : 0 < x) : nearest (nearest x) = nearest x := by
  have h0 : 0 ≤ nearest x := nearest_nonneg x hx.le
  rcases eq_or_lt_of_le h0 with e | hpos
  · rw [← e, nearest_zero]
  have hup : nearest x ≤ (2 : K) ^ (binade x + 1) := by
    apply nearest_le_two_zpow x _ (by omega)
    have := abs_lt_two_zpow x
    rw [abs_of_pos hx] at this
    exact this.le
  rcases eq_or_lt_of_le hup with e | hlt
  · rw [e]
    exact nearest_two_zpow _ (by have := binade_ge x; omega)
  · have hb : binade (nearest x) = binade x := by
      apply binade_eq _ _ (binade_ge x) (ne_of_gt hpos)
      · rcases eq_or_lt_of_le (binade_ge x) with e | hgt
        · left; exact e.symm
        · right
          rw [abs_of_pos hpos]
          apply two_zpow_le_nearest x _ (by omega)
          have := two_zpow_le_abs x (ne_of_gt hx) hgt
          rwa [abs_of_pos hx] at this
      · rw [abs_of_pos hpos]; exact hlt
    apply nearest_mul _ (roundTiesEven (x / ulp x))
    unfold ulp
    rw [hb]
    rfl

theorem nearest_idem (x : K) : nearest (nearest x) = nearest x := by
  rcases lt_trichotomy 0 x with hx | hx | hx
  · exact nearest_idem_pos x hx
  · rw [← hx, nearest_zero, nearest_zero]
  · have := nearest_idem_pos (-x) (by linarith)
    rw [nearest_neg, nearest_neg] at this
    exact neg_injective this

theorem roundDouble_cases (x : K) :
    (roundDouble x = Clock.posInf ∧ (2 : K) ^ 1024 ≤ nearest x) ∨
    (roundDouble x = Clock.negInf ∧ nearest x ≤ -(2 : K) ^ 1024) ∨
    (roundDouble x = Clock.fin (nearest x) ∧ -(2 : K) ^ 1024 < nearest x ∧
      nearest x < (2 : K) ^ 1024) := by
  unfold roundDouble
  by_cases h1 : (2 : K) ^ 1024 ≤ nearest x
  · left; rw [if_pos h1]; exact ⟨rfl, h1⟩
  · by_cases h2 : nearest x ≤ -(2 : K) ^ 1024
    · right; left; rw [if_neg h1, if_pos h2]; exact ⟨rfl, h2⟩
    · right; right; rw [if_neg h1, if_neg h2]; exact ⟨rfl, not_le.mp h2, not_le.mp h1⟩

theorem roundDouble_mono (x y : K) (h : x ≤ y) : Clock.le (roundDouble x) (roundDouble y) := by
  have hm := nearest_mono x y h
  have hp : (0 : K) < (2 : K) ^ 1024 := by positivity
  rcases roundDouble_cases x with ⟨e1, h1⟩ | ⟨e1, h1⟩ | ⟨e1, h1, h1'⟩ <;>
  rcases roundDouble_cases y with ⟨e2, h2⟩ | ⟨e2, h2⟩ | ⟨e2, h2, h2'⟩ <;>
  rw [e1, e2] <;> simp only [Clock.le] <;> first | trivial | exact hm | (exfalso; linarith)

theorem roundDouble_isDouble (x : K) : (roundDouble x).IsDouble := by
  rcases roundDouble_cases x with ⟨e1, h1⟩ | ⟨e1, h1⟩ | ⟨e1, h1, h1'⟩
  · rw [e1]; trivial
  · rw [e1]; trivial
  · rw [e1]
    show roundDouble (nearest x) = Clock.fin (nearest x)
    unfold roundDouble
    rw [nearest_idem, if_neg (not_le.mpr h1'), if_neg (not_le.mpr h1)]

theorem roundDouble_of_nearest (x : K) (h : nearest x = x) (h1 : -(2 : K) ^ 1024 < x)
    (h2 : x < (2 : K) ^ 1024) : roundDouble x = Clock.fin x := by
  unfold roundDouble
  rw [h, if_neg (not_le.mpr h2), if_neg (not_le.mpr h1)]

theorem roundDouble_zero : roundDouble (0 : K) = Clock.fin 0 :=
  roundDouble_of_nearest 0 nearest_zero (by simp) (by positivity)

/-- Rounding a value that is not below a `double` gives a result that is not below it. -/
theorem roundDouble_ge (a y : K) (ha : roundDouble a = Clock.fin a) (h : a ≤ y) :
    roundDouble y = Clock.posInf ∨ ∃ b, a ≤ b ∧ roundDouble y = Clock.fin b := by
  have hm := roundDouble_mono a y h
  rw [ha] at hm
  cases hy : roundDouble y with
  | fin b => right; rw [hy] at hm; exact ⟨b, hm, rfl⟩
  | posInf => left; rfl
  | negInf => rw [hy] at hm; exact hm.elim
  | nan => rw [hy] at hm; exact hm.elim

/-- Rounding a value that is not above zero gives a result that is not above zero. -/
theorem roundDouble_nonpos (x : K) (h : x ≤ 0) :
    roundDouble x = Clock.negInf ∨ ∃ b, b ≤ 0 ∧ roundDouble x = Clock.fin b := by
  have hm := roundDouble_mono x 0 h
  rw [roundDouble_zero] at hm
  cases hy : roundDouble x with
  | fin b => right; rw [hy] at hm; exact ⟨b, hm, rfl⟩
  | negInf => left; rfl
  | posInf => rw [hy] at hm; exact hm.elim
  | nan => rw [hy] at hm; exact hm.elim

theorem quot_double_cases (x w : K) (hx : x < 0) (hw : 0 ≤ w) :
    Clock.quot_double x w = Clock.negInf ∨ ∃ b, b ≤ 0 ∧ Clock.quot_double x w = Clock.fin b := by
  unfold Clock.quot_double
  by_cases h0 : w = 0
  · rw [if_pos h0, if_neg (not_lt.mpr hx.le), if_pos hx]
    left; rfl
  · rw [if_neg h0]
    have hwpos : 0 < w := lt_of_le_of_ne hw (Ne.symm h0)
    exact roundDouble_nonpos _ (div_neg_of_neg_of_pos hx hwpos).le

/-- The clock statement in `double` arithmetic never moves the clock back. -/
theorem clock_step_double (t : Clock K) (x w : K) (ht : t.IsDouble) (hx : x < 0) (hw : 0 ≤ w) :
    (Clock.sub_double t (Clock.quot_double x w)).IsDouble ∧
    ¬ Clock.lt (Clock.sub_double t (Clock.quot_double x w)) t ∧
    (t.Forward → (Clock.sub_double t (Clock.quot_double x w)).Forward ∧
      Clock.le t (Clock.sub_double t (Clock.quot_double x w))) := by
  rcases quot_double_cases x w hx hw with e | ⟨b, hb, e⟩
  · rw [e]
    cases t <;> simp [Clock.sub_double, Clock.IsDouble, Clock.lt, Clock.Forward, Clock.le]
  · rw [e]
    cases t with
    | fin a =>
      have ha : roundDouble a = Clock.fin a := ht
      show (roundDouble (a - b)).IsDouble ∧ ¬ Clock.lt (roundDouble (a - b)) (Clock.fin a) ∧
        ((Clock.fin a).Forward → (roundDouble (a - b)).Forward ∧
          Clock.le (Clock.fin a) (roundDouble (a - b)))
      refine ⟨roundDouble_isDouble _, ?_, ?_⟩
      · rcases roundDouble_ge a (a - b) ha (by linarith) with e' | ⟨c, hc, e'⟩
        · rw [e']; simp [Clock.lt]
        · rw [e']; simp only [Clock.lt]; exact not_lt.mpr hc
      · intro _
        rcases roundDouble_ge a (a - b) ha (by linarith) with e' | ⟨c, hc, e'⟩
        · rw [e']; simp [Clock.Forward, Clock.le]
        · rw [e']; simp only [Clock.Forward, Clock.le]; exact ⟨trivial, hc⟩
    | posInf => simp [Clock.sub_double, Clock.IsDouble, Clock.lt, Clock.Forward, Clock.le]
    | negInf => simp [Clock.sub_double, Clock.IsDouble, Clock.lt, Clock.Forward, Clock.le]
    | nan => simp [Clock.sub_double, Clock.IsDouble, Clock.lt, Clock.Forward, Clock.le]

/-- The clock after a call of `operator++` in `double` arithmetic, returning or throwing, is
the one set by its first statement. -/
theorem operator_inc_double_t (log : K → K) (g : Game2D K) (u1 u2 : K) :
    (after (g.operator_inc_double log u1 u2)).t =
      Clock.sub_double g.t (Clock.quot_double (log u1) g.W) := by
  unfold Game2D.operator_inc_double
  simp only
  cases hs : (g.tick_double log u1).scan (u2 * (g.tick_double log u1).W) with
  | none => rfl
  | some r =>
    obtain ⟨i, n, op⟩ := r
    simp only
    split_ifs
    · rfl
    · exact (applyEvent_frame (g.tick_double log u1) i _ op).2.2.2.2.2

theorem trace_double_chain (log : K → K) (draws : List (K × K)) :
    ∀ (g : Game2D K), g.t.IsDouble → (∀ s ∈ g.trace_double log draws, 0 ≤ s.W) →
      (∀ d ∈ draws, log d.1 < 0) →
      List.Chain' (fun a b => ¬ Clock.lt b.t a.t) (g.trace_double log draws) ∧
      (g.t.Forward →
        List.Chain' (fun a b => Clock.le a.t b.t) (g.trace_double log draws)) := by
  induction draws with
  | nil => intro g _ _ _; simp [Game2D.trace_double]
  | cons d rest ih =>
    obtain ⟨u1, u2⟩ := d
    intro g ht hW hd
    have hlog : log u1 < 0 := hd (u1, u2) (List.mem_cons_self _ _)
    have hgW : 0 ≤ g.W := hW g (by simp [Game2D.trace_double])
    obtain ⟨hdb, hnl, hfw⟩ := clock_step_double g.t (log u1) g.W ht hlog hgW
    rw [← operator_inc_double_t log g u1 u2] at hdb hnl hfw
    obtain ⟨ih1, ih2⟩ := ih _ hdb
      (fun s hs => hW s (by rw [Game2D.trace_double]; exact List.mem_cons_of_mem _ hs))
      (fun d hd' => hd d (List.mem_cons_of_mem _ hd'))
    have hhead : ∀ y ∈ (Game2D.trace_double log
        (after (g.operator_inc_double log u1 u2)) rest).head?,
        y = after (g.operator_inc_double log u1 u2) := by
      intro y hy
      cases rest with
      | nil => simp [Game2D.trace_double] at hy; exact hy.symm
      | cons d' rest' =>
        obtain ⟨v1, v2⟩ := d'
        simp [Game2D.trace_double] at hy; exact hy.symm
    constructor
    · rw [Game2D.trace_double, List.chain'_cons']
      exact ⟨fun y hy => by rw [hhead y hy]; exact hnl, ih1⟩
    · intro hf
      rw [Game2D.trace_double, List.chain'_cons']
      exact ⟨fun y hy => by rw [hhead y hy]; exact (hfw hf).2, ih2 (hfw hf).1⟩

theorem two_pow_1024 : (2 : K) ^ 1024 = (2 : K) ^ (1024 : Int) :=
  (zpow_ofNat (2 : K) 1024).symm

/-- An increment of at most a quarter of the spacing at `t` is absorbed: the clock statement
in `double` arithmetic leaves the `double` `t = m * 2 ^ (e - 52)` of binade `e` as it is. -/
theorem sub_double_absorbed (t x w : K) (e m : Int) (he : -1022 ≤ e - 54) (he' : e ≤ 1023)
    (ht : t = (m : K) * (2 : K) ^ (e - 52)) (ht1 : (2 : K) ^ e ≤ t)
    (ht2 : t + (2 : K) ^ (e - 54) < (2 : K) ^ (e + 1)) (hw : 0 < w) (hx : x ≤ 0)
    (hq : -(2 : K) ^ (e - 54) ≤ x / w) :
    roundDouble t = Clock.fin t ∧
    Clock.sub_double (Clock.fin t) (Clock.quot_double x w) = Clock.fin t := by
  have hB : (0 : K) < (2 : K) ^ (e - 54) := two_zpow_pos _
  have hE : (0 : K) < (2 : K) ^ e := two_zpow_pos _
  have htop : (2 : K) ^ (e + 1) ≤ (2 : K) ^ 1024 := by
    rw [two_pow_1024]; exact two_zpow_le _ _ (by omega)
  have hu4 : (2 : K) ^ (e - 54) = (2 : K) ^ (e - 52) / 4 := by
    have : e - 54 = (e - 52) + (-2) := by ring
    rw [this, zpow_add₀ (by norm_num : (2 : K) ≠ 0)]
    norm_num
    ring
  have hu : (0 : K) < (2 : K) ^ (e - 52) := two_zpow_pos _
  -- every value between `t` and `t + u/4` rounds to `t`
  have key : ∀ y : K, t ≤ y → y ≤ t + (2 : K) ^ (e - 54) → roundDouble y = Clock.fin t := by
    intro y h1 h2
    have hy : 0 < y := by linarith
    have hb : binade y = e := by
      apply binade_eq y e (by omega) (ne_of_gt hy)
      · right; rw [abs_of_pos hy]; linarith
      · rw [abs_of_pos hy]; linarith
    have hn : nearest y = t := by
      unfold nearest ulp
      rw [hb, ht]
      congr 2
      apply rte_near
      · rw [lt_div_iff₀ hu]
        have : ((m : K) - 1 / 2) * (2 : K) ^ (e - 52) < t := by rw [ht]; nlinarith
        linarith
      · rw [div_lt_iff₀ hu]
        have : t + (2 : K) ^ (e - 54) < ((m : K) + 1 / 2) * (2 : K) ^ (e - 52) := by
          rw [hu4, ht]; nlinarith
        linarith
    unfold roundDouble
    rw [hn, if_neg (not_le.mpr (by linarith)), if_neg (not_le.mpr (by linarith))]
  refine ⟨key t (le_refl _) (by linarith), ?_⟩
  have hz : x / w ≤ 0 := div_nonpos_of_nonpos_of_nonneg hx hw.le
  have hq1 : -(2 : K) ^ (e - 54) ≤ nearest (x / w) := by
    have := nearest_mono _ _ hq
    rwa [nearest_neg, nearest_two_zpow _ he] at this
  have hq2 : nearest (x / w) ≤ 0 := by
    have := nearest_mono _ _ hz
    rwa [nearest_zero] at this
  have hsmall : (2 : K) ^ (e - 54) < (2 : K) ^ 1024 := by
    rw [two_pow_1024]; exact zpow_lt_zpow_right₀ (by norm_num) (by omega)
  have hrd : roundDouble (x / w) = Clock.fin (nearest (x / w)) := by
    unfold roundDouble
    rw [if_neg (not_le.mpr (by linarith)), if_neg (not_le.mpr (by linarith))]
  unfold Clock.quot_double
  rw [if_neg (ne_of_gt hw), hrd]
  show roundDouble (t - nearest (x / w)) = Clock.fin t
  exact key _ (by linarith) (by linarith)

end DoubleClock

/-- **C8** Monotonic clock.  In exact arithmetic with the real logarithm, a call of
`operator++` on a state with finite clock `t`, `W > 0` and a first draw `0 < u1 < 1` leaves
the clock at `t - ln(u1)/W`, strictly later than `t`.  In exact arithmetic and in `double`
arithmetic alike, for every logarithm that is negative on `(0, 1)`: along any sequence of
calls whose states all have `W ≥ 0`, with first draws in `(0, 1)`, no clock value is below
the one before it, and each is at least the one before it when the first clock is finite or
`+∞`.  In `double` arithmetic a call on a state with `W ≥ 0` leaves the clock at the rounded
difference of `t` and the rounded quotient `log(u1)/W`, again a `double`, never below `t`. -/
theorem monotonic_clock :
    (∀ (g : Game2D ℝ) (u1 u2 t0 : ℝ), g.t = Clock.fin t0 → 0 < g.W → 0 < u1 → u1 < 1 →
      (after (g.operator_inc Real.log u1 u2)).t = Clock.fin (t0 - Real.log u1 / g.W) ∧
      t0 < t0 - Real.log u1 / g.W ∧
      Clock.lt g.t (after (g.operator_inc Real.log u1 u2)).t) ∧
    (∀ (K : Type) [LinearOrderedField K] (log : K → K) (g : Game2D K) (draws : List (K × K)),
      (∀ u, 0 < u → u < 1 → log u < 0) →
      (∀ s ∈ g.trace log draws, 0 ≤ s.W) → (∀ d ∈ draws, 0 < d.1 ∧ d.1 < 1) →
      List.Chain' (fun a b => ¬ Clock.lt b.t a.t) (g.trace log draws) ∧
      (g.t.Forward → List.Chain' (fun a b => Clock.le a.t b.t) (g.trace log draws))) ∧
    (∀ (K : Type) [LinearOrderedField K] [FloorRing K] (log : K → K) (g : Game2D K)
        (u1 u2 : K),
      (∀ u, 0 < u → u < 1 → log u < 0) → g.t.IsDouble → 0 ≤ g.W → 0 < u1 → u1 < 1 →
      (after (g.operator_inc_double log u1 u2)).t =
        Clock.sub_double g.t (Clock.quot_double (log u1) g.W) ∧
      (after (g.operator_inc_double log u1 u2)).t.IsDouble ∧
      ¬ Clock.lt (after (g.operator_inc_double log u1 u2)).t g.t ∧
      (g.t.Forward → Clock.le g.t (after (g.operator_inc_double log u1 u2)).t)) ∧
    (∀ (K : Type) [LinearOrderedField K] [FloorRing K] (log : K → K) (g : Game2D K)
        (draws : List (K × K)),
      (∀ u, 0 < u → u < 1 → log u < 0) → g.t.IsDouble →
      (∀ s ∈ g.trace_double log draws, 0 ≤ s.W) → (∀ d ∈ draws, 0 < d.1 ∧ d.1 < 1) →
      List.Chain' (fun a b => ¬ Clock.lt b.t a.t) (g.trace_double log draws) ∧
      (g.t.Forward →
        List.Chain' (fun a b => Clock.le a.t b.t) (g.trace_double log draws))) := by
  refine ⟨?_, ?_, ?_, ?_⟩
  · intro g u1 u2 t0 ht hW h0 h1
    have hlog : Real.log u1 < 0 := Real.log_neg h0 h1
    have hq : Real.log u1 / g.W < 0 := div_neg_of_neg_of_pos hlog hW
    have e : (after (g.operator_inc Real.log u1 u2)).t = Clock.fin (t0 - Real.log u1 / g.W) := by
      rw [operator_inc_t, ht, Clock.quot, if_neg (ne_of_gt hW)]
      rfl
    refine ⟨e, by linarith, ?_⟩
    rw [e, ht]
    show t0 < t0 - Real.log u1 / g.W
    linarith
  · intro K _ log g draws hlog hW hd
    exact trace_never_back log draws g hW (fun d hd' => hlog _ (hd d hd').1 (hd d hd').2)
  · intro K _ _ log g u1 u2 hlog ht hW h0 h1
    obtain ⟨hdb, hnl, hfw⟩ := clock_step_double g.t (log u1) g.W ht (hlog u1 h0 h1) hW
    rw [operator_inc_double_t]
    exact ⟨rfl, hdb, hnl, fun hf => (hfw hf).2⟩
  · intro K _ _ log g draws hlog ht hW hd
    exact trace_double_chain log draws g ht hW
      (fun d hd' => hlog _ (hd d hd').1 (hd d hd').2)

theorem monotonic_clock_witness :
    ((after (Game2D.operator_inc Real.log
        { sigma := 1, mu := 1, epsilon := 1 / 2, L := 2, animals := [0, 1, 2, 3],
          neighbours := calculate_neighbours 2, W := 12, t := Clock.fin 0 } (1 / 2) (1 / 2))).t
        = Clock.fin (0 - Real.log (1 / 2) / 12) ∧
      (0 : ℝ) < 0 - Real.log (1 / 2) / 12 ∧
      Clock.lt (Clock.fin (0 : ℝ)) (after (Game2D.operator_inc Real.log
        { sigma := 1, mu := 1, epsilon := 1 / 2, L := 2, animals := [0, 1, 2, 3],
          neighbours := calculate_neighbours 2, W := 12, t := Clock.fin 0 } (1 / 2) (1 / 2))).t) ∧
    (List.Chain' (fun a b => ¬ Clock.lt b.t a.t)
        (demoGame.trace demoLog [(1 / 2, 1 / 2), (1 / 3, 3 / 4)]) ∧
      (demoGame.t.Forward → List.Chain' (fun a b => Clock.le a.t b.t)
        (demoGame.trace demoLog [(1 / 2, 1 / 2), (1 / 3, 3 / 4)]))) ∧
    ((after (demoGame.operator_inc_double demoLog (1 / 2) (1 / 2))).t =
        Clock.sub_double demoGame.t (Clock.quot_double (demoLog (1 / 2)) demoGame.W) ∧
      (after (demoGame.operator_inc_double demoLog (1 / 2) (1 / 2))).t.IsDouble ∧
      ¬ Clock.lt (after (demoGame.operator_inc_double demoLog (1 / 2) (1 / 2))).t demoGame.t ∧
      (demoGame.t.Forward →
        Clock.le demoGame.t (after (demoGame.operator_inc_double demoLog (1 / 2) (1 / 2))).t)) ∧
    (List.Chain' (fun a b => ¬ Clock.lt b.t a.t)
        (demoGame.trace_double demoLog [(1 / 2, 1 / 2), (1 / 3, 3 / 4)]) ∧
      (demoGame.t.Forward → List.Chain' (fun a b => Clock.le a.t b.t)
        (demoGame.trace_double demoLog [(1 / 2, 1 / 2), (1 / 3, 3 / 4)]))) :=
  ⟨monotonic_clock.1 _ (1 / 2) (1 / 2) 0 rfl (by norm_num) (by norm_num) (by norm_num),
   monotonic_clock.2.1 ℚ demoLog demoGame [(1 / 2, 1 / 2), (1 / 3, 3 / 4)]
    (fun _ _ h => sub_neg.mpr h) (by decide!) (by decide!),
   monotonic_clock.2.2.1 ℚ demoLog demoGame (1 / 2) (1 / 2)
    (fun _ _ h => sub_neg.mpr h) roundDouble_zero (by decide!) (by decide!) (by decide!),
   monotonic_clock.2.2.2 ℚ demoLog demoGame [(1 / 2, 1 / 2), (1 / 3, 3 / 4)]
    (fun _ _ h => sub_neg.mpr h) roundDouble_zero (by decide!) (by decide!)⟩

/-- **C8** An increment absorbed by the `double` clock.  On the 2 × 2 lattice `0 1 / 2 3`
with `W = 12` and clock `t = 10 ^ 16` (a `double`), the first draw `u1 = 1/2` gives the
increment `-ln(1/2)/12`, about `0.058`, below half the spacing `2` of the `double` values at
`t`: the call leaves the clock at `10 ^ 16`, not later than before and not `t - ln(u1)/W`.
Likewise the clock statement with `t = 5000`, `W = 37500` and `u1 = 1 - 10 ^ (-9)` leaves
`5000`.  And already in exact arithmetic a clock at `+∞` (the value left by a call at
`W = 0`) is left at `+∞` by a call with `W = 12 > 0`. -/
theorem clock_absorbs_increment :
    Clock.IsDouble (Clock.fin ((10 : ℝ) ^ 16)) ∧
    (after (Game2D.operator_inc_double Real.log
        { sigma := 1, mu := 1, epsilon := 1 / 2, L := 2, animals := [0, 1, 2, 3],
          neighbours := calculate_neighbours 2, W := 12, t := Clock.fin (10 ^ 16) }
        (1 / 2) (1 / 2))).t = Clock.fin ((10 : ℝ) ^ 16) ∧
    ¬ Clock.lt (Clock.fin ((10 : ℝ) ^ 16)) (after (Game2D.operator_inc_double Real.log
        { sigma := 1, mu := 1, epsilon := 1 / 2, L := 2, animals := [0, 1, 2, 3],
          neighbours := calculate_neighbours 2, W := 12, t := Clock.fin (10 ^ 16) }
        (1 / 2) (1 / 2))).t ∧
    (10 : ℝ) ^ 16 < 10 ^ 16 - Real.log (1 / 2) / 12 ∧
    Clock.IsDouble (Clock.fin (5000 : ℝ)) ∧
    Clock.sub_double (Clock.fin (5000 : ℝ))
      (Clock.quot_double (Real.log (1 - 1 / 10 ^ 9)) 37500) = Clock.fin 5000 ∧
    (0 < demoGame.W ∧
      (after (Game2D.operator_inc demoLog { demoGame with t := Clock.posInf }
        (1 / 2) (1 / 2))).t = Clock.posInf) := by
  have hl2 : Real.log 2 < 1 := lt_trans Real.log_two_lt_d9 (by norm_num)
  have hlog : Real.log (1 / 2) = -Real.log 2 := by
    rw [one_div, Real.log_inv]
  have hneg : Real.log (1 / 2) < 0 := Real.log_neg (by norm_num) (by norm_num)
  have h1 := sub_double_absorbed ((10 : ℝ) ^ 16) (Real.log (1 / 2)) 12 53 (5 * 10 ^ 15)
    (by norm_num) (by norm_num) (by norm_num) (by norm_num) (by norm_num) (by norm_num)
    hneg.le (by rw [hlog]; norm_num; linarith)
  have hlow : -(2 / 10 ^ 9 : ℝ) ≤ Real.log (1 - 1 / 10 ^ 9) := by
    have := Real.one_sub_inv_le_log_of_pos (x := 1 - 1 / 10 ^ 9) (by norm_num)
    refine le_trans ?_ this
    norm_num
  have hneg2 : Real.log (1 - 1 / 10 ^ 9) ≤ 0 := Real.log_nonpos (by norm_num) (by norm_num)
  have h2 := sub_double_absorbed (5000 : ℝ) (Real.log (1 - 1 / 10 ^ 9)) 37500 12
    (5000 * 2 ^ 40)
    (by norm_num) (by norm_num) (by norm_num) (by norm_num) (by norm_num) (by norm_num)
    hneg2 (by
      rw [le_div_iff₀ (by norm_num)]
      refine le_trans ?_ hlow
      norm_num)
  refine ⟨h1.1, ?_, ?_, ?_, h2.1, h2.2, by decide!⟩
  · rw [operator_inc_double_t]
    exact h1.2
  · rw [operator_inc_double_t]
    show ¬ Clock.lt (Clock.fin ((10 : ℝ) ^ 16))
      (Clock.sub_double (Clock.fin (10 ^ 16)) (Clock.quot_double (Real.log (1 / 2)) 12))
    rw [h1.2]
    exact lt_irrefl _
  · have : Real.log (1 / 2) / 12 < 0 := div_neg_of_neg_of_pos hneg (by norm_num)
    linarith

theorem scanFrom_eq_firstExceeding (g : Game2D K) (r : K) :
    ∀ (l : List (Nat × Nat)) (sum : K),
      g.scanFrom r l sum = firstExceeding r (l.flatMap g.pairEvents) sum := by
  intro l
  induction l with
  | nil => intro sum; rfl
  | cons p rest ih =>
    obtain ⟨i, n⟩ := p
    intro sum
    rw [Game2D.scanFrom, List.flatMap_cons]
    by_cases h1 : g.cell i ≠ g.cell (g.nbr n i)
    · rw [if_pos h1]
      by_cases h2 : g.cell i = EMPTY ∨ g.cell (g.nbr n i) = EMPTY
      · have hp : g.pairEvents (i, n) = [((i, n, interactions.EXCHANGE), g.epsilon),
            ((i, n, interactions.REPRODUCTION), g.mu)] := by
          simp only [Game2D.pairEvents, if_pos h1, if_pos h2]
        rw [if_pos h2, hp]
        simp only [List.cons_append, List.nil_append, firstExceeding, ih]
        rfl
      · have hp : g.pairEvents (i, n) = [((i, n, interactions.EXCHANGE), g.epsilon),
            ((i, n, interactions.SELECTION), g.sigma)] := by
          simp only [Game2D.pairEvents, if_pos h1, if_neg h2]
        rw [if_neg h2, hp]
        simp only [List.cons_append, List.nil_append, firstExceeding, ih]
        rfl
    · have hp : g.pairEvents (i, n) = [] := by
        simp only [Game2D.pairEvents, if_neg h1]
      rw [if_neg h1, hp, List.nil_append]
      exact ih sum

theorem firstExceeding_mem {α : Type} (r : K) :
    ∀ (l : List (α × K)) (acc : K) (e : α), firstExceeding r l acc = some e →
      e ∈ l.map Prod.fst := by
  intro l
  induction l with
  | nil => intro acc e h; simp [firstExceeding] at h
  | cons p rest ih =>
    obtain ⟨e0, w⟩ := p
    intro acc e h
    rw [firstExceeding] at h
    split_ifs at h with h1
    · simp only [Option.some.injEq] at h
      simp [h]
    · simp only [List.map_cons, List.mem_cons]
      exact Or.inr (ih _ _ h)

theorem cumulative_zero {α : Type} (l : List (α × K)) : cumulative l 0 = 0 := by
  simp [cumulative]

theorem cumulative_cons_succ {α : Type} (p : α × K) (l : List (α × K)) (k : Nat) :
    cumulative (p :: l) (k + 1) = p.2 + cumulative l k := by
  simp [cumulative]

theorem cumulative_nonneg {α : Type} :
    ∀ (l : List (α × K)) (k : Nat), (∀ p ∈ l, 0 ≤ p.2) → 0 ≤ cumulative l k := by
  intro l
  induction l with
  | nil => intro k _; simp [cumulative]
  | cons p rest ih =>
    intro k h
    cases k with
    | zero => rw [cumulative_zero]
    | succ k =>
      rw [cumulative_cons_succ]
      exact add_nonneg (h p (List.mem_cons_self _ _))
        (ih k (fun q hq => h q (List.mem_cons_of_mem _ hq)))

/-- With non-negative weights and distinct labels, the targets that select the `k`-th entry
are exactly those of the half-open interval between its two cumulative sums. -/
theorem firstExceeding_iff {α : Type} (r : K) :
    ∀ (l : List (α × K)) (acc : K) (k : Nat) (e : α) (w : K),
      (∀ p ∈ l, 0 ≤ p.2) → (l.map Prod.fst).Nodup → acc ≤ r → l[k]? = some (e, w) →
      (firstExceeding r l acc = some e ↔
        acc + cumulative l k ≤ r ∧ r < acc + cumulative l k + w) := by
  intro l
  induction l with
  | nil => intro acc k e w _ _ _ hk; simp at hk
  | cons p rest ih =>
    obtain ⟨e0, w0⟩ := p
    intro acc k e w hpos hnd hacc hk
    have hnd' : e0 ∉ rest.map Prod.fst ∧ (rest.map Prod.fst).Nodup := by
      simpa [List.nodup_cons] using hnd
    have hpos' : ∀ p ∈ rest, 0 ≤ p.2 := fun q hq => hpos q (List.mem_cons_of_mem _ hq)
    rw [firstExceeding]
    cases k with
    | zero =>
      simp only [List.getElem?_cons_zero, Option.some.injEq, Prod.mk.injEq] at hk
      obtain ⟨rfl, rfl⟩ := hk
      rw [cumulative_zero, add_zero]
      by_cases h1 : acc + w0 > r
      · rw [if_pos h1]
        exact ⟨fun _ => ⟨hacc, h1⟩, fun _ => rfl⟩
      · rw [if_neg h1]
        constructor
        · intro h
          exact absurd (firstExceeding_mem r rest _ _ h) hnd'.1
        · intro h
          exact absurd h.2 h1
    | succ k =>
      simp only [List.getElem?_cons_succ] at hk
      have hmem : e ∈ rest.map Prod.fst := by
        have := List.getElem?_mem hk
        exact List.mem_map.mpr ⟨(e, w), this, rfl⟩
      have hne : e0 ≠ e := fun h => hnd'.1 (h ▸ hmem)
      rw [cumulative_cons_succ]
      have hc := cumulative_nonneg rest k hpos'
      by_cases h1 : acc + w0 > r
      · rw [if_pos h1]
        constructor
        · intro h
          simp only [Option.some.injEq] at h
          exact absurd h hne
        · intro h
          have : acc + w0 ≤ r := by
            have := h.1
            simp only at this
            linarith
          exact absurd h1 (not_lt.mpr this)
      · rw [if_neg h1]
        have h2 := ih (acc + w0) k e w hpos' hnd'.2 (not_lt.mp h1) hk
        simp only at h2 ⊢
        rw [h2]
        constructor <;> intro h <;> constructor <;> linarith [h.1, h.2]

/-- With non-negative weights every target below the total weight falls in the interval of
some entry. -/
theorem exists_interval {α : Type} (r : K) :
    ∀ (l : List (α × K)) (acc : K), (∀ p ∈ l, 0 ≤ p.2) → acc ≤ r →
      r < acc + cumulative l l.length →
      ∃ k e w, l[k]? = some (e, w) ∧ acc + cumulative l k ≤ r ∧ r < acc + cumulative l k + w := by
  intro l
  induction l with
  | nil =>
    intro acc _ h1 h2
    simp [cumulative] at h2
    exact absurd h2 (not_lt.mpr h1)
  | cons p rest ih =>
    obtain ⟨e0, w0⟩ := p
    intro acc hpos h1 h2
    by_cases h3 : r < acc + w0
    · exact ⟨0, e0, w0, List.getElem?_cons_zero, by rw [cumulative_zero, add_zero]; exact h1,
        by rw [cumulative_zero, add_zero]; exact h3⟩
    · rw [List.length_cons, cumulative_cons_succ] at h2
      obtain ⟨k, e, w, hk, ha, hb⟩ := ih (acc + w0)
        (fun q hq => hpos q (List.mem_cons_of_mem _ hq)) (not_lt.mp h3) (by simp only at h2 ⊢; linarith)
      refine ⟨k + 1, e, w, by simpa using hk, ?_, ?_⟩
      · rw [cumulative_cons_succ]; simp only; linarith
      · rw [cumulative_cons_succ]; simp only; linarith

theorem scanOrder_succ (N : Nat) : scanOrder (N + 1) = scanOrder N ++ [(N, 0), (N, 1)] := by
  simp [scanOrder, List.range_succ, List.flatMap_append]

theorem scanOrder_nodup (N : Nat) : (scanOrder N).Nodup := by
  unfold scanOrder
  rw [List.nodup_flatMap]
  refine ⟨fun i _ => by simp [List.range_succ], ?_⟩
  refine List.Nodup.pairwise_of_forall_ne (List.nodup_range N) ?_
  intro a _ b _ hab
  show List.Disjoint _ _
  simp only [List.disjoint_left, List.mem_map, not_exists, not_and]
  rintro p ⟨n, -, rfl⟩ m _ h
  have h1 : b = a := by simpa using congrArg Prod.fst h
  exact hab h1.symm

theorem pairEvents_sum (g : Game2D K) (p : Nat × Nat) :
    ((g.pairEvents p).map Prod.snd).sum = g.pairRate p.1 (g.nbr p.2 p.1) := by
  unfold Game2D.pairEvents Game2D.pairRate localContribution
  by_cases h1 : g.cell p.1 = g.cell (g.nbr p.2 p.1)
  · simp [h1]
  · by_cases h2 : g.cell p.1 = EMPTY ∨ g.cell (g.nbr p.2 p.1) = EMPTY
    · simp [h1, h2]
    · simp [h1, h2]

theorem flatMap_pairEvents_sum (g : Game2D K) (l : List (Nat × Nat)) :
    ((l.flatMap g.pairEvents).map Prod.snd).sum =
      (l.map (fun p => g.pairRate p.1 (g.nbr p.2 p.1))).sum := by
  induction l with
  | nil => rfl
  | cons p rest ih =>
    rw [List.flatMap_cons, List.map_append, List.sum_append, ih, pairEvents_sum]
    simp

theorem scanOrder_sum (f : Nat × Nat → K) (N : Nat) :
    ((scanOrder N).map f).sum = ∑ i in range N, (f (i, 0) + f (i, 1)) := by
  induction N with
  | zero => simp [scanOrder]
  | succ N ih =>
    rw [scanOrder_succ, List.map_append, List.sum_append, ih, Finset.sum_range_succ]
    simp

/-- The weights of all sub-contributions add up to `calculate_W()`. -/
theorem events_total (g : Game2D K) : cumulative g.events g.events.length = g.calculate_W := by
  unfold cumulative
  rw [List.take_length, Game2D.events, flatMap_pairEvents_sum, scanOrder_sum, calculate_W_eq]

theorem mem_pairEvents (g : Game2D K) (p : Nat × Nat) (e : Nat × Nat × interactions) (w : K)
    (h : (e, w) ∈ g.pairEvents p) :
    e.1 = p.1 ∧ e.2.1 = p.2 ∧ w = g.rateOf e.2.2 ∧ e.2.2 ≠ interactions.ERROR := by
  unfold Game2D.pairEvents at h
  by_cases h1 : g.cell p.1 = g.cell (g.nbr p.2 p.1)
  · simp [h1] at h
  · by_cases h2 : g.cell p.1 = EMPTY ∨ g.cell (g.nbr p.2 p.1) = EMPTY
    · simp only [ne_eq, h1, not_false_eq_true, if_true, h2, List.mem_cons, Prod.mk.injEq,
        List.mem_singleton, List.not_mem_nil, or_false] at h
      rcases h with ⟨rfl, rfl⟩ | ⟨rfl, rfl⟩ <;> exact ⟨rfl, rfl, rfl, by simp⟩
    · simp only [ne_eq, h1, not_false_eq_true, if_true, h2, if_false, List.mem_cons,
        Prod.mk.injEq, List.mem_singleton, List.not_mem_nil, or_false] at h
      rcases h with ⟨rfl, rfl⟩ | ⟨rfl, rfl⟩ <;> exact ⟨rfl, rfl, rfl, by simp⟩

theorem mem_events (g : Game2D K) (e : Nat × Nat × interactions) (w : K) (h : (e, w) ∈ g.events) :
    e.1 < g.N ∧ e.2.1 < 2 ∧ w = g.rateOf e.2.2 ∧ e.2.2 ≠ interactions.ERROR := by
  unfold Game2D.events at h
  rw [List.mem_flatMap] at h
  obtain ⟨p, hp, hm⟩ := h
  obtain ⟨a, b, c, d⟩ := mem_pairEvents g p e w hm
  have := (mem_scanOrder g.N p.1 p.2).mp hp
  rw [a, b]
  exact ⟨this.1, this.2, c, d⟩

theorem pairEvents_keys_nodup (g : Game2D K) (p : Nat × Nat) :
    ((g.pairEvents p).map Prod.fst).Nodup := by
  unfold Game2D.pairEvents
  by_cases h1 : g.cell p.1 = g.cell (g.nbr p.2 p.1)
  · simp [h1]
  · by_cases h2 : g.cell p.1 = EMPTY ∨ g.cell (g.nbr p.2 p.1) = EMPTY
    · simp [h1, h2]
    · simp [h1, h2]

theorem events_keys_nodup (g : Game2D K) : (g.events.map Prod.fst).Nodup := by
  unfold Game2D.events
  rw [List.map_flatMap, List.nodup_flatMap]
  refine ⟨fun p _ => pairEvents_keys_nodup g p, ?_⟩
  refine List.Nodup.pairwise_of_forall_ne (scanOrder_nodup g.N) ?_
  intro p _ q _ hpq
  show List.Disjoint _ _
  rw [List.disjoint_left]
  intro e hp hq
  rw [List.mem_map] at hp hq
  obtain ⟨⟨e1, w1⟩, m1, rfl⟩ := hp
  obtain ⟨⟨e2, w2⟩, m2, he⟩ := hq
  simp only at he
  subst he
  obtain ⟨a1, b1, -, -⟩ := mem_pairEvents g p _ _ m1
  obtain ⟨a2, b2, -, -⟩ := mem_pairEvents g q _ _ m2
  exact hpq (Prod.ext (a1.symm.trans a2) (b1.symm.trans b2))

theorem events_nonneg (g : Game2D K) (h0 : 0 ≤ g.epsilon) (h1 : 0 ≤ g.mu) (h2 : 0 ≤ g.sigma) :
    ∀ p ∈ g.events, 0 ≤ p.2 := by
  rintro ⟨e, w⟩ hp
  obtain ⟨-, -, hw, -⟩ := mem_events g e w hp
  simp only [hw]
  cases e.2.2 <;> simp [Game2D.rateOf, h0, h1, h2]

theorem cumulative_succ {α : Type} (l : List (α × K)) (k : Nat) (e : α) (w : K)
    (h : l[k]? = some (e, w)) : cumulative l (k + 1) = cumulative l k + w := by
  unfold cumulative
  rw [List.take_succ, h]
  simp

/-- **C4** Inverse-CDF event selection.  With non-negative rates, for every lattice: the
scan of `operator++` with target `r` returns the first sub-contribution, in the fixed order
(site, then direction 0 before 1, then `ε` before `μ`-or-`σ`), whose cumulative sum strictly
exceeds `r`.  The cumulative sums start at `0`, grow by the rate of each sub-contribution
(`ε` for Exchange, `μ` for Reproduction, `σ` for Selection) and end at `calculate_W()`; the
targets `r ≥ 0` that select the `k`-th sub-contribution are exactly those of the half-open
interval from its cumulative sum to that sum plus its rate, so these intervals partition
`[0, W)`, every `r` in `[0, W)` selects some sub-contribution, and one whose rate is zero is
never selected. -/
theorem inverse_cdf_selection (g : Game2D K) (h0 : 0 ≤ g.epsilon) (h1 : 0 ≤ g.mu)
    (h2 : 0 ≤ g.sigma) :
    (∀ r : K, g.scan r = firstExceeding r g.events 0) ∧
    cumulative g.events 0 = 0 ∧ cumulative g.events g.events.length = g.calculate_W ∧
    (∀ (k : Nat) (e : Nat × Nat × interactions) (w : K), g.events[k]? = some (e, w) →
      w = g.rateOf e.2.2 ∧ cumulative g.events (k + 1) = cumulative g.events k + w ∧
      ∀ r, 0 ≤ r →
        (g.scan r = some e ↔ cumulative g.events k ≤ r ∧ r < cumulative g.events k + w)) ∧
    (∀ r : K, 0 ≤ r → r < g.calculate_W → ∃ (k : Nat) (e : Nat × Nat × interactions) (w : K), g.events[k]? = some (e, w) ∧ g.scan r = some e) ∧
    (∀ (k : Nat) (e : Nat × Nat × interactions) (w : K), g.events[k]? = some (e, w) → w = 0 → ∀ r, 0 ≤ r → g.scan r ≠ some e) := by
  have hscan : ∀ r, g.scan r = firstExceeding r g.events 0 :=
    fun r => scanFrom_eq_firstExceeding g r _ 0
  have hpos := events_nonneg g h0 h1 h2
  have hnd := events_keys_nodup g
  have hiff : ∀ k e w, g.events[k]? = some (e, w) → ∀ r, 0 ≤ r →
      (g.scan r = some e ↔ cumulative g.events k ≤ r ∧ r < cumulative g.events k + w) := by
    intro k e w hk r hr
    have := firstExceeding_iff r g.events 0 k e w hpos hnd hr hk
    rw [zero_add] at this
    rw [hscan]
    exact this
  refine ⟨hscan, cumulative_zero _, events_total g, ?_, ?_, ?_⟩
  · intro k e w hk
    exact ⟨(mem_events g e w (List.getElem?_mem hk)).2.2.1, cumulative_succ _ _ _ _ hk,
      hiff k e w hk⟩
  · intro r hr hW
    obtain ⟨k, e, w, hk, ha, hb⟩ := exists_interval r g.events 0 hpos hr
      (by rw [zero_add, events_total]; exact hW)
    rw [zero_add] at ha hb
    exact ⟨k, e, w, hk, (hiff k e w hk r hr).mpr ⟨ha, hb⟩⟩
  · intro k e w hk hw r hr hsel
    have := (hiff k e w hk r hr).mp hsel
    rw [hw, add_zero] at this
    exact absurd this.2 (not_lt.mpr this.1)

theorem inverse_cdf_selection_witness :
    (∀ r : ℚ, demoGame.scan r = firstExceeding r demoGame.events 0) ∧
    cumulative demoGame.events 0 = 0 ∧
    cumulative demoGame.events demoGame.events.length = demoGame.calculate_W ∧
    (∀ (k : Nat) (e : Nat × Nat × interactions) (w : ℚ), demoGame.events[k]? = some (e, w) →
      w = demoGame.rateOf e.2.2 ∧
      cumulative demoGame.events (k + 1) = cumulative demoGame.events k + w ∧
      ∀ r, 0 ≤ r →
        (demoGame.scan r = some e ↔
          cumulative demoGame.events k ≤ r ∧ r < cumulative demoGame.events k + w)) ∧
    (∀ r : ℚ, 0 ≤ r → r < demoGame.calculate_W →
      ∃ (k : Nat) (e : Nat × Nat × interactions) (w : ℚ), demoGame.events[k]? = some (e, w) ∧ demoGame.scan r = some e) ∧
    (∀ (k : Nat) (e : Nat × Nat × interactions) (w : ℚ), demoGame.events[k]? = some (e, w) → w = 0 →
      ∀ r, 0 ≤ r → demoGame.scan r ≠ some e) :=
  inverse_cdf_selection demoGame (by decide!) (by decide!) (by decide!)

theorem wrap_pred_ne (L r : Nat) (h : r < L) (hL : 2 ≤ L) : (r + L - 1) % L ≠ r := by
  rw [wrap_pred L r h]; split_ifs <;> omega

theorem wrap_succ_ne (L r : Nat) (h : r < L) (hL : 2 ≤ L) : (r + 1) % L ≠ r := by
  rw [wrap_succ L r h]; split_ifs <;> omega

theorem wrap_pred_ne_succ (L r : Nat) (h : r < L) (hL : 3 ≤ L) :
    (r + L - 1) % L ≠ (r + 1) % L := by
  rw [wrap_pred L r h, wrap_succ L r h]; split_ifs <;> omega

theorem site_inj (L r c r' c' : Nat) (hc : c < L) (hc' : c' < L)
    (h : r * L + c = r' * L + c') : r = r' ∧ c = c' := by
  have h1 := congrArg (· / L) h
  have h2 := congrArg (· % L) h
  simp only [site_div L _ _ hc, site_div L _ _ hc', site_mod L _ _ hc, site_mod L _ _ hc'] at h1 h2
  exact ⟨h1, h2⟩

/-- On a torus of side at least 3 the four neighbours of a site are pairwise distinct; on
a side of at least 2 they differ from the site. -/
theorem torus_distinct (L s : Nat) (hs : s < L * L) (hL : 3 ≤ L) :
    torusUp L s ≠ torusLeft L s ∧ torusUp L s ≠ torusDown L s ∧ torusUp L s ≠ torusRight L s ∧
    torusLeft L s ≠ torusDown L s ∧ torusLeft L s ≠ torusRight L s ∧
    torusDown L s ≠ torusRight L s := by
  have hr := row_lt L s hs
  have hc := col_lt L s hs
  have pr := wrap_pred_lt L _ hr
  have pc := wrap_pred_lt L _ hc
  have sr := wrap_succ_lt L _ hr
  have sc := wrap_succ_lt L _ hc
  unfold torusUp torusLeft torusDown torusRight
  refine ⟨?_, ?_, ?_, ?_, ?_, ?_⟩
  · intro h; exact wrap_pred_ne L _ hr (by omega) (site_inj L _ _ _ _ hc pc h).1
  · intro h; exact wrap_pred_ne_succ L _ hr hL (site_inj L _ _ _ _ hc hc h).1
  · intro h; exact wrap_pred_ne L _ hr (by omega) (site_inj L _ _ _ _ hc sc h).1
  · intro h; exact wrap_succ_ne L _ hr (by omega) (site_inj L _ _ _ _ pc hc h).1.symm
  · intro h; exact wrap_pred_ne_succ L _ hc hL (site_inj L _ _ _ _ pc sc h).2
  · intro h; exact wrap_succ_ne L _ hr (by omega) (site_inj L _ _ _ _ hc sc h).1

theorem torus_ne_self (L s : Nat) (hs : s < L * L) (hL : 2 ≤ L) :
    torusUp L s ≠ s ∧ torusLeft L s ≠ s ∧ torusDown L s ≠ s ∧ torusRight L s ≠ s := by
  have hr := row_lt L s hs
  have hc := col_lt L s hs
  have hsplit : s / L * L + s % L = s := Nat.div_add_mod' s L
  have pc := wrap_pred_lt L _ hc
  have sc := wrap_succ_lt L _ hc
  unfold torusUp torusLeft torusDown torusRight
  refine ⟨?_, ?_, ?_, ?_⟩
  · intro h; rw [← hsplit] at h
    exact wrap_pred_ne L _ hr hL (by
      have := (site_inj L _ _ _ _ (by rw [hsplit]; exact hc) hc h).1
      rw [hsplit] at this; exact this)
  · intro h; rw [← hsplit] at h
    exact wrap_pred_ne L _ hc hL (by
      have := (site_inj L _ _ _ _ (by rw [hsplit]; exact pc) hc h).2
      rw [hsplit] at this; exact this)
  · intro h; rw [← hsplit] at h
    exact wrap_succ_ne L _ hr hL (by
      have := (site_inj L _ _ _ _ (by rw [hsplit]; exact hc) hc h).1
      rw [hsplit] at this; exact this)
  · intro h; rw [← hsplit] at h
    exact wrap_succ_ne L _ hc hL (by
      have := (site_inj L _ _ _ _ (by rw [hsplit]; exact sc) hc h).2
      rw [hsplit] at this; exact this)

/-- Moving a one-direction edge sum to the opposite direction. -/
theorem dirSum_reindex (c : Nat → Nat → K) (N : Nat) (u d : Nat → Nat)
    (hu : ∀ s, s < N → u s < N) (hd : ∀ s, s < N → d s < N)
    (hud : ∀ s, s < N → u (d s) = s) (hdu : ∀ s, s < N → d (u s) = s) :
    ∑ s in range N, (if s < d s then c s (d s) else 0) =
      ∑ s in range N, (if u s < s then c (u s) s else 0) := by
  refine Finset.sum_nbij' d u ?_ ?_ ?_ ?_ ?_
  · intro s hs; exact mem_range.mpr (hd s (mem_range.mp hs))
  · intro s hs; exact mem_range.mpr (hu s (mem_range.mp hs))
  · intro s hs; exact hud s (mem_range.mp hs)
  · intro s hs; exact hdu s (mem_range.mp hs)
  · intro s hs; rw [hud s (mem_range.mp hs)]

/-- On a neighbourhood structure with four distinct neighbours per site, the sum over
unordered adjacent pairs equals the sum over sites of the two "backward" edges. -/
theorem pairSum_eq_dirSum (c : Nat → Nat → K) (hc : ∀ p q, c p q = c q p) (N : Nat)
    (n0 n1 n2 n3 : Nat → Nat)
    (hlt : ∀ s, s < N → n0 s < N ∧ n1 s < N ∧ n2 s < N ∧ n3 s < N)
    (hinv : ∀ s, s < N → n2 (n0 s) = s ∧ n0 (n2 s) = s ∧ n3 (n1 s) = s ∧ n1 (n3 s) = s)
    (hdist : ∀ s, s < N → n0 s ≠ n1 s ∧ n0 s ≠ n2 s ∧ n0 s ≠ n3 s ∧ n1 s ≠ n2 s ∧
      n1 s ≠ n3 s ∧ n2 s ≠ n3 s)
    (hself : ∀ s, s < N → n0 s ≠ s ∧ n1 s ≠ s) :
    ∑ x in range N, ∑ y in range N,
        (if x < y ∧ (y = n0 x ∨ y = n1 x ∨ y = n2 x ∨ y = n3 x) then c x y else 0) =
      ∑ s in range N, (c s (n0 s) + c s (n1 s)) := by
  have stepA : ∀ x ∈ range N, ∑ y in range N,
        (if x < y ∧ (y = n0 x ∨ y = n1 x ∨ y = n2 x ∨ y = n3 x) then c x y else 0) =
      (if x < n0 x then c x (n0 x) else 0) + (if x < n1 x then c x (n1 x) else 0)
        + (if x < n2 x then c x (n2 x) else 0) + (if x < n3 x then c x (n3 x) else 0) := by
    intro x hx
    have hx := mem_range.mp hx
    obtain ⟨d01, d02, d03, d12, d13, d23⟩ := hdist x hx
    obtain ⟨l0, l1, l2, l3⟩ := hlt x hx
    have hpt : ∀ y ∈ range N,
        (if x < y ∧ (y = n0 x ∨ y = n1 x ∨ y = n2 x ∨ y = n3 x) then c x y else 0) =
        (if y = n0 x then (if x < y then c x y else 0) else 0)
          + (if y = n1 x then (if x < y then c x y else 0) else 0)
          + (if y = n2 x then (if x < y then c x y else 0) else 0)
          + (if y = n3 x then (if x < y then c x y else 0) else 0) := by
      intro y _
      by_cases e0 : y = n0 x
      · subst e0
        simp [d01, d02, d03]
      · by_cases e1 : y = n1 x
        · subst e1
          simp [e0, d12, d13]
        · by_cases e2 : y = n2 x
          · subst e2
            simp [e0, e1, d23]
          · by_cases e3 : y = n3 x
            · subst e3
              simp [e0, e1, e2]
            · simp [e0, e1, e2, e3]
    rw [Finset.sum_congr rfl hpt, Finset.sum_add_distrib, Finset.sum_add_distrib,
      Finset.sum_add_distrib, Finset.sum_ite_eq' , Finset.sum_ite_eq', Finset.sum_ite_eq',
      Finset.sum_ite_eq', if_pos (mem_range.mpr l0), if_pos (mem_range.mpr l1),
      if_pos (mem_range.mpr l2), if_pos (mem_range.mpr l3)]
  rw [Finset.sum_congr rfl stepA, Finset.sum_add_distrib, Finset.sum_add_distrib,
    Finset.sum_add_distrib, Finset.sum_add_distrib]
  have r2 := dirSum_reindex c N n0 n2 (fun s hs => (hlt s hs).1) (fun s hs => (hlt s hs).2.2.1)
    (fun s hs => (hinv s hs).2.1) (fun s hs => (hinv s hs).1)
  have r3 := dirSum_reindex c N n1 n3 (fun s hs => (hlt s hs).2.1) (fun s hs => (hlt s hs).2.2.2)
    (fun s hs => (hinv s hs).2.2.2) (fun s hs => (hinv s hs).2.2.1)
  rw [r2, r3]
  have m0 : ∑ s in range N, (if s < n0 s then c s (n0 s) else 0)
      + ∑ s in range N, (if n0 s < s then c (n0 s) s else 0) = ∑ s in range N, c s (n0 s) := by
    rw [← Finset.sum_add_distrib]
    refine Finset.sum_congr rfl (fun s hs => ?_)
    have hne := (hself s (mem_range.mp hs)).1
    rcases lt_or_gt_of_ne hne with h | h
    · rw [if_neg (not_lt.mpr h.le), if_pos h, zero_add, hc]
    · rw [if_pos h, if_neg (not_lt.mpr (le_of_lt h)), add_zero]
  have m1 : ∑ s in range N, (if s < n1 s then c s (n1 s) else 0)
      + ∑ s in range N, (if n1 s < s then c (n1 s) s else 0) = ∑ s in range N, c s (n1 s) := by
    rw [← Finset.sum_add_distrib]
    refine Finset.sum_congr rfl (fun s hs => ?_)
    have hne := (hself s (mem_range.mp hs)).2
    rcases lt_or_gt_of_ne hne with h | h
    · rw [if_neg (not_lt.mpr h.le), if_pos h, zero_add, hc]
    · rw [if_pos h, if_neg (not_lt.mpr (le_of_lt h)), add_zero]
  linear_combination m0 + m1

theorem pairRate_comm (g : Game2D K) (p q : Nat) : g.pairRate p q = g.pairRate q p :=
  localContribution_comm _ _ _ _ _

theorem calculate_W_torus (g : Game2D K) (hwf : g.WF) :
    g.calculate_W = ∑ s in range (g.L * g.L),
      (g.pairRate s (torusUp g.L s) + g.pairRate s (torusLeft g.L s)) := by
  rw [calculate_W_eq, wf_N_eq hwf]
  refine Finset.sum_congr rfl (fun s hs => ?_)
  have hs' : s < g.N := by rw [wf_N_eq hwf]; exact mem_range.mp hs
  rw [(wf_nbr_eq hwf s hs').1, (wf_nbr_eq hwf s hs').2.1]

theorem pairSum_torus (g : Game2D K) (hwf : g.WF) :
    g.pairSum = ∑ x in range (g.L * g.L), ∑ y in range (g.L * g.L),
      (if x < y ∧ (y = torusUp g.L x ∨ y = torusLeft g.L x ∨ y = torusDown g.L x ∨
        y = torusRight g.L x) then g.pairRate x y else 0) := by
  unfold Game2D.pairSum adjacent
  rw [wf_N_eq hwf]

/-- **C10** Full recomputation and the per-pair definition.  For a well-formed
engine of side `L ≠ 2`, `calculate_W()` equals the sum of the local contribution over
every unordered pair of toroidally adjacent sites, each pair once.  For `L = 2`, where the
upper and lower (and the left and right) neighbours of a site coincide, every adjacent pair
is met from both of its sites and `calculate_W()` is twice that sum. -/
theorem calculate_W_pairs (g : Game2D K) (hwf : g.WF) :
    (g.L ≠ 2 → g.calculate_W = g.pairSum) ∧ (g.L = 2 → g.calculate_W = 2 * g.pairSum) := by
  rw [calculate_W_torus g hwf, pairSum_torus g hwf]
  constructor
  · intro hL
    rcases Nat.lt_or_ge g.L 3 with h3 | h3
    · have h01 : g.L = 0 ∨ g.L = 1 := by omega
      rcases h01 with h | h
      · rw [h]; simp
      · rw [h]
        have e0 : torusUp 1 0 = 0 := by decide
        have e1 : torusLeft 1 0 = 0 := by decide
        simp [e0, e1, Game2D.pairRate, localContribution]
    · symm
      refine pairSum_eq_dirSum g.pairRate (pairRate_comm g) (g.L * g.L) (torusUp g.L)
        (torusLeft g.L) (torusDown g.L) (torusRight g.L) ?_ ?_ ?_ ?_
      · intro s hs
        exact ⟨torusUp_lt _ _ hs, torusLeft_lt _ _ hs, torusDown_lt _ _ hs, torusRight_lt _ _ hs⟩
      · intro s hs
        exact ⟨torusDown_Up _ _ hs, torusUp_Down _ _ hs, torusRight_Left _ _ hs,
          torusLeft_Right _ _ hs⟩
      · intro s hs
        exact torus_distinct _ _ hs h3
      · intro s hs
        exact ⟨(torus_ne_self _ _ hs (by omega)).1, (torus_ne_self _ _ hs (by omega)).2.1⟩
  · intro hL
    rw [hL]
    have u0 : torusUp 2 0 = 2 := by decide
    have u1 : torusUp 2 1 = 3 := by decide
    have u2 : torusUp 2 2 = 0 := by decide
    have u3 : torusUp 2 3 = 1 := by decide
    have l0 : torusLeft 2 0 = 1 := by decide
    have l1 : torusLeft 2 1 = 0 := by decide
    have l2 : torusLeft 2 2 = 3 := by decide
    have l3 : torusLeft 2 3 = 2 := by decide
    have d0 : torusDown 2 0 = 2 := by decide
    have d1 : torusDown 2 1 = 3 := by decide
    have d2 : torusDown 2 2 = 0 := by decide
    have d3 : torusDown 2 3 = 1 := by decide
    have r0 : torusRight 2 0 = 1 := by decide
    have r1 : torusRight 2 1 = 0 := by decide
    have r2 : torusRight 2 2 = 3 := by decide
    have r3 : torusRight 2 3 = 2 := by decide
    simp only [show (2 : Nat) * 2 = 4 from rfl, Finset.sum_range_succ, Finset.sum_range_zero,
      u0, u1, u2, u3, l0, l1, l2, l3, d0, d1, d2, d3, r0, r1, r2, r3]
    norm_num
    rw [pairRate_comm g 1 0, pairRate_comm g 2 0, pairRate_comm g 3 1, pairRate_comm g 3 2]
    ring

theorem calculate_W_pairs_witness :
    demoGame3.calculate_W = demoGame3.pairSum ∧ demoGame.calculate_W = 2 * demoGame.pairSum :=
  ⟨(calculate_W_pairs demoGame3 (by decide)).1 (by decide),
   (calculate_W_pairs demoGame (by decide)).2 (by decide)⟩

/-- **C10** The per-pair sum on a 2 × 2 lattice.  On the lattice `0 1 / 2 3` with
`ε = 1/2`, `μ = σ = 1`, `calculate_W()` is 12 while the sum over the four unordered adjacent
pairs, each once, is 6. -/
theorem pair_sum_once_fails_at_two :
    demoGame.L = 2 ∧ demoGame.calculate_W = 12 ∧ demoGame.pairSum = 6 ∧
    demoGame.calculate_W ≠ demoGame.pairSum := by
  decide!

theorem cell_of_uniform (g : Game2D K) (c : Nat) (h : ∀ x ∈ g.animals, x = c) (i : Nat)
    (hi : i < g.animals.length) : g.cell i = c := by
  unfold Game2D.cell
  rw [List.getD_eq_getElem _ _ hi]
  exact h _ (List.getElem_mem hi)

/-- On a well-formed engine whose cells all hold the same value, `operator++` throws and
leaves the lattice as it was; with `W = 0` and a finite clock, the clock it leaves differs
from the one it found, and is `+∞` when `log(u1) < 0`. -/
theorem uniform_step_throws (log : K → K) (g : Game2D K) (u1 u2 t0 : K) (c : Nat) (hwf : g.WF)
    (hc : ∀ x ∈ g.animals, x = c) (hW : g.W = 0) (ht : g.t = Clock.fin t0) :
    g.operator_inc log u1 u2 = Except.error (g.tick log u1) ∧
    (g.tick log u1).animals = g.animals ∧ (g.tick log u1).t ≠ g.t ∧
    (log u1 < 0 → (g.tick log u1).t = Clock.posInf) := by
  have hcells : ∀ p ∈ scanOrder g.N, g.cell p.1 = g.cell (g.nbr p.2 p.1) := by
    rintro ⟨i, n⟩ hp
    obtain ⟨hi, hn⟩ := (mem_scanOrder g.N i n).mp hp
    have hj := nbr_lt_of_lt_two hwf i n hi hn
    rw [← hwf.2.1] at hi hj
    simp only
    rw [cell_of_uniform g c hc i hi, cell_of_uniform g c hc _ hj]
  refine ⟨operator_inc_of_equal log g u1 u2 hcells, rfl, ?_, ?_⟩
  · show g.t.sub (Clock.quot (log u1) g.W) ≠ g.t
    rw [hW, ht]
    exact sub_quot_zero_ne t0 (log u1)
  · intro hlog
    show g.t.sub (Clock.quot (log u1) g.W) = Clock.posInf
    rw [hW, ht, Clock.quot, if_pos rfl, if_neg (not_lt.mpr hlog.le), if_pos hlog]
    rfl

/-! ## Setters, bulk load, and the anatomy of a step -/

/-- **C12** Setters recompute `W` and touch nothing else.  For every state and every value
`x`: after `set_selec(x)` the getter `get_selec()` returns `x`, after `set_repr(x)` the
getter `get_repr()` returns `x`, after `set_M(x)` the rate `epsilon` is `0.5*x*L*L`; each
setter leaves the lattice, `L`, the clock, the neighbour tables and the other two rates as
they were, and leaves `W` equal to `calculate_W()` of the new state. -/
theorem setters_recompute (g : Game2D K) (x : K) :
    ((g.set_selec x).get_selec = x ∧
      (g.set_selec x).animals = g.animals ∧ (g.set_selec x).L = g.L ∧
      (g.set_selec x).t = g.t ∧ (g.set_selec x).neighbours = g.neighbours ∧
      (g.set_selec x).mu = g.mu ∧ (g.set_selec x).epsilon = g.epsilon ∧
      (g.set_selec x).W = (g.set_selec x).calculate_W) ∧
    ((g.set_repr x).get_repr = x ∧
      (g.set_repr x).animals = g.animals ∧ (g.set_repr x).L = g.L ∧
      (g.set_repr x).t = g.t ∧ (g.set_repr x).neighbours = g.neighbours ∧
      (g.set_repr x).sigma = g.sigma ∧ (g.set_repr x).epsilon = g.epsilon ∧
      (g.set_repr x).W = (g.set_repr x).calculate_W) ∧
    ((g.set_M x).epsilon = (1 / 2) * x * g.L * g.L ∧
      (g.set_M x).animals = g.animals ∧ (g.set_M x).L = g.L ∧
      (g.set_M x).t = g.t ∧ (g.set_M x).neighbours = g.neighbours ∧
      (g.set_M x).sigma = g.sigma ∧ (g.set_M x).mu = g.mu ∧
      (g.set_M x).W = (g.set_M x).calculate_W) :=
  ⟨⟨rfl, rfl, rfl, rfl, rfl, rfl, rfl, rfl⟩, ⟨rfl, rfl, rfl, rfl, rfl, rfl, rfl, rfl⟩,
    ⟨rfl, rfl, rfl, rfl, rfl, rfl, rfl, rfl⟩⟩

/-- The lattice of a throwing or returning call is valid when the one before it was. -/
theorem operator_inc_valid (log : K → K) (g : Game2D K) (u1 u2 : K) (hv : g.ValidCells) :
    (after (g.operator_inc log u1 u2)).ValidCells := by
  unfold Game2D.operator_inc
  simp only
  cases hs : (g.tick log u1).scan (u2 * (g.tick log u1).W) with
  | none => exact hv
  | some r =>
    obtain ⟨i, n, op⟩ := r
    simp only
    split_ifs
    · exact hv
    · exact applyEvent_valid (g.tick log u1) hv i _ op

/-- **C19** Cell values stay valid and the outcome-table lookup is in range.  If every
cell holds one of the four codes before `operator++`, so it does after the call (returning
or throwing); and whenever the scan stops at a Selection, the two indices of the read
`winningTable[animals[i]][animals[n_ind]]` are distinct elements of `{0, 1, 2}`, and the
entry read is one of these two kinds, never `EMPTY`. -/
theorem cells_stay_valid (log : K → K) (g : Game2D K) (u1 u2 : K) (hv : g.ValidCells) :
    (after (g.operator_inc log u1 u2)).ValidCells ∧
    ∀ i n, (g.tick log u1).scan (u2 * g.W) = some (i, n, interactions.SELECTION) →
      g.cell i < 3 ∧ g.cell (g.nbr n i) < 3 ∧ g.cell i ≠ g.cell (g.nbr n i) ∧
      (winningTableAt (g.cell i) (g.cell (g.nbr n i)) = g.cell i ∨
        winningTableAt (g.cell i) (g.cell (g.nbr n i)) = g.cell (g.nbr n i)) ∧
      winningTableAt (g.cell i) (g.cell (g.nbr n i)) ≠ EMPTY := by
  refine ⟨operator_inc_valid log g u1 u2 hv, ?_⟩
  intro i n hscan
  obtain ⟨-, -, hne, hop⟩ := scan_some _ _ i n _ hscan
  have hne : g.cell i ≠ g.cell (g.nbr n i) := hne
  have hnE : ¬ (g.cell i = EMPTY ∨ g.cell (g.nbr n i) = EMPTY) := by
    rcases hop with h | h | h
    · exact absurd h (by decide)
    · exact absurd h.1 (by decide)
    · exact h.2
  have ha : g.cell i < 3 := by
    have : g.cell i ≤ 3 := cell_le_of_valid hv i
    have h3 : g.cell i ≠ 3 := fun h => hnE (Or.inl h)
    omega
  have hb : g.cell (g.nbr n i) < 3 := by
    have : g.cell (g.nbr n i) ≤ 3 := cell_le_of_valid hv (g.nbr n i)
    have h3 : g.cell (g.nbr n i) ≠ 3 := fun h => hnE (Or.inr h)
    omega
  refine ⟨ha, hb, hne, ?_, ?_⟩
  · rcases winningTableAt_cases _ _ ha hb hne with h | h
    · exact Or.inl h.2
    · exact Or.inr h.2
  · rcases winningTableAt_cases _ _ ha hb hne with h | h
    · rw [h.2]; exact fun h' => hnE (Or.inl h')
    · rw [h.2]; exact fun h' => hnE (Or.inr h')

theorem cells_stay_valid_witness :
    (after (demoGame.operator_inc demoLog (1 / 2) (1 / 12))).ValidCells ∧
    ∀ i n, (demoGame.tick demoLog (1 / 2)).scan (1 / 12 * demoGame.W)
        = some (i, n, interactions.SELECTION) →
      demoGame.cell i < 3 ∧ demoGame.cell (demoGame.nbr n i) < 3 ∧
      demoGame.cell i ≠ demoGame.cell (demoGame.nbr n i) ∧
      (winningTableAt (demoGame.cell i) (demoGame.cell (demoGame.nbr n i)) = demoGame.cell i ∨
        winningTableAt (demoGame.cell i) (demoGame.cell (demoGame.nbr n i))
          = demoGame.cell (demoGame.nbr n i)) ∧
      winningTableAt (demoGame.cell i) (demoGame.cell (demoGame.nbr n i)) ≠ EMPTY :=
  cells_stay_valid demoLog demoGame (1 / 2) (1 / 12) (by decide)

theorem swapCells_getD_ne (a : List Nat) (i j s : Nat) (hi : s ≠ i) (hj : s ≠ j) :
    (swapCells a i j).getD s 0 = a.getD s 0 := by
  unfold swapCells
  rw [getD_set_ne _ _ _ _ hj, getD_set_ne _ _ _ _ hi]

/-- The changed sites when exactly the site `x` takes a new value. -/
theorem changed_single (g g' : Game2D K) (x : Nat) (hx : x < g.N)
    (hne : g'.cell x ≠ g.cell x) (hsame : ∀ s, s ≠ x → g'.cell s = g.cell s) :
    g.changed g' = {x} := by
  ext s
  simp only [Game2D.changed, mem_filter, mem_range, mem_singleton]
  constructor
  · rintro ⟨-, h⟩
    by_contra hs
    exact h (hsame s hs)
  · rintro rfl
    exact ⟨hx, hne⟩

/-- The changed sites when exactly the two sites `x ≠ y` take new values. -/
theorem changed_pair (g g' : Game2D K) (x y : Nat) (hx : x < g.N) (hy : y < g.N)
    (hnx : g'.cell x ≠ g.cell x) (hny : g'.cell y ≠ g.cell y)
    (hsame : ∀ s, s ≠ x → s ≠ y → g'.cell s = g.cell s) :
    g.changed g' = {x, y} := by
  ext s
  simp only [Game2D.changed, mem_filter, mem_range, mem_insert, mem_singleton]
  constructor
  · rintro ⟨-, h⟩
    by_contra hs
    push_neg at hs
    exact h (hsame s hs.1 hs.2)
  · rintro (rfl | rfl)
    · exact ⟨hx, hnx⟩
    · exact ⟨hy, hny⟩

/-- What the `switch` of `operator++` does to the lattice, for the pair and operation the
scan stops at. -/
theorem applyEvent_effect (g : Game2D K) (hwf : g.WF) (i j : Nat) (hi : i < g.N) (hj : j < g.N)
    (hne : g.cell i ≠ g.cell j) (op : interactions)
    (hop : op = interactions.EXCHANGE ∨
      (op = interactions.REPRODUCTION ∧ (g.cell i = EMPTY ∨ g.cell j = EMPTY)) ∨
      (op = interactions.SELECTION ∧ ¬ (g.cell i = EMPTY ∨ g.cell j = EMPTY))) :
    (∀ s, s ≠ i → s ≠ j → (g.applyEvent i j op).cell s = g.cell s) ∧
    (op = interactions.EXCHANGE →
      (g.applyEvent i j op).cell i ≠ g.cell i ∧ (g.applyEvent i j op).cell j ≠ g.cell j) ∧
    (op ≠ interactions.EXCHANGE →
      ((g.applyEvent i j op).cell i ≠ g.cell i ∧ (g.applyEvent i j op).cell j = g.cell j ∧
        (g.applyEvent i j op).W = g.W + ((g.applyEvent i j op).W_ind i - g.W_ind i)) ∨
      ((g.applyEvent i j op).cell j ≠ g.cell j ∧ (g.applyEvent i j op).cell i = g.cell i ∧
        (g.applyEvent i j op).W = g.W + ((g.applyEvent i j op).W_ind j - g.W_ind j))) := by
  have hi' : i < g.animals.length := by rw [hwf.2.1]; exact hi
  have hj' : j < g.animals.length := by rw [hwf.2.1]; exact hj
  have hij : i ≠ j := fun h => hne (by rw [h])
  rcases hop with rfl | ⟨rfl, hE⟩ | ⟨rfl, hE⟩
  · refine ⟨fun s h1 h2 => swapCells_getD_ne _ _ _ _ h1 h2, fun _ => ?_, fun h => absurd rfl h⟩
    have := swapCells_getD g.animals i j hi' hj'
    exact ⟨fun h => hne (this.1.symm.trans h).symm, fun h => hne (this.2.symm.trans h)⟩
  · by_cases h0 : g.cell i = EMPTY
    · have e : g.applyEvent i j interactions.REPRODUCTION =
          { g with animals := g.animals.set i (g.cell j),
                   W := g.W + (Game2D.W_ind { g with animals := g.animals.set i (g.cell j) } i
                     - g.W_ind i) } := by
        simp only [Game2D.applyEvent, if_pos h0]
      rw [e]
      refine ⟨fun s h1 _ => getD_set_ne _ _ _ _ h1, fun h => absurd h (by decide), fun _ => ?_⟩
      left
      refine ⟨?_, getD_set_ne _ _ _ _ (Ne.symm hij), rfl⟩
      show (g.animals.set i (g.cell j)).getD i 0 ≠ g.cell i
      rw [getD_set_eq _ _ _ hi']; exact Ne.symm hne
    · have e : g.applyEvent i j interactions.REPRODUCTION =
          { g with animals := g.animals.set j (g.cell i),
                   W := g.W + (Game2D.W_ind { g with animals := g.animals.set j (g.cell i) } j
                     - g.W_ind j) } := by
        simp only [Game2D.applyEvent, if_neg h0]
      rw [e]
      refine ⟨fun s _ h2 => getD_set_ne _ _ _ _ h2, fun h => absurd h (by decide), fun _ => ?_⟩
      right
      refine ⟨?_, getD_set_ne _ _ _ _ hij, rfl⟩
      show (g.animals.set j (g.cell i)).getD j 0 ≠ g.cell j
      rw [getD_set_eq _ _ _ hj']; exact hne
  · by_cases h0 : g.cell i = winningTableAt (g.cell i) (g.cell j)
    · have e : g.applyEvent i j interactions.SELECTION =
          { g with animals := g.animals.set j EMPTY,
                   W := g.W + (Game2D.W_ind { g with animals := g.animals.set j EMPTY } j
                     - g.W_ind j) } := by
        simp only [Game2D.applyEvent, if_pos h0]
      rw [e]
      refine ⟨fun s _ h2 => getD_set_ne _ _ _ _ h2, fun h => absurd h (by decide), fun _ => ?_⟩
      right
      refine ⟨?_, getD_set_ne _ _ _ _ hij, rfl⟩
      show (g.animals.set j EMPTY).getD j 0 ≠ g.cell j
      rw [getD_set_eq _ _ _ hj']; exact fun h => hE (Or.inr h.symm)
    · have e : g.applyEvent i j interactions.SELECTION =
          { g with animals := g.animals.set i EMPTY,
                   W := g.W + (Game2D.W_ind { g with animals := g.animals.set i EMPTY } i
                     - g.W_ind i) } := by
        simp only [Game2D.applyEvent, if_neg h0]
      rw [e]
      refine ⟨fun s h1 _ => getD_set_ne _ _ _ _ h1, fun h => absurd h (by decide), fun _ => ?_⟩
      left
      refine ⟨?_, getD_set_ne _ _ _ _ (Ne.symm hij), rfl⟩
      show (g.animals.set i EMPTY).getD i 0 ≠ g.cell i
      rw [getD_set_eq _ _ _ hi']; exact fun h => hE (Or.inl h.symm)

theorem adjacent_of_lt_two {g : Game2D K} (h : g.WF) (i n : Nat) (hi : i < g.N) (hn : n < 2) :
    adjacent g.L i (g.nbr n i) := by
  obtain ⟨e0, e1, -, -⟩ := wf_nbr_eq h i hi
  unfold adjacent
  interval_cases n
  · exact Or.inl e0
  · exact Or.inr (Or.inl e1)

/-- **C13** One event per step.  A call of `operator++` on a well-formed engine that
returns has stopped its scan at exactly one operation among Exchange, Reproduction and
Selection, for a site `i` and its adjacent site `j = neighbours[n][i]`.  The cells whose
value changed are both `i` and `j` for an Exchange, and exactly one of them for a
Reproduction or a Selection; every other cell, the number of cells, `L`, `sigma`, `mu`,
`epsilon` and the neighbour tables are as before. -/
theorem one_event_per_step (log : K → K) (g g' : Game2D K) (u1 u2 : K) (hwf : g.WF)
    (h : g.operator_inc log u1 u2 = Except.ok g') :
    ∃ i n op, (g.tick log u1).scan (u2 * g.W) = some (i, n, op) ∧
      (op = interactions.EXCHANGE ∨ op = interactions.REPRODUCTION ∨
        op = interactions.SELECTION) ∧
      i < g.N ∧ n < 2 ∧ adjacent g.L i (g.nbr n i) ∧
      g' = (g.tick log u1).applyEvent i (g.nbr n i) op ∧
      (op = interactions.EXCHANGE →
        g.changed g' = {i, g.nbr n i} ∧ (g.changed g').card = 2) ∧
      (op ≠ interactions.EXCHANGE →
        (g.changed g' = {i} ∨ g.changed g' = {g.nbr n i}) ∧ (g.changed g').card = 1) ∧
      (∀ s, s ≠ i → s ≠ g.nbr n i → g'.cell s = g.cell s) ∧
      g'.animals.length = g.animals.length ∧ g'.L = g.L ∧ g'.sigma = g.sigma ∧
      g'.mu = g.mu ∧ g'.epsilon = g.epsilon ∧ g'.neighbours = g.neighbours := by
  obtain ⟨i, n, op, hs, hop, rfl⟩ := operator_inc_ok log g g' u1 u2 h
  obtain ⟨hi, hn, hne, hkind⟩ := scan_some _ _ i n op hs
  have hwf1 : (g.tick log u1).WF := hwf
  have hj : g.nbr n i < g.N := nbr_lt_of_lt_two hwf i n hi hn
  obtain ⟨hsame, hex, hsingle⟩ := applyEvent_effect (g.tick log u1) hwf1 i (g.nbr n i) hi hj hne
    op hkind
  obtain ⟨fL, fn, fs, fm, fe, -⟩ := applyEvent_frame (g.tick log u1) i (g.nbr n i) op
  have hne' : g.cell i ≠ g.cell (g.nbr n i) := hne
  have hij : i ≠ g.nbr n i := fun h => hne' (by rw [← h])
  refine ⟨i, n, op, hs, ?_, hi, hn, adjacent_of_lt_two hwf i n hi hn, rfl, ?_, ?_, hsame,
    applyEvent_length _ _ _ _, fL, fs, fm, fe, fn⟩
  · rcases hkind with h | h | h
    · exact Or.inl h
    · exact Or.inr (Or.inl h.1)
    · exact Or.inr (Or.inr h.1)
  · intro he
    have hc := changed_pair g ((g.tick log u1).applyEvent i (g.nbr n i) op) i (g.nbr n i) hi hj
      (hex he).1 (hex he).2 hsame
    exact ⟨hc, by rw [hc]; exact Finset.card_pair hij⟩
  · intro he
    rcases hsingle he with ⟨h1, h2, -⟩ | ⟨h1, h2, -⟩
    · have hc := changed_single g ((g.tick log u1).applyEvent i (g.nbr n i) op) i hi h1
        (fun s hs' => by
          by_cases hsj : s = g.nbr n i
          · rw [hsj]; exact h2
          · exact hsame s hs' hsj)
      exact ⟨Or.inl hc, by rw [hc]; exact Finset.card_singleton _⟩
    · have hc := changed_single g ((g.tick log u1).applyEvent i (g.nbr n i) op) (g.nbr n i) hj h1
        (fun s hs' => by
          by_cases hsi : s = i
          · rw [hsi]; exact h2
          · exact hsame s hsi hs')
      exact ⟨Or.inr hc, by rw [hc]; exact Finset.card_singleton _⟩

theorem one_event_per_step_witness :
    ∃ i n op, (demoGame.tick demoLog (1 / 2)).scan (1 / 3 * demoGame.W) = some (i, n, op) ∧
      (op = interactions.EXCHANGE ∨ op = interactions.REPRODUCTION ∨
        op = interactions.SELECTION) ∧
      i < demoGame.N ∧ n < 2 ∧ adjacent demoGame.L i (demoGame.nbr n i) ∧
      after (demoGame.operator_inc demoLog (1 / 2) (1 / 3))
        = (demoGame.tick demoLog (1 / 2)).applyEvent i (demoGame.nbr n i) op ∧
      (op = interactions.EXCHANGE →
        demoGame.changed (after (demoGame.operator_inc demoLog (1 / 2) (1 / 3)))
          = {i, demoGame.nbr n i} ∧
        (demoGame.changed (after (demoGame.operator_inc demoLog (1 / 2) (1 / 3)))).card = 2) ∧
      (op ≠ interactions.EXCHANGE →
        (demoGame.changed (after (demoGame.operator_inc demoLog (1 / 2) (1 / 3))) = {i} ∨
          demoGame.changed (after (demoGame.operator_inc demoLog (1 / 2) (1 / 3)))
            = {demoGame.nbr n i}) ∧
        (demoGame.changed (after (demoGame.operator_inc demoLog (1 / 2) (1 / 3)))).card = 1) ∧
      (∀ s, s ≠ i → s ≠ demoGame.nbr n i →
        (after (demoGame.operator_inc demoLog (1 / 2) (1 / 3))).cell s = demoGame.cell s) ∧
      (after (demoGame.operator_inc demoLog (1 / 2) (1 / 3))).animals.length
        = demoGame.animals.length ∧
      (after (demoGame.operator_inc demoLog (1 / 2) (1 / 3))).L = demoGame.L ∧
      (after (demoGame.operator_inc demoLog (1 / 2) (1 / 3))).sigma = demoGame.sigma ∧
      (after (demoGame.operator_inc demoLog (1 / 2) (1 / 3))).mu = demoGame.mu ∧
      (after (demoGame.operator_inc demoLog (1 / 2) (1 / 3))).epsilon = demoGame.epsilon ∧
      (after (demoGame.operator_inc demoLog (1 / 2) (1 / 3))).neighbours = demoGame.neighbours :=
  one_event_per_step demoLog demoGame _ (1 / 2) (1 / 3) (by decide) (by decide!)

/-- **C16** Local-window correction.  For a returning call of `operator++` on a
well-formed engine, with `i` the selected site and `j = neighbours[n][i]`: for an Exchange
the amount added to `W` is `W_ind(i) + W_ind(j)` after the swap minus the same sum before
it; for a Reproduction or a Selection it is `W_ind(x)` after the change minus `W_ind(x)`
before it, where `x` is the one site of the pair whose value changes. -/
theorem window_correction (log : K → K) (g g' : Game2D K) (u1 u2 : K) (hwf : g.WF)
    (h : g.operator_inc log u1 u2 = Except.ok g') :
    ∃ i n op, (g.tick log u1).scan (u2 * g.W) = some (i, n, op) ∧
      (op = interactions.EXCHANGE →
        g'.W = g.W + ((g'.W_ind i + g'.W_ind (g.nbr n i))
          - (g.W_ind i + g.W_ind (g.nbr n i)))) ∧
      (op ≠ interactions.EXCHANGE →
        ∃ x, (x = i ∨ x = g.nbr n i) ∧ g.changed g' = {x} ∧
          g'.W = g.W + (g'.W_ind x - g.W_ind x)) := by
  obtain ⟨i, n, op, hs, hop, rfl⟩ := operator_inc_ok log g g' u1 u2 h
  obtain ⟨hi, hn, hne, hkind⟩ := scan_some _ _ i n op hs
  have hwf1 : (g.tick log u1).WF := hwf
  have hj : g.nbr n i < g.N := nbr_lt_of_lt_two hwf i n hi hn
  obtain ⟨hsame, hex, hsingle⟩ := applyEvent_effect (g.tick log u1) hwf1 i (g.nbr n i) hi hj hne
    op hkind
  refine ⟨i, n, op, hs, ?_, ?_⟩
  · intro he
    subst he
    rfl
  · intro he
    rcases hsingle he with ⟨h1, h2, h3⟩ | ⟨h1, h2, h3⟩
    · refine ⟨i, Or.inl rfl, ?_, h3⟩
      exact changed_single g _ i hi h1 (fun s hs' => by
          by_cases hsj : s = g.nbr n i
          · rw [hsj]; exact h2
          · exact hsame s hs' hsj)
    · refine ⟨g.nbr n i, Or.inr rfl, ?_, h3⟩
      exact changed_single g _ (g.nbr n i) hj h1 (fun s hs' => by
          by_cases hsi : s = i
          · rw [hsi]; exact h2
          · exact hsame s hsi hs')

theorem window_correction_witness :
    ∃ i n op, (demoGame.tick demoLog (1 / 2)).scan (1 / 3 * demoGame.W) = some (i, n, op) ∧
      (op = interactions.EXCHANGE →
        (after (demoGame.operator_inc demoLog (1 / 2) (1 / 3))).W = demoGame.W +
          (((after (demoGame.operator_inc demoLog (1 / 2) (1 / 3))).W_ind i +
              (after (demoGame.operator_inc demoLog (1 / 2) (1 / 3))).W_ind (demoGame.nbr n i))
            - (demoGame.W_ind i + demoGame.W_ind (demoGame.nbr n i)))) ∧
      (op ≠ interactions.EXCHANGE →
        ∃ x, (x = i ∨ x = demoGame.nbr n i) ∧
          demoGame.changed (after (demoGame.operator_inc demoLog (1 / 2) (1 / 3))) = {x} ∧
          (after (demoGame.operator_inc demoLog (1 / 2) (1 / 3))).W = demoGame.W +
            ((after (demoGame.operator_inc demoLog (1 / 2) (1 / 3))).W_ind x
              - demoGame.W_ind x)) :=
  window_correction demoLog demoGame _ (1 / 2) (1 / 3) (by decide) (by decide!)

/-- **C16** The two-site window on a Reproduction.  On the 2 × 2 lattice `0 1 / 2 3` with
`ε = 1/2`, `μ = σ = 1` and target `4`, the scan stops at a Reproduction for site 1 and its
upper neighbour 3; the call adds `-3` to `W` (from 12 to 9, the recomputed value), whereas
`W_ind(1) + W_ind(3)` after the change minus the same sum before it is `-6`. -/
theorem window_sum_fails_on_reproduction :
    (demoGame.tick demoLog (1 / 2)).scan (1 / 3 * demoGame.W)
      = some (1, 0, interactions.REPRODUCTION) ∧
    demoGame.nbr 0 1 = 3 ∧ demoGame.W = 12 ∧
    (after (demoGame.operator_inc demoLog (1 / 2) (1 / 3))).W = 9 ∧
    (after (demoGame.operator_inc demoLog (1 / 2) (1 / 3))).calculate_W = 9 ∧
    ((after (demoGame.operator_inc demoLog (1 / 2) (1 / 3))).W_ind 1 +
        (after (demoGame.operator_inc demoLog (1 / 2) (1 / 3))).W_ind 3)
      - (demoGame.W_ind 1 + demoGame.W_ind 3) = -6 := by
  decide!

theorem scanFrom_tick (log : K → K) (g : Game2D K) (u1 r : K) :
    ∀ (l : List (Nat × Nat)) (sum : K),
      (g.tick log u1).scanFrom r l sum = g.scanFrom r l sum := by
  intro l
  induction l with
  | nil => intro sum; rfl
  | cons p rest ih =>
    obtain ⟨i, n⟩ := p
    intro sum
    rw [Game2D.scanFrom, Game2D.scanFrom, ih, ih, ih]
    rfl

/-- The clock update does not change what the scan selects. -/
theorem scan_tick (log : K → K) (g : Game2D K) (u1 r : K) :
    (g.tick log u1).scan r = g.scan r :=
  scanFrom_tick log g u1 r _ 0

/-- With non-negative rates, every target in `[0, calculate_W())` stops the scan. -/
theorem scan_of_lt_total (g : Game2D K) (h0 : 0 ≤ g.epsilon) (h1 : 0 ≤ g.mu) (h2 : 0 ≤ g.sigma)
    (r : K) (hr : 0 ≤ r) (hW : r < g.calculate_W) :
    ∃ i n op, g.scan r = some (i, n, op) := by
  obtain ⟨k, e, w, hk, ha, hb⟩ := exists_interval r g.events 0 (events_nonneg g h0 h1 h2) hr
    (by rw [zero_add, events_total]; exact hW)
  have := (firstExceeding_iff r g.events 0 k e w (events_nonneg g h0 h1 h2)
    (events_keys_nodup g) hr hk).mpr ⟨ha, hb⟩
  obtain ⟨i, n, op⟩ := e
  exact ⟨i, n, op, by rw [Game2D.scan, scanFrom_eq_firstExceeding]; exact this⟩

/-- **C14** A step with positive consistent `W` finds a valid event.  With non-negative
rates, on a well-formed engine with `W = calculate_W() > 0` and a second draw
`0 < u2 < 1`, the scan with target `u2*W` stops at an operation other than `ERROR` and the
call returns; the selected sites `i` and `n_ind = neighbours[n][i]` are adjacent and hold
different values; one of them is `EMPTY` when the operation is a Reproduction and both are
non-empty when it is a Selection, and for an operation other than an Exchange these are
equivalences. -/
theorem positive_rate_finds_event (log : K → K) (g : Game2D K) (u1 u2 : K) (hwf : g.WF)
    (h0 : 0 ≤ g.epsilon) (h1 : 0 ≤ g.mu) (h2 : 0 ≤ g.sigma)
    (hW : g.W = g.calculate_W) (hpos : 0 < g.W) (hu : 0 < u2) (hu' : u2 < 1) :
    ∃ i n op g', (g.tick log u1).scan (u2 * g.W) = some (i, n, op) ∧
      op ≠ interactions.ERROR ∧ g.operator_inc log u1 u2 = Except.ok g' ∧
      i < g.N ∧ n < 2 ∧ adjacent g.L i (g.nbr n i) ∧ g.cell i ≠ g.cell (g.nbr n i) ∧
      (op = interactions.REPRODUCTION → (g.cell i = EMPTY ∨ g.cell (g.nbr n i) = EMPTY)) ∧
      (op = interactions.SELECTION → (g.cell i ≠ EMPTY ∧ g.cell (g.nbr n i) ≠ EMPTY)) ∧
      (op ≠ interactions.EXCHANGE →
        ((g.cell i = EMPTY ∨ g.cell (g.nbr n i) = EMPTY) ↔ op = interactions.REPRODUCTION) ∧
        ((g.cell i ≠ EMPTY ∧ g.cell (g.nbr n i) ≠ EMPTY) ↔ op = interactions.SELECTION)) := by
  have hr : 0 ≤ u2 * g.W := le_of_lt (mul_pos hu hpos)
  have hlt : u2 * g.W < g.calculate_W := by
    rw [← hW]
    calc u2 * g.W < 1 * g.W := mul_lt_mul_of_pos_right hu' hpos
      _ = g.W := one_mul _
  obtain ⟨i, n, op, hs⟩ := scan_of_lt_total g h0 h1 h2 (u2 * g.W) hr hlt
  have hs' : (g.tick log u1).scan (u2 * g.W) = some (i, n, op) := by rw [scan_tick]; exact hs
  obtain ⟨hi, hn, hne, hkind⟩ := scan_some g _ i n op hs
  have hop : op ≠ interactions.ERROR := by
    rcases hkind with h | h | h
    · rw [h]; decide
    · rw [h.1]; decide
    · rw [h.1]; decide
  refine ⟨i, n, op, _, hs', hop, operator_inc_of_scan log g u1 u2 i n op hop hs', hi, hn,
    adjacent_of_lt_two hwf i n hi hn, hne, ?_, ?_, ?_⟩
  · intro he
    rcases hkind with h | h | h
    · rw [h] at he; exact absurd he (by decide)
    · exact h.2
    · rw [h.1] at he; exact absurd he (by decide)
  · intro he
    rcases hkind with h | h | h
    · rw [h] at he; exact absurd he (by decide)
    · rw [h.1] at he; exact absurd he (by decide)
    · exact ⟨fun h' => h.2 (Or.inl h'), fun h' => h.2 (Or.inr h')⟩
  · intro he
    rcases hkind with h | h | h
    · exact absurd h he
    · refine ⟨⟨fun _ => h.1, fun _ => h.2⟩, ⟨fun h' => ?_, fun h' => ?_⟩⟩
      · rcases h.2 with h3 | h3
        · exact absurd h3 h'.1
        · exact absurd h3 h'.2
      · rw [h.1] at h'; exact absurd h' (by decide)
    · refine ⟨⟨fun h' => absurd h' h.2, fun h' => ?_⟩, ⟨fun _ => h.1, fun _ =>
        ⟨fun h' => h.2 (Or.inl h'), fun h' => h.2 (Or.inr h')⟩⟩⟩
      rw [h.1] at h'; exact absurd h' (by decide)

theorem positive_rate_finds_event_witness :
    ∃ i n op g', (demoGame.tick demoLog (1 / 2)).scan (1 / 3 * demoGame.W) = some (i, n, op) ∧
      op ≠ interactions.ERROR ∧ demoGame.operator_inc demoLog (1 / 2) (1 / 3) = Except.ok g' ∧
      i < demoGame.N ∧ n < 2 ∧ adjacent demoGame.L i (demoGame.nbr n i) ∧
      demoGame.cell i ≠ demoGame.cell (demoGame.nbr n i) ∧
      (op = interactions.REPRODUCTION →
        (demoGame.cell i = EMPTY ∨ demoGame.cell (demoGame.nbr n i) = EMPTY)) ∧
      (op = interactions.SELECTION →
        (demoGame.cell i ≠ EMPTY ∧ demoGame.cell (demoGame.nbr n i) ≠ EMPTY)) ∧
      (op ≠ interactions.EXCHANGE →
        ((demoGame.cell i = EMPTY ∨ demoGame.cell (demoGame.nbr n i) = EMPTY)
          ↔ op = interactions.REPRODUCTION) ∧
        ((demoGame.cell i ≠ EMPTY ∧ demoGame.cell (demoGame.nbr n i) ≠ EMPTY)
          ↔ op = interactions.SELECTION)) :=
  positive_rate_finds_event demoLog demoGame (1 / 2) (1 / 3) (by decide) (by decide!)
    (by decide!) (by decide!) (by decide!) (by decide!) (by decide!) (by decide!)

/-- **C14** Exchange on either kind of pair.  On the 2 × 2 lattice `0 1 / 2 3` with
`ε = 1/2`, `μ = σ = 1` and `W = calculate_W() = 12`: the draw `u2 = 13/48` stops the scan at
an Exchange between site 1 and its upper neighbour 3, which is `EMPTY`, although the
operation is not a Reproduction; the draw `u2 = 1/48` stops it at an Exchange between site
0 and its upper neighbour 2, both non-empty, although the operation is not a Selection. -/
theorem exchange_on_either_pair :
    demoGame.W = demoGame.calculate_W ∧ 0 < demoGame.W ∧
    0 ≤ demoGame.epsilon ∧ 0 ≤ demoGame.mu ∧ 0 ≤ demoGame.sigma ∧
    (demoGame.tick demoLog (1 / 2)).scan (13 / 48 * demoGame.W)
      = some (1, 0, interactions.EXCHANGE) ∧
    demoGame.cell (demoGame.nbr 0 1) = EMPTY ∧
    (demoGame.tick demoLog (1 / 2)).scan (1 / 48 * demoGame.W)
      = some (0, 0, interactions.EXCHANGE) ∧
    demoGame.cell 0 ≠ EMPTY ∧ demoGame.cell (demoGame.nbr 0 0) ≠ EMPTY := by
  decide!

theorem torusUp_of_row_pos (L s : Nat) (h1 : L ≤ s) (h2 : s < L * L) :
    torusUp L s = s - L := by
  have hL : 0 < L := Nat.pos_of_ne_zero (by rintro rfl; simp at h2)
  have hr : 0 < s / L := Nat.div_pos h1 hL
  have hsplit : s / L * L + s % L = s := Nat.div_add_mod' s L
  unfold torusUp
  rw [wrap_pred L _ (row_lt L s h2), if_pos hr]
  have : (s / L - 1) * L = s / L * L - L := by
    rw [Nat.sub_mul, Nat.one_mul]
  have h3 : L ≤ s / L * L := Nat.le_mul_of_pos_left L hr
  omega

theorem torusLeft_of_col_pos (L s : Nat) (h1 : 0 < s % L) (h2 : s < L * L) :
    torusLeft L s = s - 1 := by
  have hsplit : s / L * L + s % L = s := Nat.div_add_mod' s L
  unfold torusLeft
  rw [wrap_pred L _ (col_lt L s h2), if_pos h1]
  omega

theorem localContribution_nonneg (ε μ σ : K) (hm : 0 ≤ ε + μ) (hs : 0 ≤ ε + σ) (x y : Nat) :
    0 ≤ localContribution ε μ σ x y := by
  unfold localContribution
  split_ifs <;> first | exact le_refl _ | exact hm | exact hs

theorem localContribution_eq_zero (ε μ σ : K) (hm : 0 < ε + μ) (hs : 0 < ε + σ) (x y : Nat) :
    localContribution ε μ σ x y = 0 ↔ x = y := by
  unfold localContribution
  constructor
  · intro h
    by_contra hxy
    rw [if_neg hxy] at h
    split_ifs at h
    · exact absurd h (ne_of_gt hm)
    · exact absurd h (ne_of_gt hs)
  · intro h
    rw [if_pos h]

/-- On a torus where every site agrees with its upper and its left neighbour, every site
agrees with site 0. -/
theorem connected_up_left (L : Nat) (a : Nat → Nat)
    (hup : ∀ s, s < L * L → a s = a (torusUp L s))
    (hleft : ∀ s, s < L * L → a s = a (torusLeft L s)) :
    ∀ s, s < L * L → a s = a 0 := by
  intro s
  induction s using Nat.strong_induction_on with
  | _ s ih =>
    intro hs
    by_cases h0 : s = 0
    · rw [h0]
    · by_cases h1 : L ≤ s
      · have hL : 0 < L := Nat.pos_of_ne_zero (by rintro rfl; simp at hs)
        rw [hup s hs, torusUp_of_row_pos L s h1 hs]
        exact ih (s - L) (by omega) (by omega)
      · have hmod : s % L = s := Nat.mod_eq_of_lt (by omega)
        rw [hleft s hs, torusLeft_of_col_pos L s (by rw [hmod]; omega) hs]
        exact ih (s - 1) (by omega) (by omega)

/-- **C15** Zero total rate means a uniform board.  On a well-formed engine whose rates
satisfy `ε + μ > 0` and `ε + σ > 0` (in particular for non-negative rates with these two
sums positive), `calculate_W()` is zero if and only if all `L*L` cells hold the same
value. -/
theorem zero_rate_iff_uniform (g : Game2D K) (hwf : g.WF)
    (hm : 0 < g.epsilon + g.mu) (hs : 0 < g.epsilon + g.sigma) :
    g.calculate_W = 0 ↔ ∀ s t, s < g.N → t < g.N → g.cell s = g.cell t := by
  rw [calculate_W_torus g hwf, wf_N_eq hwf]
  have hnn : ∀ s ∈ range (g.L * g.L),
      0 ≤ g.pairRate s (torusUp g.L s) + g.pairRate s (torusLeft g.L s) := fun s _ =>
    add_nonneg (localContribution_nonneg _ _ _ hm.le hs.le _ _)
      (localContribution_nonneg _ _ _ hm.le hs.le _ _)
  rw [Finset.sum_eq_zero_iff_of_nonneg hnn]
  constructor
  · intro h
    have hboth : ∀ s, s < g.L * g.L →
        g.cell s = g.cell (torusUp g.L s) ∧ g.cell s = g.cell (torusLeft g.L s) := by
      intro s hs'
      have hz := h s (mem_range.mpr hs')
      have ha := localContribution_nonneg g.epsilon g.mu g.sigma hm.le hs.le (g.cell s)
        (g.cell (torusUp g.L s))
      have hb := localContribution_nonneg g.epsilon g.mu g.sigma hm.le hs.le (g.cell s)
        (g.cell (torusLeft g.L s))
      have hz' : localContribution g.epsilon g.mu g.sigma (g.cell s) (g.cell (torusUp g.L s))
          + localContribution g.epsilon g.mu g.sigma (g.cell s) (g.cell (torusLeft g.L s)) = 0 :=
        hz
      exact ⟨(localContribution_eq_zero _ _ _ hm hs _ _).mp (by linarith),
        (localContribution_eq_zero _ _ _ hm hs _ _).mp (by linarith)⟩
    have hconn := connected_up_left g.L g.cell (fun s hs' => (hboth s hs').1)
      (fun s hs' => (hboth s hs').2)
    intro s t hs' ht'
    rw [hconn s hs', hconn t ht']
  · intro h s hs'
    have hs' := mem_range.mp hs'
    have e1 : g.cell s = g.cell (torusUp g.L s) := h _ _ hs' (torusUp_lt _ _ hs')
    have e2 : g.cell s = g.cell (torusLeft g.L s) := h _ _ hs' (torusLeft_lt _ _ hs')
    show localContribution _ _ _ _ _ + localContribution _ _ _ _ _ = 0
    rw [(localContribution_eq_zero _ _ _ hm hs _ _).mpr e1,
      (localContribution_eq_zero _ _ _ hm hs _ _).mpr e2, add_zero]

theorem zero_rate_iff_uniform_witness :
    (uniformGame.calculate_W = 0 ↔
      ∀ s t, s < uniformGame.N → t < uniformGame.N → uniformGame.cell s = uniformGame.cell t) ∧
    (demoGame.calculate_W = 0 ↔
      ∀ s t, s < demoGame.N → t < demoGame.N → demoGame.cell s = demoGame.cell t) :=
  ⟨zero_rate_iff_uniform uniformGame (by decide) (by decide!) (by decide!),
   zero_rate_iff_uniform demoGame (by decide) (by decide!) (by decide!)⟩

theorem calculate_W_down_right_eq (g : Game2D K) :
    g.calculate_W_down_right =
      ∑ i in range g.N, (g.pairRate i (g.nbr 2 i) + g.pairRate i (g.nbr 3 i)) := by
  have h : ∀ (W_calc : K) (i : Nat),
      [2, 3].foldl (fun W_c n => g.addRate i (g.nbr n i) W_c) W_calc
        = W_calc + (g.pairRate i (g.nbr 2 i) + g.pairRate i (g.nbr 3 i)) := by
    intro W_calc i
    simp [addRate_eq, add_assoc]
  simp only [Game2D.calculate_W_down_right, h]
  rw [foldl_add_range, zero_add]

/-- A one-direction edge sum equals the sum over the opposite direction. -/
theorem dirSum_opposite (c : Nat → Nat → K) (hc : ∀ p q, c p q = c q p) (N : Nat)
    (u d : Nat → Nat) (hu : ∀ s, s < N → u s < N) (hd : ∀ s, s < N → d s < N)
    (hud : ∀ s, s < N → u (d s) = s) (hdu : ∀ s, s < N → d (u s) = s) :
    ∑ s in range N, c s (d s) = ∑ s in range N, c s (u s) := by
  refine Finset.sum_nbij' d u ?_ ?_ ?_ ?_ ?_
  · intro s hs; exact mem_range.mpr (hd s (mem_range.mp hs))
  · intro s hs; exact mem_range.mpr (hu s (mem_range.mp hs))
  · intro s hs; exact hud s (mem_range.mp hs)
  · intro s hs; exact hdu s (mem_range.mp hs)
  · intro s hs; rw [hud s (mem_range.mp hs), hc]

/-- **C17** Direction choice of the full recomputation.  On a well-formed engine,
`calculate_W()`, taken over the up and left neighbours of every site, equals the same sum
taken over the down and right neighbours; and the sum of `W_ind(s)` over all sites is
`2 * calculate_W()`. -/
theorem direction_choice (g : Game2D K) (hwf : g.WF) :
    g.calculate_W = g.calculate_W_down_right ∧
    ∑ s in range g.N, g.W_ind s = 2 * g.calculate_W := by
  have hlt := fun s hs => wf_nbr_lt hwf s hs
  have hinv := fun s hs => wf_nbr_inv hwf s hs
  have o0 := dirSum_opposite g.pairRate (pairRate_comm g) g.N (g.nbr 0) (g.nbr 2)
    (fun s hs => (hlt s hs).1) (fun s hs => (hlt s hs).2.2.1)
    (fun s hs => (hinv s hs).2.1) (fun s hs => (hinv s hs).1)
  have o1 := dirSum_opposite g.pairRate (pairRate_comm g) g.N (g.nbr 1) (g.nbr 3)
    (fun s hs => (hlt s hs).2.1) (fun s hs => (hlt s hs).2.2.2)
    (fun s hs => (hinv s hs).2.2.2) (fun s hs => (hinv s hs).2.2.1)
  have e1 : g.calculate_W = ∑ s in range g.N, g.pairRate s (g.nbr 0 s)
      + ∑ s in range g.N, g.pairRate s (g.nbr 1 s) := by
    rw [calculate_W_eq, Finset.sum_add_distrib]
  have e2 : g.calculate_W_down_right = ∑ s in range g.N, g.pairRate s (g.nbr 2 s)
      + ∑ s in range g.N, g.pairRate s (g.nbr 3 s) := by
    rw [calculate_W_down_right_eq, Finset.sum_add_distrib]
  have e3 : ∑ s in range g.N, g.W_ind s =
      ∑ s in range g.N, g.pairRate s (g.nbr 0 s) + ∑ s in range g.N, g.pairRate s (g.nbr 1 s)
      + ∑ s in range g.N, g.pairRate s (g.nbr 2 s)
      + ∑ s in range g.N, g.pairRate s (g.nbr 3 s) := by
    simp only [W_ind_eq, Finset.sum_add_distrib]
  constructor
  · rw [e1, e2, o0, o1]
  · rw [e3, e1, o0, o1]; ring

theorem direction_choice_witness :
    demoGame3.calculate_W = demoGame3.calculate_W_down_right ∧
    ∑ s in range demoGame3.N, demoGame3.W_ind s = 2 * demoGame3.calculate_W :=
  direction_choice demoGame3 (by decide)

theorem fillTable_length (L : Nat) (f : Nat → Nat → Nat) : (fillTable L f).length = L * L := by
  have h : (List.length ∘ fun i => List.map (fun j => f i j) (List.range L)) = fun _ => L := by
    funext i; simp
  simp [fillTable, List.length_flatMap, h]

theorem loadOrder_eq (L : Nat) (hL : L < 65536) : loadOrder L = List.range (L * L) := by
  have hlen : (loadOrder L).length = L * L := fillTable_length L (fun i j => pos_by_indeces L i j)
  apply List.ext_getElem (by rw [hlen, List.length_range])
  intro p h1 h2
  rw [hlen] at h1
  have e : (fillTable L (fun i j => pos_by_indeces L i j)).getD (p / L * L + p % L) 0 =
      pos_by_indeces L (p / L) (p % L) :=
    fillTable_getD L _ _ _ (row_lt L p h1) (col_lt L p h1)
  rw [Nat.div_add_mod' p L, pos_by_indeces_eq L _ _ hL (row_lt L p h1) (col_lt L p h1),
    Nat.div_add_mod' p L] at e
  rw [List.getElem_range]
  have e2 : (loadOrder L).getD p 0 = (loadOrder L)[p] := List.getD_eq_getElem _ _ _
  rw [← e2]
  exact e

theorem readable_cons (v : Nat) (rest : List Nat) :
    readable (v :: rest) = if v < USHORT_MOD then v :: readable rest else [] := by
  unfold readable
  rw [List.takeWhile_cons]
  by_cases h : v < USHORT_MOD <;> simp [h]

theorem readCells_ok :
    ∀ (n s : Nat) (input animals : List Nat), n ≤ (readable input).length →
      ∃ a, readCells (List.range' s n) input animals = Except.ok a ∧
        a.length = animals.length ∧
        (∀ k, k < n → s + k < animals.length → a.getD (s + k) 0 = input.getD k 0) ∧
        (∀ p, p < s → a.getD p 0 = animals.getD p 0) := by
  intro n
  induction n with
  | zero =>
    intro s input animals _
    exact ⟨animals, rfl, rfl, fun k hk => absurd hk (Nat.not_lt_zero k), fun _ _ => rfl⟩
  | succ n ih =>
    intro s input animals h
    cases input with
    | nil => simp [readable] at h
    | cons v rest =>
      rw [readable_cons] at h
      by_cases hv : v < USHORT_MOD
      · rw [if_pos hv, List.length_cons] at h
        obtain ⟨a, ha, hlen, hk, hp⟩ := ih (s + 1) rest (animals.set s v) (by omega)
        refine ⟨a, ?_, by rw [hlen, List.length_set], ?_, ?_⟩
        · rw [List.range'_succ, readCells, if_pos hv]; exact ha
        · intro k hk' hs
          cases k with
          | zero =>
            rw [Nat.add_zero] at hs ⊢
            rw [hp s (by omega), getD_set_eq _ _ _ hs]
            rfl
          | succ k =>
            have := hk k (by omega) (by rw [List.length_set]; omega)
            rw [show s + (k + 1) = s + 1 + k by omega, this]
            rfl
        · intro p hps
          rw [hp p (by omega), getD_set_ne _ _ _ _ (by omega)]
      · rw [if_neg hv] at h
        simp at h

theorem readCells_error :
    ∀ (n s : Nat) (input animals : List Nat), (readable input).length < n →
      readCells (List.range' s n) input animals
        = Except.error "The file does not have enough data" := by
  intro n
  induction n with
  | zero => intro s input animals h; omega
  | succ n ih =>
    intro s input animals h
    rw [List.range'_succ]
    cases input with
    | nil => rfl
    | cons v rest =>
      rw [readable_cons] at h
      by_cases hv : v < USHORT_MOD
      · rw [if_pos hv, List.length_cons] at h
        rw [readCells, if_pos hv]
        exact ih (s + 1) rest _ (by omega)
      · rw [readCells, if_neg hv]

/-- **C11** Bulk load.  On a well-formed engine and for every input sequence of unsigned
integers, `load_from_txt` throws the "not enough data" error if and only if fewer than
`L*L` values can be read from the input; otherwise it returns, cell `(i, j)` holds the
`(i*L + j)`-th input value for all `i, j < L`, and `W` equals `calculate_W()` of the loaded
lattice. -/
theorem bulk_load (g : Game2D K) (hwf : g.WF) (input : List Nat) :
    (g.load_from_txt input = Except.error "The file does not have enough data" ↔
      (readable input).length < g.L * g.L) ∧
    (g.L * g.L ≤ (readable input).length →
      ∃ g', g.load_from_txt input = Except.ok g' ∧
        (∀ i j, i < g.L → j < g.L →
          g'.cell (pos_by_indeces g.L i j) = input.getD (i * g.L + j) 0) ∧
        g'.W = g'.calculate_W ∧ g'.L = g.L ∧ g'.animals.length = g.animals.length) := by
  have hord : loadOrder g.L = List.range' 0 (g.L * g.L) := by
    rw [loadOrder_eq g.L hwf.1, List.range_eq_range']
  have hok : g.L * g.L ≤ (readable input).length →
      ∃ g', g.load_from_txt input = Except.ok g' ∧
        (∀ i j, i < g.L → j < g.L →
          g'.cell (pos_by_indeces g.L i j) = input.getD (i * g.L + j) 0) ∧
        g'.W = g'.calculate_W ∧ g'.L = g.L ∧ g'.animals.length = g.animals.length := by
    intro h
    obtain ⟨a, ha, hlen, hk, -⟩ := readCells_ok (g.L * g.L) 0 input g.animals h
    refine ⟨{ g with animals := a, W := Game2D.calculate_W { g with animals := a } }, ?_, ?_,
      rfl, rfl, hlen⟩
    · unfold Game2D.load_from_txt
      rw [hord, ha]
    · intro i j hi hj
      have hp := site_lt g.L i j hi hj
      rw [pos_by_indeces_eq g.L i j hwf.1 hi hj]
      have := hk (i * g.L + j) hp (by rw [Nat.zero_add, hwf.2.1, wf_N_eq hwf]; exact hp)
      rw [Nat.zero_add] at this
      exact this
  refine ⟨⟨fun h => ?_, fun h => ?_⟩, hok⟩
  · by_contra hge
    obtain ⟨g', hg', -⟩ := hok (not_lt.mp hge)
    rw [hg'] at h
    exact absurd h (by simp)
  · unfold Game2D.load_from_txt
    rw [hord, readCells_error (g.L * g.L) 0 input g.animals h]

theorem bulk_load_witness :
    (demoGame.load_from_txt [3, 2, 1, 0, 5] = Except.error "The file does not have enough data" ↔
      (readable [3, 2, 1, 0, 5]).length < demoGame.L * demoGame.L) ∧
    (demoGame.L * demoGame.L ≤ (readable [3, 2, 1, 0, 5]).length →
      ∃ g', demoGame.load_from_txt [3, 2, 1, 0, 5] = Except.ok g' ∧
        (∀ i j, i < demoGame.L → j < demoGame.L →
          g'.cell (pos_by_indeces demoGame.L i j) = [3, 2, 1, 0, 5].getD (i * demoGame.L + j) 0) ∧
        g'.W = g'.calculate_W ∧ g'.L = demoGame.L ∧
        g'.animals.length = demoGame.animals.length) :=
  bulk_load demoGame (by decide) [3, 2, 1, 0, 5]

end Rates

/-! ## Frame names -/

theorem toDigitsCore_small (f n : Nat) (ds : List Char) (hn : n < 10) :
    Nat.toDigitsCore 10 (f + 1) n ds = Nat.digitChar n :: ds := by
  have h1 : n / 10 = 0 := by omega
  have h2 : n % 10 = n := by omega
  simp [Nat.toDigitsCore, h1, h2]

theorem toDigitsCore_step (f n : Nat) (ds : List Char) (hn : 10 ≤ n) :
    Nat.toDigitsCore 10 (f + 1) n ds
      = Nat.toDigitsCore 10 f (n / 10) (Nat.digitChar (n % 10) :: ds) := by
  have h1 : n / 10 ≠ 0 := by omega
  simp [Nat.toDigitsCore, h1]

/-- The five characters of a frame name: the decimal digits of `n`, most significant
first. -/
theorem frame_to_string_digits (n : Nat) (hn : n ≤ 99999) :
    frame_to_string n = some (String.mk
      [Nat.digitChar (n / 10000 % 10), Nat.digitChar (n / 1000 % 10),
       Nat.digitChar (n / 100 % 10), Nat.digitChar (n / 10 % 10), Nat.digitChar (n % 10)]) := by
  have z : Nat.digitChar 0 = '0' := rfl
  unfold frame_to_string to_string Nat.toDigits
  by_cases h1 : n < 10
  · rw [toDigitsCore_small n n [] h1]
    have e4 : n / 10000 % 10 = 0 := by omega
    have e3 : n / 1000 % 10 = 0 := by omega
    have e2 : n / 100 % 10 = 0 := by omega
    have e1 : n / 10 % 10 = 0 := by omega
    have e0 : n % 10 = n := by omega
    simp [e4, e3, e2, e1, e0, z, List.replicate]
  · obtain ⟨f1, hf1⟩ : ∃ f, n = f + 1 := ⟨n - 1, by omega⟩
    rw [toDigitsCore_step n n [] (by omega)]
    by_cases h2 : n < 100
    · rw [hf1, toDigitsCore_small f1 _ _ (by omega), ← hf1]
      have e4 : n / 10000 % 10 = 0 := by omega
      have e3 : n / 1000 % 10 = 0 := by omega
      have e2 : n / 100 % 10 = 0 := by omega
      have e1 : n / 10 % 10 = n / 10 := by omega
      simp [e4, e3, e2, e1, z, List.replicate]
    · obtain ⟨f2, hf2⟩ : ∃ f, f1 = f + 1 := ⟨f1 - 1, by omega⟩
      rw [hf1, hf2, toDigitsCore_step _ _ _ (by omega), ← hf2, ← hf1]
      by_cases h3 : n < 1000
      · rw [hf1, hf2, toDigitsCore_small f2 _ _ (by omega), ← hf2, ← hf1]
        have e4 : n / 10000 % 10 = 0 := by omega
        have e3 : n / 1000 % 10 = 0 := by omega
        have e2 : n / 100 % 10 = n / 10 / 10 := by omega
        simp [e4, e3, e2, z, List.replicate]
      · obtain ⟨f3, hf3⟩ : ∃ f, f2 = f + 1 := ⟨f2 - 1, by omega⟩
        rw [hf1, hf2, hf3, toDigitsCore_step _ _ _ (by omega), ← hf3, ← hf2, ← hf1]
        by_cases h4 : n < 10000
        · rw [hf1, hf2, hf3, toDigitsCore_small f3 _ _ (by omega), ← hf3, ← hf2, ← hf1]
          have e4 : n / 10000 % 10 = 0 := by omega
          have e3 : n / 1000 % 10 = n / 10 / 10 / 10 := by omega
          have e2 : n / 100 % 10 = n / 10 / 10 % 10 := by omega
          simp [e4, e3, e2, z, List.replicate]
        · obtain ⟨f4, hf4⟩ : ∃ f, f3 = f + 1 := ⟨f3 - 1, by omega⟩
          rw [hf1, hf2, hf3, hf4, toDigitsCore_step _ _ _ (by omega),
            toDigitsCore_small f4 _ _ (by omega), ← hf4, ← hf3, ← hf2, ← hf1]
          have e4 : n / 10000 % 10 = n / 10 / 10 / 10 / 10 := by omega
          have e3 : n / 1000 % 10 = n / 10 / 10 / 10 % 10 := by omega
          have e2 : n / 100 % 10 = n / 10 / 10 % 10 := by omega
          simp [e4, e3, e2, List.replicate]

theorem digitChar_facts :
    ∀ d, d < 10 → (Nat.digitChar d).toNat = 48 + d ∧ (Nat.digitChar d).isDigit = true := by
  decide

theorem digitChar_lt : ∀ a, a < 10 → ∀ b, b < 10 → a < b → Nat.digitChar a < Nat.digitChar b := by
  decide

/-- Lexicographic comparison of two five-digit names follows the numbers. -/
theorem five_digits_lt (n m : Nat) (hm : m ≤ 99999) (h : n < m) :
    List.Lex (fun a b => a < b)
      [Nat.digitChar (n / 10000 % 10), Nat.digitChar (n / 1000 % 10),
      Nat.digitChar (n / 100 % 10), Nat.digitChar (n / 10 % 10), Nat.digitChar (n % 10)]
      [Nat.digitChar (m / 10000 % 10), Nat.digitChar (m / 1000 % 10),
      Nat.digitChar (m / 100 % 10), Nat.digitChar (m / 10 % 10), Nat.digitChar (m % 10)] := by
  by_cases h4 : n / 10000 % 10 < m / 10000 % 10
  · exact List.Lex.rel (digitChar_lt _ (by omega) _ (by omega) h4)
  · have e4 : n / 10000 % 10 = m / 10000 % 10 := by omega
    rw [e4]
    refine List.Lex.cons ?_
    by_cases h3 : n / 1000 % 10 < m / 1000 % 10
    · exact List.Lex.rel (digitChar_lt _ (by omega) _ (by omega) h3)
    · have e3 : n / 1000 % 10 = m / 1000 % 10 := by omega
      rw [e3]
      refine List.Lex.cons ?_
      by_cases h2 : n / 100 % 10 < m / 100 % 10
      · exact List.Lex.rel (digitChar_lt _ (by omega) _ (by omega) h2)
      · have e2 : n / 100 % 10 = m / 100 % 10 := by omega
        rw [e2]
        refine List.Lex.cons ?_
        by_cases h1 : n / 10 % 10 < m / 10 % 10
        · exact List.Lex.rel (digitChar_lt _ (by omega) _ (by omega) h1)
        · have e1 : n / 10 % 10 = m / 10 % 10 := by omega
          rw [e1]
          refine List.Lex.cons ?_
          exact List.Lex.rel (digitChar_lt _ (by omega) _ (by omega) (by omega))

theorem five_digits_value (n : Nat) (hn : n ≤ 99999) :
    decimalValue (String.mk
      [Nat.digitChar (n / 10000 % 10), Nat.digitChar (n / 1000 % 10),
       Nat.digitChar (n / 100 % 10), Nat.digitChar (n / 10 % 10), Nat.digitChar (n % 10)]) = n := by
  have f4 := (digitChar_facts (n / 10000 % 10) (by omega)).1
  have f3 := (digitChar_facts (n / 1000 % 10) (by omega)).1
  have f2 := (digitChar_facts (n / 100 % 10) (by omega)).1
  have f1 := (digitChar_facts (n / 10 % 10) (by omega)).1
  have f0 := (digitChar_facts (n % 10) (by omega)).1
  simp only [decimalValue, List.foldl, f4, f3, f2, f1, f0]
  omega

/-- **C18** Frame numbering.  For every `n ≤ 99999`, `frame_to_string(n)` returns a
string of exactly 5 decimal digits, the decimal numeral of `n` padded on the left with
`'0'`; its numeric value is `n`; distinct frame numbers give distinct names, and a smaller
number gives a lexicographically smaller name. -/
theorem frame_numbering (n : Nat) (hn : n ≤ 99999) :
    ∃ s, frame_to_string n = some s ∧ s.length = 5 ∧ (∀ c ∈ s.data, c.isDigit = true) ∧
      s.data = List.replicate (5 - (to_string n).length) '0' ++ (to_string n).data ∧
      decimalValue s = n ∧
      ∀ m s', m ≤ 99999 → frame_to_string m = some s' →
        (n ≠ m → s ≠ s') ∧ (n < m → s < s') := by
  have hd := frame_to_string_digits n hn
  refine ⟨_, hd, rfl, ?_, ?_, five_digits_value n hn, ?_⟩
  · intro c hc
    simp only [List.mem_cons, List.mem_singleton, List.not_mem_nil, or_false] at hc
    rcases hc with rfl | rfl | rfl | rfl | rfl <;> exact (digitChar_facts _ (by omega)).2
  · have h := hd
    unfold frame_to_string at h
    simp only at h
    split_ifs at h
    simp only [Option.some.injEq] at h
    rw [← h]
  · intro m s' hm hs'
    rw [frame_to_string_digits m hm] at hs'
    simp only [Option.some.injEq] at hs'
    subst hs'
    constructor
    · intro hne heq
      have v1 := five_digits_value n hn
      have v2 := five_digits_value m hm
      rw [heq, v2] at v1
      exact hne v1.symm
    · intro hlt
      rw [String.lt_iff_toList_lt]
      exact five_digits_lt n m hm hlt

theorem frame_numbering_witness :
    ∃ s, frame_to_string 42 = some s ∧ s.length = 5 ∧ (∀ c ∈ s.data, c.isDigit = true) ∧
      s.data = List.replicate (5 - (to_string 42).length) '0' ++ (to_string 42).data ∧
      decimalValue s = 42 ∧
      ∀ m s', m ≤ 99999 → frame_to_string m = some s' →
        (42 ≠ m → s ≠ s') ∧ (42 < m → s < s') :=
  frame_numbering 42 (by decide)

/-! ## The queue under single-threaded use -/

section QueueFacts

variable {T : Type}

theorem holds_create : (threadsafe_queue.create : threadsafe_queue T).Holds [] := rfl

theorem holds_push (q : threadsafe_queue T) (P : List T) (v : T) (h : q.Holds P) :
    (q.push v).Holds (P ++ [v]) := by
  unfold threadsafe_queue.Holds threadsafe_queue.push at *
  rw [h, List.dropLast_concat]
  simp

theorem holds_contents (q : threadsafe_queue T) (P : List T) (h : q.Holds P) :
    q.contents = P := by
  unfold threadsafe_queue.contents
  rw [h]
  clear h
  induction P with
  | nil => rfl
  | cons x P ih => rw [List.map_cons, List.cons_append, List.filterMap_cons]; simp only; rw [ih]

theorem holds_empty (q : threadsafe_queue T) (P : List T) (h : q.Holds P) :
    q.empty = true ↔ P = [] := by
  unfold threadsafe_queue.empty
  rw [h]
  cases P with
  | nil => simp
  | cons x P =>
    cases P with
    | nil => simp
    | cons y P => simp

theorem holds_try_pop_nil (q : threadsafe_queue T) (d : T) (h : q.Holds []) :
    q.try_pop d = some (false, d, q) := by
  have hc : q.chain = [⟨none⟩] := h
  unfold threadsafe_queue.try_pop threadsafe_queue.try_pop_head
  rw [hc]
  rfl

theorem holds_try_pop_cons (q : threadsafe_queue T) (d x : T) (P : List T)
    (h : q.Holds (x :: P)) :
    ∃ q', q.try_pop d = some (true, x, q') ∧ q'.Holds P := by
  have hc : q.chain = ⟨some x⟩ :: (P.map (fun x => (⟨some x⟩ : node T)) ++ [⟨none⟩]) := h
  refine ⟨⟨P.map (fun x => (⟨some x⟩ : node T)) ++ [(⟨none⟩ : node T)]⟩, ?_, rfl⟩
  unfold threadsafe_queue.try_pop threadsafe_queue.try_pop_head threadsafe_queue.pop_head
  rw [hc]
  cases P with
  | nil => rfl
  | cons y P => rfl

theorem runCalls_holds (ops : List (QueueCall T)) :
    ∀ (q : threadsafe_queue T) (outs P : List T), q.Holds P →
      ∃ q' outs' P', runCalls (q, outs) ops = some (q', outs') ∧ q'.Holds P' ∧
        outs' ++ P' = outs ++ P ++ pushedValues ops := by
  induction ops with
  | nil =>
    intro q outs P h
    exact ⟨q, outs, P, rfl, h, by simp [pushedValues]⟩
  | cons c rest ih =>
    intro q outs P h
    cases c with
    | push v =>
      obtain ⟨q', outs', P', h1, h2, h3⟩ := ih (q.push v) outs (P ++ [v]) (holds_push q P v h)
      exact ⟨q', outs', P', h1, h2, by rw [h3]; simp [pushedValues]⟩
    | try_pop d =>
      cases P with
      | nil =>
        obtain ⟨q', outs', P', h1, h2, h3⟩ := ih q outs [] h
        refine ⟨q', outs', P', ?_, h2, by rw [h3]; simp [pushedValues]⟩
        rw [runCalls, holds_try_pop_nil q d h]
        exact h1
      | cons x P =>
        obtain ⟨q1, hq1, hh⟩ := holds_try_pop_cons q d x P h
        obtain ⟨q', outs', P', h1, h2, h3⟩ := ih q1 (outs ++ [x]) P hh
        refine ⟨q', outs', P', ?_, h2, by rw [h3]; simp [pushedValues]⟩
        rw [runCalls, hq1]
        exact h1

/-- **C20** Sequential FIFO behaviour of `threadsafe_queue`.  After any sequence of `push`
and `try_pop` calls on a newly constructed queue (single-threaded), no call has
dereferenced a null pointer; the values stored by the successful `try_pop` calls, followed
by the values still in the queue, are the pushed values in the order of the pushes;
`empty()` is true exactly when as many values have been popped as pushed, and then
`try_pop(value)` returns `false` and leaves `value` and the queue as they are; otherwise
`try_pop(value)` returns `true`, stores in `value` the oldest pushed value not yet popped and
removes it from the queue. -/
theorem queue_fifo (ops : List (QueueCall T)) :
    ∃ q outs, runCalls (threadsafe_queue.create, []) ops = some (q, outs) ∧
      outs ++ q.contents = pushedValues ops ∧
      (q.empty = true ↔ outs.length = (pushedValues ops).length) ∧
      ∀ d : T,
        (outs.length = (pushedValues ops).length → q.try_pop d = some (false, d, q)) ∧
        (outs.length ≠ (pushedValues ops).length →
          ∃ x q', (pushedValues ops)[outs.length]? = some x ∧
            q.try_pop d = some (true, x, q') ∧ q'.contents = q.contents.tail ∧
            q.empty = false) := by
  obtain ⟨q, outs, P, h1, h2, h3⟩ := runCalls_holds ops threadsafe_queue.create [] [] holds_create
  simp only [List.nil_append] at h3
  have hlen : outs.length = (pushedValues ops).length ↔ P = [] := by
    rw [← h3, List.length_append]
    constructor
    · intro h
      exact List.eq_nil_of_length_eq_zero (by omega)
    · intro h
      rw [h]; simp
  refine ⟨q, outs, h1, by rw [holds_contents q P h2]; exact h3,
    by rw [holds_empty q P h2, hlen], ?_⟩
  intro d
  constructor
  · intro h
    have hP := hlen.mp h
    subst hP
    exact holds_try_pop_nil q d h2
  · intro h
    cases P with
    | nil => exact absurd (hlen.mpr rfl) h
    | cons x P =>
      obtain ⟨q', hq', hh⟩ := holds_try_pop_cons q d x P h2
      refine ⟨x, q', ?_, hq', ?_, ?_⟩
      · rw [← h3, List.getElem?_append_right (le_refl _), Nat.sub_self]
        exact List.getElem?_cons_zero
      · rw [holds_contents q' P hh, holds_contents q (x :: P) h2]; rfl
      · cases he : q.empty with
        | false => rfl
        | true => exact absurd ((holds_empty q (x :: P) h2).mp he) (by simp)

theorem queue_fifo_witness :
    ∃ q outs, runCalls (threadsafe_queue.create, [])
        [QueueCall.push 1, QueueCall.push 2, QueueCall.try_pop 0] = some (q, outs) ∧
      outs ++ q.contents
        = pushedValues [QueueCall.push 1, QueueCall.push 2, QueueCall.try_pop 0] ∧
      (q.empty = true ↔ outs.length
        = (pushedValues [QueueCall.push 1, QueueCall.push 2, QueueCall.try_pop 0]).length) ∧
      ∀ d : Nat,
        (outs.length
            = (pushedValues [QueueCall.push 1, QueueCall.push 2, QueueCall.try_pop 0]).length →
          q.try_pop d = some (false, d, q)) ∧
        (outs.length
            ≠ (pushedValues [QueueCall.push 1, QueueCall.push 2, QueueCall.try_pop 0]).length →
          ∃ x q', (pushedValues
              [QueueCall.push 1, QueueCall.push 2, QueueCall.try_pop 0])[outs.length]? = some x ∧
            q.try_pop d = some (true, x, q') ∧ q'.contents = q.contents.tail ∧
            q.empty = false) :=
  queue_fifo [QueueCall.push 1, QueueCall.push 2, QueueCall.try_pop 0]

end QueueFacts

/-! ## Executions on concrete lattices -/

/-- **C2** Text round trip, on a 2 × 2 lattice.  For the lattice `0 1 / 2 3`,
`save_to_txt` writes the lines `0 0 1` and `2 2 3` (the first value of each row twice), and
`load_from_txt` of those values into an engine of side 2 returns normally with the lattice
`0 0 / 1 2` and `W = 9`, not the saved lattice `0 1 / 2 3` with `W = 12`. -/
theorem save_load_roundtrip_fails :
    demoGame.animals = [0, 1, 2, 3] ∧ demoGame.calculate_W = 12 ∧
    demoGame.save_to_txt = [[0, 0, 1], [2, 2, 3]] ∧
    demoGame.load_from_txt (fileValues demoGame.save_to_txt) =
      Except.ok { demoGame with animals := [0, 0, 1, 2], W := 9 } := by
  refine ⟨by decide, by decide!, by decide, by decide!⟩

/-- **C3** Terminal condition, on a 2 × 2 lattice.  On the lattice filled with `TYPE_A`,
with `W = 0` and clock `0`, `operator++` throws and leaves the lattice as it was, but the
clock it leaves is `0 - log(u1)/0`, which is not `0`; for a draw with `log(u1) < 0` it is
`+∞`. -/
theorem terminal_step_moves_clock :
    uniformGame.W = 0 ∧ uniformGame.calculate_W = 0 ∧ uniformGame.t = Clock.fin 0 ∧
    uniformGame.animals = [TYPE_A, TYPE_A, TYPE_A, TYPE_A] ∧
    (∀ (log : ℚ → ℚ) (u1 u2 : ℚ), ∃ g', uniformGame.operator_inc log u1 u2 = Except.error g' ∧
      g'.animals = uniformGame.animals ∧ g'.t ≠ uniformGame.t) ∧
    uniformGame.operator_inc demoLog (1 / 2) (1 / 2) =
      Except.error { uniformGame with t := Clock.posInf } := by
  refine ⟨by decide!, by decide!, by decide, by decide, ?_, by decide!⟩
  intro log u1 u2
  obtain ⟨h1, h2, h3, -⟩ := uniform_step_throws log uniformGame u1 u2 0 TYPE_A (by decide) (by decide)
    (by decide!) (by decide)
  exact ⟨_, h1, h2, h3⟩

end MobDiver
